import Mathlib

/-!
fastq-depth: genome length, read counting, coverage and number formatting.

A shallow embedding of `src/fastq/fastq-depth.c`.

* A file is the list of its (decompressed) bytes, each byte a natural number.
  `gzopen` is the lookup of that content: `none` is a file that cannot be opened.
* `gzgets fp len` is the zlib line reader: it delivers at most `len - 1` bytes and stops
  after a newline; it fails at end of input.
* The `char line[MAX_LINE]` buffer holds what `gzgets` delivered followed by a NUL byte,
  so the C string functions (`strlen`, `strncmp`, the `*p` scans) see the delivered bytes
  up to the first NUL byte: `cstr`.
* `isalpha` and `isdigit` are those of the C locale.
* `long long` counters are natural numbers: a counter is bounded by the number of bytes
  of the files read, far below `2^63`.
-/

namespace FastqDepth

/-- `#define MAX_LINE 65536` -/
def MAX_LINE : Nat := 65536

/-- `isalpha` of `<ctype.h>` in the C locale: `A`..`Z` and `a`..`z`. -/
def isalpha (c : Nat) : Bool := (65 ≤ c && c ≤ 90) || (97 ≤ c && c ≤ 122)

/-- `isdigit` of `<ctype.h>`: `0`..`9`. -/
def isdigit (c : Nat) : Bool := 48 ≤ c && c ≤ 57

/-- The C string held in a buffer: the bytes before the first NUL byte. -/
def cstr (buf : List Nat) : List Nat := buf.takeWhile (fun c => c != 0)

/-- The bytes `gzgets` transfers when `n` bytes of room are left, and the rest of the
stream: it stops after a newline (byte 10), at end of input, or when the room is used up. -/
def gzread : Nat → List Nat → List Nat × List Nat
  | 0, s => ([], s)
  | _ + 1, [] => ([], [])
  | n + 1, c :: cs =>
    if c = 10 then ([c], cs) else (c :: (gzread n cs).1, (gzread n cs).2)

/-- `gzgets(fp, line, len)`: `none` (NULL) when no byte is left, otherwise the bytes put
in `line` (at most `len - 1`) and the stream after them. -/
def gzgets (fp : List Nat) (len : Nat) : Option (List Nat × List Nat) :=
  match fp with
  | [] => none
  | _ :: _ => some (gzread (len - 1) fp)

/-- The local variables of `genome_length` that live across loop iterations. -/
structure GState where
  total : Nat
  in_sequence : Bool
  is_genbank : Bool
  format_detected : Bool
  deriving DecidableEq, Repr

/-- `while (*p == ' ' || *p == '\t') p++;` -/
def skip_ws (p : List Nat) : List Nat := p.dropWhile (fun c => c == 32 || c == 9)

/-- The byte `*p`: the first byte of the string, or the terminating NUL. -/
def deref (p : List Nat) : Nat := p.headD 0

/-- The string literal "LOCUS". -/
def LOCUS : List Nat := [76, 79, 67, 85, 83]

/-- The string literal "ORIGIN". -/
def ORIGIN : List Nat := [79, 82, 73, 71, 73, 78]

/-- `strncmp(p, lit, n) == 0` for a literal `lit` of `n` bytes without NUL. -/
def strncmp_eq (p lit : List Nat) (n : Nat) : Bool := p.take n == lit

/-- `for (; *p; p++) if (isalpha(*p)) total++;` -/
def count_bases (p : List Nat) : Nat := p.countP isalpha

/-- Lines 93-126 of `genome_length`: the GenBank branch and the FASTA branch of the loop
body, `p` being the line after its leading spaces and tabs. -/
def genome_count (st : GState) (p : List Nat) : GState :=
  if st.is_genbank then
    if strncmp_eq p ORIGIN 6 then { st with in_sequence := true }
    else if deref p = 47 ∧ deref (p.drop 1) = 47 then { st with in_sequence := false }
    else if st.in_sequence then
      let p1 := p.dropWhile isdigit
      let p2 := p1.dropWhile (fun c => c == 32)
      { st with total := st.total + count_bases p2 }
    else st
  else
    if deref p = 62 ∨ deref p = 59 then st
    else { st with total := st.total + count_bases p }

/-- The body of the `while` loop of `genome_length` (lines 76-126) on one delivered
line. -/
def genome_body (st : GState) (line : List Nat) : GState :=
  let p := skip_ws (cstr line)
  if st.format_detected = false ∧ deref p ≠ 0 ∧ deref p ≠ 59 ∧ deref p ≠ 35 then
    if deref p = 62 then
      { st with format_detected := true, is_genbank := false }
    else if strncmp_eq p LOCUS 5 then
      { st with format_detected := true, is_genbank := true }
    else genome_count st p
  else genome_count st p

/-- `while (gzgets(fp, line, MAX_LINE)) { ... }` of `genome_length`; every iteration
consumes at least one byte, so `fuel` = the number of bytes left is enough. -/
def genome_loop : Nat → GState → List Nat → GState
  | 0, st, _ => st
  | fuel + 1, st, fp =>
    match gzgets fp MAX_LINE with
    | none => st
    | some (line, fp1) => genome_loop fuel (genome_body st line) fp1

/-- The initial values of the locals of `genome_length`. -/
def genome_init : GState :=
  { total := 0, in_sequence := false, is_genbank := false, format_detected := false }

/-- `long long genome_length(const char *filename)`; the argument is what `gzopen`
finds: `none` when the file cannot be opened. -/
def genome_length (file : Option (List Nat)) : Int :=
  match file with
  | none => -1
  | some fp =>
    let st := genome_loop fp.length genome_init fp
    if st.format_detected = false then -1 else (st.total : Int)

/-- `fastq_result_t` -/
structure fastq_result_t where
  bases : Int
  reads : Int
  deriving DecidableEq, Repr

/-- Lines 161-162 of `fastq_bases`: `strlen(line)`, less one for a final newline. -/
def seq_len (line : List Nat) : Nat :=
  let len := (cstr line).length
  if 0 < len ∧ (cstr line).getLast? = some 10 then len - 1 else len

/-- The `while` loop of `fastq_bases` (lines 156-172): four `gzgets` calls per iteration;
the result is `(total_bases, num_reads)`. -/
def fastq_loop : Nat → Nat → Nat → List Nat → Nat × Nat
  | 0, total_bases, num_reads, _ => (total_bases, num_reads)
  | fuel + 1, total_bases, num_reads, fp =>
    match gzgets fp MAX_LINE with
    | none => (total_bases, num_reads)
    | some (_, fp1) =>
      match gzgets fp1 MAX_LINE with
      | none => (total_bases, num_reads)
      | some (line, fp2) =>
        match gzgets fp2 MAX_LINE with
        | none => (total_bases + seq_len line, num_reads)
        | some (_, fp3) =>
          match gzgets fp3 MAX_LINE with
          | none => (total_bases + seq_len line, num_reads)
          | some (_, fp4) => fastq_loop fuel (total_bases + seq_len line) (num_reads + 1) fp4

/-- `fastq_result_t fastq_bases(const char *filename)`; the argument is what `gzopen`
finds: `none` when the file cannot be opened. -/
def fastq_bases (file : Option (List Nat)) : fastq_result_t :=
  match file with
  | none => { bases := -1, reads := 0 }
  | some fp =>
    let r := fastq_loop fp.length 0 0 fp
    { bases := (r.1 : Int), reads := (r.2 : Int) }

/-- The bytes of an ASCII string. -/
def bytes (s : String) : List Nat := s.toList.map Char.toNat

/-! ## Auxiliary definitions for the statements -/

/-- The lines `gzgets` delivers one after the other until it fails, `fuel` bounding
their number. -/
def gzlines_fuel : Nat → List Nat → List (List Nat)
  | 0, _ => []
  | fuel + 1, fp =>
    match gzgets fp MAX_LINE with
    | none => []
    | some (line, fp1) => line :: gzlines_fuel fuel fp1

/-- The lines `gzgets` delivers from a stream until it fails. -/
def gzlines (fp : List Nat) : List (List Nat) := gzlines_fuel fp.length fp

/-- A stream that is empty or ends with a newline. -/
def EndsNL (a : List Nat) : Prop := a = [] ∨ ∃ x, a = x ++ [10]

/-- The file made of the given lines, each followed by a newline. -/
def joinLines (ls : List (List Nat)) : List Nat := (ls.map (fun l => l ++ [10])).flatten

/-- The state of the genome scan after the lines delivered from a stream. -/
def genome_run (st : GState) (s : List Nat) : GState := (gzlines s).foldl genome_body st

/-- A line that starts with `>`. -/
def isHeader (l : List Nat) : Bool := l.head? == some 62

/-- A line that, after its leading spaces and tabs are skipped, starts with `>` or with
`LOCUS`. -/
def starts_with_marker (l : List Nat) : Bool :=
  (skip_ws l).head? == some 62 || (skip_ws l).take 5 == LOCUS

/-- A line that, after its leading spaces and tabs are skipped, is empty or starts with
`;` or `#`: a blank line or a comment line. -/
def blank_or_comment (l : List Nat) : Bool :=
  skip_ws l == [] || (skip_ws l).head? == some 59 || (skip_ws l).head? == some 35

/-- The `while` loop of `fastq_bases` over the lines the reader delivers: a group of four
lines adds the length of its second line and one read; a final group of two or three
lines adds the length of its second line only. -/
def fastq_groups : Nat → Nat → List (List Nat) → Nat × Nat
  | total_bases, num_reads, _ :: line :: _ :: _ :: rest =>
    fastq_groups (total_bases + seq_len line) (num_reads + 1) rest
  | total_bases, num_reads, [_, line, _] => (total_bases + seq_len line, num_reads)
  | total_bases, num_reads, [_, line] => (total_bases + seq_len line, num_reads)
  | total_bases, num_reads, [_] => (total_bases, num_reads)
  | total_bases, num_reads, [] => (total_bases, num_reads)

/-- The second line of every complete group of four lines. -/
def seq_lines : List (List Nat) → List (List Nat)
  | _ :: line :: _ :: _ :: rest => line :: seq_lines rest
  | _ => []

/-- The lines of a file: the terminated lines `ls`, and the unterminated last line `tail`
when it is not empty. -/
def file_lines (ls : List (List Nat)) (tail : List Nat) : List (List Nat) :=
  if tail = [] then ls else ls ++ [tail]

/-- `#define MAX_FILES 100` -/
def MAX_FILES : Nat := 100

/-- The loop of `main` over the read files (lines 292-302): `none` is the `return 1` taken
when `fastq_bases` fails for a file, otherwise `(total_bases, total_reads)`. -/
def main_read_loop : List (Option (List Nat)) → Int → Int → Option (Int × Int)
  | [], total_bases, total_reads => some (total_bases, total_reads)
  | file :: rest, total_bases, total_reads =>
    if (fastq_bases file).bases < 0 then none
    else main_read_loop rest (total_bases + (fastq_bases file).bases)
      (total_reads + (fastq_bases file).reads)

/-- What one delivered line adds to `total` in FASTA mode: nothing when it starts, after
its leading spaces and tabs, with `>` or `;`, otherwise its letters. -/
def fasta_contrib (line : List Nat) : Nat :=
  if deref (skip_ws (cstr line)) = 62 ∨ deref (skip_ws (cstr line)) = 59 then 0
  else count_bases (skip_ws (cstr line))

/-- The lines whose length `fastq_bases` adds to `total_bases`: the second line of every
group of four, and the second line of a final group of two or three lines. -/
def counted_lines : List (List Nat) → List (List Nat)
  | _ :: line :: _ :: _ :: rest => line :: counted_lines rest
  | [_, line, _] => [line]
  | [_, line] => [line]
  | [_] => []
  | [] => []

/-- A line that, after its leading spaces and tabs are skipped, starts with `>` or `;`. -/
def starts_with_gt_or_semi (l : List Nat) : Bool :=
  (skip_ws l).head? == some 62 || (skip_ws l).head? == some 59

/-- The contribution of a line in sequence-record mode: 0 for a line that starts with `>`
or `;`, otherwise the number of alphabetic characters of the line (of its C string). -/
def fasta_line_count (l : List Nat) : Nat :=
  if starts_with_gt_or_semi l then 0 else count_bases (cstr l)

/-- A line that, after its leading spaces and tabs are skipped, starts with `ORIGIN`. -/
def starts_with_origin (l : List Nat) : Bool := (skip_ws l).take 6 == ORIGIN

/-- A line that, after its leading spaces and tabs are skipped, starts with `//`. -/
def starts_with_slashes (l : List Nat) : Bool := (skip_ws l).take 2 == [47, 47]

/-- The count of annotated-flat mode over the lines that follow the `LOCUS` line, from the
in-sequence state `in_seq`: an `ORIGIN` line turns the state on, a `//` line turns it off,
neither is counted; any other line adds its alphabetic characters (those of its C string)
while the state is on. -/
def genbank_count : Bool → List (List Nat) → Nat
  | _, [] => 0
  | in_seq, l :: ls =>
    if starts_with_origin l then genbank_count true ls
    else if starts_with_slashes l then genbank_count false ls
    else (if in_seq then count_bases (cstr l) else 0) + genbank_count in_seq ls

/-! ## Coverage: `double` arithmetic

The non-negative finite values of an IEEE 754 binary64 `double` are the numbers
`m * 2^k` with `m < 2^53`. Conversion from `long long` and division round to the nearest
such value, ties to even. The exponent range is not modelled: the operands here are
counts below `2^63` and a positive genome length, so no result overflows or is
subnormal. -/

/-- A non-negative finite `double`: the value `m * 2^k`. -/
structure binary64 where
  m : Nat
  k : Int
  deriving DecidableEq, Repr

/-- The number a `double` stands for. -/
def binary64.val (d : binary64) : ℚ := (d.m : ℚ) * (2 : ℚ) ^ d.k

/-- The integer nearest to `num / den`, ties to the even one. -/
def rne (num den : Nat) : Nat :=
  if 2 * (num % den) < den then num / den
  else if den < 2 * (num % den) then num / den + 1
  else num / den + (num / den) % 2

/-- Numerator and denominator of `(a / b) / 2^k`. -/
def scale (a b : Nat) (k : Int) : Nat × Nat :=
  if 0 ≤ k then (a, b * 2 ^ k.toNat) else (a * 2 ^ (-k).toNat, b)

/-- With enough fuel, the position of the leading bit of `n`: `2^(ilog2 fuel n) ≤ n`
and `n < 2^(ilog2 fuel n + 1)` for `0 < n ≤ fuel`. -/
def ilog2 : Nat → Nat → Nat
  | 0, _ => 0
  | fuel + 1, n => if n < 2 then 0 else ilog2 fuel (n / 2) + 1

/-- The exponent `k` for which `(a / b) / 2^k` lies in `[2^52, 2^53)`, for `a, b > 0`:
the difference of the leading bit positions less 52, or one less. -/
def exponent (a b : Nat) : Int :=
  if 2 ^ 52 * (scale a b ((ilog2 a a : Int) - (ilog2 b b : Int) - 52)).2
      ≤ (scale a b ((ilog2 a a : Int) - (ilog2 b b : Int) - 52)).1
  then (ilog2 a a : Int) - (ilog2 b b : Int) - 52
  else (ilog2 a a : Int) - (ilog2 b b : Int) - 52 - 1

/-- The `double` nearest to `a / b` (`b > 0`), ties to even: a 53-bit significand. -/
def rn_div (a b : Nat) : binary64 :=
  if a = 0 then { m := 0, k := 0 }
  else { m := rne (scale a b (exponent a b)).1 (scale a b (exponent a b)).2,
         k := exponent a b }

/-- `(double)n` for a non-negative `long long`. -/
def to_double (n : Int) : binary64 := rn_div n.toNat 1

/-- `x / y` on `double`s, `y > 0`. -/
def double_div (x y : binary64) : binary64 :=
  { m := (rn_div x.m y.m).m, k := (rn_div x.m y.m).k + x.k - y.k }

/-- `double coverage = (double)total_bases / genome_len;` (line 304). -/
def coverage (total_bases genome_len : Int) : binary64 :=
  double_div (to_double total_bases) (to_double genome_len)

/-- The value of a `double` in hundredths, rounded to the nearest integer, ties to even:
the rounding `printf` applies for `%.2f`. -/
def hundredths (d : binary64) : Nat :=
  if 0 ≤ d.k then d.m * 2 ^ d.k.toNat * 100 else rne (d.m * 100) (2 ^ (-d.k).toNat)

/-- The text `printf("%.2f", d)` writes. -/
def printf_2f (d : binary64) : String :=
  toString (hundredths d / 100) ++ "." ++ toString (hundredths d / 10 % 10)
    ++ toString (hundredths d % 10)

/-- What a successful run prints from: the totals, the genome length and the coverage. -/
structure run_output where
  total_bases : Int
  total_reads : Int
  genome_len : Int
  coverage : binary64
  deriving DecidableEq, Repr

/-- `main` from line 233 on, for a command line that names the genome file and the read
files `reads` (`fastq_count = reads.length`); a file that does not exist is a file that
cannot be opened. The result is the exit code and, when a coverage is printed, the values
printed. -/
def main (genome : Option (List Nat)) (reads : List (Option (List Nat))) :
    Int × Option run_output :=
  if reads.length = 0 then (1, none)
  else if reads.length > MAX_FILES then (1, none)
  else if genome_length genome < 0 then (1, none)
  else if genome_length genome = 0 then (1, none)
  else
    match main_read_loop reads 0 0 with
    | none => (1, none)
    | some (total_bases, total_reads) =>
      (0, some { total_bases := total_bases, total_reads := total_reads,
                 genome_len := genome_length genome,
                 coverage := coverage total_bases (genome_length genome) })

/-- IEEE 754 round to nearest, ties to even, for a positive number `q`: `d` is the
`double` `m * 2^k` whose exponent is that of `q` (`2^52 * 2^k ≤ q < 2^53 * 2^k`, so that
the `double`s around `q` are `2^k` apart) and that lies within half that spacing of `q`,
with an even significand when `q` is exactly halfway between two `double`s. -/
def nearest_double (q : ℚ) (d : binary64) : Prop :=
  (2 : ℚ) ^ (52 : Nat) * (2 : ℚ) ^ d.k ≤ q ∧ q < (2 : ℚ) ^ (53 : Nat) * (2 : ℚ) ^ d.k
    ∧ 2 ^ 52 ≤ d.m ∧ d.m ≤ 2 ^ 53
    ∧ |q - d.val| ≤ (2 : ℚ) ^ d.k / 2
    ∧ (|q - d.val| = (2 : ℚ) ^ d.k / 2 → d.m % 2 = 0)

/-! ## `format_number` -/

/-- The decimal digits of `n` as ASCII bytes, least significant first. -/
def dec_rev : Nat → Nat → List Nat
  | 0, _ => []
  | fuel + 1, n => if n < 10 then [48 + n] else (48 + n % 10) :: dec_rev fuel (n / 10)

/-- The decimal representation of a natural number, as ASCII bytes. -/
def decimal (n : Nat) : List Nat := (dec_rev (n + 1) n).reverse

/-- What `snprintf(temp, sizeof(temp), "%lld", num)` puts in `temp`: the decimal
representation, after a `-` for a negative number (at most 20 bytes: it fits). -/
def sprintf_lld (num : Int) : List Nat :=
  if num < 0 then 45 :: decimal num.natAbs else decimal num.toNat

/-- `snprintf(buf, bufsize, "%lld", num)` on a buffer: as many bytes of the text as fit
before the terminating NUL. A position of a buffer is `none` until it is written. -/
def snprintf_buf (buf : List (Option Nat)) (bufsize : Nat) (text : List Nat) :
    List (Option Nat) :=
  if bufsize = 0 then buf
  else ((text.take (bufsize - 1)).map some ++ [some 0])
    ++ buf.drop ((text.take (bufsize - 1)).length + 1)

/-- The `while (src >= 0)` loop of `format_number` (lines 43-50); every iteration
decrements `src`, so `fuel = len` is enough. -/
def format_loop : Nat → List Nat → List (Option Nat) → Int → Int → Int → List (Option Nat)
  | 0, _, buf, _, _, _ => buf
  | fuel + 1, temp, buf, src, dst, count =>
    if 0 ≤ src then
      if count + 1 = 3 ∧ 0 ≤ src - 1 then
        format_loop fuel temp
          ((buf.set dst.toNat (some (temp.getD src.toNat 0))).set (dst - 1).toNat (some 44))
          (src - 1) (dst - 1 - 1) 0
      else
        format_loop fuel temp (buf.set dst.toNat (some (temp.getD src.toNat 0)))
          (src - 1) (dst - 1) (count + 1)
    else buf

/-- Lines 29-50 of `format_number`, `temp` holding the text of the number. -/
def format_digits (temp : List Nat) (buf : List (Option Nat)) (bufsize : Nat) :
    List (Option Nat) :=
  if ((temp.length : Int) + ((temp.length : Int) - 1) / 3) ≥ (bufsize : Int) then
    snprintf_buf buf bufsize temp
  else
    format_loop temp.length temp
      (buf.set ((temp.length : Int) + ((temp.length : Int) - 1) / 3).toNat (some 0))
      ((temp.length : Int) - 1) ((temp.length : Int) + ((temp.length : Int) - 1) / 3 - 1) 0

/-- `void format_number(long long num, char *buf, size_t bufsize)`: the buffer after the
call. -/
def format_number (num : Int) (buf : List (Option Nat)) (bufsize : Nat) : List (Option Nat) :=
  format_digits (sprintf_lld num) buf bufsize

/-- What the loop of `format_number` writes, in the order it writes it: the digits from the
last one on, a comma after every third digit that is followed by another digit; `count`
is the number of digits written since the last comma. -/
def commas_rev : Nat → List Nat → List Nat
  | _, [] => []
  | count, d :: ds =>
    if count + 1 = 3 ∧ ds ≠ [] then d :: 44 :: commas_rev 0 ds
    else d :: commas_rev (count + 1) ds

/-! ## The line reader -/

theorem gzread_split (n : Nat) (s : List Nat) : (gzread n s).1 ++ (gzread n s).2 = s := by
  induction s generalizing n with
  | nil => cases n <;> simp [gzread]
  | cons c cs ih =>
    cases n with
    | zero => simp [gzread]
    | succ n =>
      by_cases h : c = 10
      · simp [gzread, h]
      · simp [gzread, h, ih n]

theorem gzread_fst_ne_nil (n : Nat) (c : Nat) (cs : List Nat) :
    (gzread (n + 1) (c :: cs)).1 ≠ [] := by
  by_cases h : c = 10 <;> simp [gzread, h]

theorem gzread_snd_length (c : Nat) (cs : List Nat) :
    (gzread 65535 (c :: cs)).2.length ≤ cs.length := by
  have h1 := gzread_split 65535 (c :: cs)
  have h2 := gzread_fst_ne_nil 65534 c cs
  have h3 := congrArg List.length h1
  rw [List.length_append, List.length_cons] at h3
  have h4 : 0 < (gzread 65535 (c :: cs)).1.length := List.length_pos.mpr h2
  omega

theorem gzgets_nil : gzgets [] MAX_LINE = none := rfl

theorem gzgets_cons (c : Nat) (cs : List Nat) :
    gzgets (c :: cs) MAX_LINE = some (gzread 65535 (c :: cs)) := rfl

theorem gzread_append (n : Nat) (l rest : List Nat) (hl : 10 ∉ l) (hn : l.length ≤ n) :
    gzread n (l ++ rest)
      = (l ++ (gzread (n - l.length) rest).1, (gzread (n - l.length) rest).2) := by
  induction l generalizing n with
  | nil => simp
  | cons c cs ih =>
    cases n with
    | zero => simp at hn
    | succ n =>
      have hc : c ≠ 10 := fun h => hl (by simp [h])
      have hcs : 10 ∉ cs := fun h => hl (by simp [h])
      have hn1 : cs.length ≤ n := by simpa using hn
      simp [gzread, hc, ih n hcs hn1]

theorem gzread_line (n : Nat) (l rest : List Nat) (hl : 10 ∉ l) (hn : l.length < n) :
    gzread n (l ++ 10 :: rest) = (l ++ [10], rest) := by
  rw [gzread_append n l _ hl (Nat.le_of_lt hn)]
  obtain ⟨k, hk⟩ : ∃ k, n - l.length = k + 1 := ⟨n - l.length - 1, by omega⟩
  simp [hk, gzread]

theorem gzread_tail (n : Nat) (t : List Nat) (ht : 10 ∉ t) (hn : t.length ≤ n) :
    gzread n t = (t, []) := by
  have h := gzread_append n t [] ht hn
  simp only [List.append_nil] at h
  rw [h]
  cases n - t.length <;> simp [gzread]

theorem gzread_full (n : Nat) (l rest : List Nat) (hl : 10 ∉ l) (hn : l.length = n) :
    gzread n (l ++ rest) = (l, rest) := by
  rw [gzread_append n l _ hl (Nat.le_of_eq hn)]
  simp [hn, gzread]

theorem gzlines_fuel_eq (fuel : Nat) (fp : List Nat) (h : fp.length ≤ fuel) :
    gzlines_fuel fuel fp = gzlines fp := by
  suffices H : ∀ (f1 f2 : Nat) (s : List Nat), s.length ≤ f1 → s.length ≤ f2 →
      gzlines_fuel f1 s = gzlines_fuel f2 s from H _ _ _ h (Nat.le_refl _)
  intro f1
  induction f1 with
  | zero =>
    intro f2 s h1 _
    have hs : s = [] := List.length_eq_zero.mp (Nat.le_zero.mp h1)
    subst hs
    cases f2 <;> simp [gzlines_fuel, gzgets]
  | succ f1 ih =>
    intro f2 s h1 h2
    cases s with
    | nil => cases f2 <;> simp [gzlines_fuel, gzgets]
    | cons c cs =>
      cases f2 with
      | zero => simp at h2
      | succ f2 =>
        have hlt := gzread_snd_length c cs
        simp only [gzlines_fuel, gzgets_cons]
        congr 1
        apply ih
        · simp only [List.length_cons] at h1; omega
        · simp only [List.length_cons] at h2; omega

theorem gzlines_nil : gzlines [] = [] := by
  simp [gzlines, gzlines_fuel]

theorem gzlines_cons (c : Nat) (cs : List Nat) :
    gzlines (c :: cs) = (gzread 65535 (c :: cs)).1 :: gzlines (gzread 65535 (c :: cs)).2 := by
  have hlt := gzread_snd_length c cs
  simp only [gzlines, List.length_cons, gzlines_fuel, gzgets_cons]
  congr 1
  exact gzlines_fuel_eq _ _ hlt

/-- Induction on a stream along the line reader: a property that holds of the empty
stream, and of a stream when it holds of what is left after one `gzgets`, holds of every
stream. -/
theorem gzlines_induction (P : List Nat → Prop) (h0 : P [])
    (h1 : ∀ c cs, P (gzread 65535 (c :: cs)).2 → P (c :: cs)) (s : List Nat) : P s := by
  suffices H : ∀ n (s : List Nat), s.length ≤ n → P s from H _ s (Nat.le_refl _)
  intro n
  induction n with
  | zero =>
    intro s hs
    have : s = [] := List.length_eq_zero.mp (Nat.le_zero.mp hs)
    subst this; exact h0
  | succ n ih =>
    intro s hs
    cases s with
    | nil => exact h0
    | cons c cs =>
      apply h1
      apply ih
      have hlt := gzread_snd_length c cs
      simp only [List.length_cons] at hs
      omega

theorem gzlines_flatten (s : List Nat) : (gzlines s).flatten = s := by
  induction s using gzlines_induction with
  | h0 => simp [gzlines_nil]
  | h1 c cs ih =>
    rw [gzlines_cons, List.flatten_cons, ih]
    exact gzread_split _ _

theorem gzlines_ne_nil (s : List Nat) : ∀ l ∈ gzlines s, l ≠ [] := by
  induction s using gzlines_induction with
  | h0 => simp [gzlines_nil]
  | h1 c cs ih =>
    rw [gzlines_cons]
    intro l hl
    rcases List.mem_cons.mp hl with rfl | hl
    · exact gzread_fst_ne_nil 65534 c cs
    · exact ih l hl

theorem genome_loop_eq_foldl (fuel : Nat) (st : GState) (fp : List Nat) :
    genome_loop fuel st fp = (gzlines_fuel fuel fp).foldl genome_body st := by
  induction fuel generalizing st fp with
  | zero => simp [genome_loop, gzlines_fuel]
  | succ fuel ih =>
    cases fp with
    | nil => simp [genome_loop, gzlines_fuel, gzgets]
    | cons c cs => simp [genome_loop, gzlines_fuel, gzgets, ih]

/-- The state in which `genome_length` leaves its loop, as a fold of the loop body over
the delivered lines. -/
theorem genome_run_eq (fp : List Nat) :
    genome_loop fp.length genome_init fp = (gzlines fp).foldl genome_body genome_init :=
  genome_loop_eq_foldl _ _ _

theorem gzlines_of_ne_nil (s : List Nat) (h : s ≠ []) :
    gzlines s = (gzread 65535 s).1 :: gzlines (gzread 65535 s).2 := by
  cases s with
  | nil => exact absurd rfl h
  | cons c cs => exact gzlines_cons c cs

theorem gzread_append_nl (n : Nat) (x b : List Nat) :
    gzread n (x ++ 10 :: b)
      = ((gzread n (x ++ [10])).1, (gzread n (x ++ [10])).2 ++ b) := by
  induction x generalizing n with
  | nil => cases n <;> simp [gzread]
  | cons c x ih =>
    cases n with
    | zero => simp [gzread]
    | succ n =>
      by_cases hc : c = 10
      · simp [gzread, hc]
      · simp [gzread, hc, ih n]

theorem gzread_endsNL (n : Nat) (x : List Nat) : EndsNL (gzread n (x ++ [10])).2 := by
  induction x generalizing n with
  | nil => cases n <;> simp [gzread, EndsNL]
  | cons c x ih =>
    cases n with
    | zero => exact Or.inr ⟨c :: x, by simp [gzread]⟩
    | succ n =>
      by_cases hc : c = 10
      · exact Or.inr ⟨x, by simp [gzread, hc]⟩
      · simpa [gzread, hc] using ih n

/-- After a stream that ends with a newline the line reader starts afresh: the lines of
`a ++ b` are the lines of `a` followed by the lines of `b`. -/
theorem gzlines_append (a b : List Nat) (ha : EndsNL a) :
    gzlines (a ++ b) = gzlines a ++ gzlines b := by
  induction a using gzlines_induction with
  | h0 => simp [gzlines_nil]
  | h1 c cs ih =>
    rcases ha with h | ⟨x, hx⟩
    · exact absurd h (by simp)
    · have e1 : (c :: cs) ++ b = x ++ 10 :: b := by rw [hx]; simp
      have hne : (c :: cs) ++ b ≠ [] := by simp
      rw [gzlines_of_ne_nil _ hne, gzlines_cons, e1, gzread_append_nl, ← hx]
      simp only [List.cons_append]
      congr 1
      apply ih
      rw [hx]
      exact gzread_endsNL _ _

theorem gzlines_line (l : List Nat) (hl : 10 ∉ l) (hn : l.length < 65535) :
    gzlines (l ++ [10]) = [l ++ [10]] := by
  rw [gzlines_of_ne_nil _ (by simp), gzread_line 65535 l [] hl hn]
  simp [gzlines_nil]

theorem gzlines_tail (t : List Nat) (h0 : t ≠ []) (ht : 10 ∉ t) (hn : t.length ≤ 65535) :
    gzlines t = [t] := by
  rw [gzlines_of_ne_nil _ h0, gzread_tail 65535 t ht hn]
  simp [gzlines_nil]

theorem joinLines_nil : joinLines [] = [] := rfl

theorem joinLines_cons (l : List Nat) (ls : List (List Nat)) :
    joinLines (l :: ls) = (l ++ [10]) ++ joinLines ls := by
  simp [joinLines]

theorem joinLines_append (ls ms : List (List Nat)) :
    joinLines (ls ++ ms) = joinLines ls ++ joinLines ms := by
  simp [joinLines]

theorem joinLines_endsNL (ls : List (List Nat)) : EndsNL (joinLines ls) := by
  induction ls with
  | nil => exact Or.inl rfl
  | cons l ls ih =>
    rw [joinLines_cons]
    rcases ih with h | ⟨x, hx⟩
    · exact Or.inr ⟨l, by simp [h]⟩
    · exact Or.inr ⟨l ++ [10] ++ x, by simp [hx]⟩

/-- The lines delivered from a file whose lines fit the buffer are the lines of the
file. -/
theorem gzlines_joinLines (ls : List (List Nat))
    (h : ∀ l ∈ ls, 10 ∉ l ∧ l.length < 65535) (t : List Nat) :
    gzlines (joinLines ls ++ t) = ls.map (fun l => l ++ [10]) ++ gzlines t := by
  induction ls with
  | nil => simp [joinLines_nil]
  | cons l ls ih =>
    have hl := h l (List.mem_cons_self _ _)
    rw [joinLines_cons, List.append_assoc, gzlines_append _ _ (Or.inr ⟨l, rfl⟩),
      gzlines_line l hl.1 hl.2, ih (fun m hm => h m (List.mem_cons_of_mem _ hm))]
    simp

/-! ## The genome scan -/

theorem genome_length_some (fp : List Nat) :
    genome_length (some fp)
      = if (genome_run genome_init fp).format_detected = false then -1
        else ((genome_run genome_init fp).total : Int) := by
  simp only [genome_length, genome_run_eq, genome_run]

theorem genome_run_append (st : GState) (a b : List Nat) (ha : EndsNL a) :
    genome_run st (a ++ b) = genome_run (genome_run st a) b := by
  simp [genome_run, gzlines_append a b ha]

theorem genome_run_nil (st : GState) : genome_run st [] = st := by
  simp [genome_run, gzlines_nil]

theorem isHeader_iff (l : List Nat) : isHeader l = true ↔ ∃ h, l = 62 :: h := by
  cases l with
  | nil => simp [isHeader]
  | cons c cs => simp [isHeader]

/-- The first line that starts with `>` sets the format to FASTA and is not counted. -/
theorem genome_body_detect_fasta (st : GState) (h : List Nat)
    (hd : st.format_detected = false) :
    genome_body st (62 :: h) = { st with format_detected := true, is_genbank := false } := by
  simp [genome_body, cstr, skip_ws, deref, hd, List.takeWhile_cons, List.dropWhile_cons]

/-- In FASTA mode a line that starts with `>` is skipped. -/
theorem genome_body_fasta_header (st : GState) (h : List Nat)
    (hd : st.format_detected = true) (hg : st.is_genbank = false) :
    genome_body st (62 :: h) = st := by
  simp [genome_body, genome_count, cstr, skip_ws, deref, hd, hg, List.takeWhile_cons,
    List.dropWhile_cons]

theorem isalpha_bounds {c : Nat} (h : isalpha c = true) : 65 ≤ c ∧ c ≤ 122 := by
  simp only [isalpha, Bool.or_eq_true, Bool.and_eq_true, decide_eq_true_eq] at h
  omega

/-- In FASTA mode a delivered piece made of letters and newlines adds its letters. -/
theorem genome_body_fasta_plain (st : GState) (line : List Nat)
    (hd : st.format_detected = true) (hg : st.is_genbank = false) (hne : line ≠ [])
    (hp : ∀ c ∈ line, isalpha c = true ∨ c = 10) :
    genome_body st line = { st with total := st.total + count_bases line } := by
  have hz : cstr line = line := by
    rw [cstr, List.takeWhile_eq_self_iff]
    intro x hx
    rcases hp x hx with h | h
    · have := isalpha_bounds h
      simp; omega
    · simp [h]
  cases line with
  | nil => exact absurd rfl hne
  | cons c cs =>
    have hc : c ≠ 32 ∧ c ≠ 9 ∧ c ≠ 62 ∧ c ≠ 59 := by
      rcases hp c (List.mem_cons_self _ _) with h | h
      · have := isalpha_bounds h
        omega
      · omega
    obtain ⟨h1, h2, h3, h4⟩ := hc
    have hs : skip_ws (c :: cs) = c :: cs := by
      simp [skip_ws, List.dropWhile_cons, h1, h2]
    simp only [genome_body, hz, hs, hd, genome_count, hg, deref]
    simp [h3, h4]

theorem genome_foldl_fasta_plain (cs : List (List Nat)) (st : GState)
    (hd : st.format_detected = true) (hg : st.is_genbank = false)
    (hne : ∀ l ∈ cs, l ≠ [])
    (hp : ∀ l ∈ cs, ∀ c ∈ l, isalpha c = true ∨ c = 10) :
    cs.foldl genome_body st = { st with total := st.total + count_bases cs.flatten } := by
  induction cs generalizing st with
  | nil => simp [count_bases]
  | cons l cs ih =>
    rw [List.foldl_cons,
      genome_body_fasta_plain st l hd hg (hne l (List.mem_cons_self _ _))
        (hp l (List.mem_cons_self _ _)),
      ih { st with total := st.total + count_bases l } hd hg
        (fun m hm => hne m (List.mem_cons_of_mem _ hm))
        (fun m hm => hp m (List.mem_cons_of_mem _ hm))]
    simp [count_bases, List.countP_append, Nat.add_assoc]

/-- In FASTA mode a stream made of letters and newlines adds its letters, however the
line reader cuts it into pieces. -/
theorem genome_run_fasta_plain (st : GState) (s : List Nat)
    (hd : st.format_detected = true) (hg : st.is_genbank = false)
    (hp : ∀ c ∈ s, isalpha c = true ∨ c = 10) :
    genome_run st s = { st with total := st.total + count_bases s } := by
  have hf := gzlines_flatten s
  rw [genome_run, genome_foldl_fasta_plain _ st hd hg (gzlines_ne_nil s), hf]
  intro l hl c hc
  apply hp
  rw [← hf]
  exact List.mem_flatten.mpr ⟨l, hl, hc⟩

theorem count_bases_alpha_line (l : List Nat) (h : ∀ c ∈ l, isalpha c = true) :
    count_bases (l ++ [10]) = l.length := by
  have : List.countP isalpha l = l.length := List.countP_eq_length.mpr h
  simp [count_bases, List.countP_append, this, isalpha]

theorem genome_run_line (st : GState) (l : List Nat)
    (hl : 10 ∉ l) (hn : l.length < 65535) :
    genome_run st (l ++ [10]) = genome_body st (l ++ [10]) := by
  simp [genome_run, gzlines_line l hl hn]

theorem genome_run_tail (st : GState) (t : List Nat) (h0 : t ≠ [])
    (ht : 10 ∉ t) (hn : t.length ≤ 65535) :
    genome_run st t = genome_body st t := by
  simp [genome_run, gzlines_tail t h0 ht hn]

theorem not_isHeader_of_alpha (l : List Nat) (h : ∀ c ∈ l, isalpha c = true) :
    isHeader l = false := by
  cases l with
  | nil => rfl
  | cons c cs =>
    have := isalpha_bounds (h c (List.mem_cons_self _ _))
    simp [isHeader]; omega

/-- FASTA mode over the lines of a file: header lines that fit the buffer add nothing,
lines of `L` letters add `L` each. -/
theorem genome_run_fasta_lines (pre : List (List Nat)) (t : List Nat) (L : Nat) (st : GState)
    (hd : st.format_detected = true) (hg : st.is_genbank = false)
    (hpre : ∀ l ∈ pre, (isHeader l = true ∧ 10 ∉ l ∧ l.length + 1 < MAX_LINE)
      ∨ (l.length = L ∧ ∀ c ∈ l, isalpha c = true)) :
    genome_run st (joinLines pre ++ t)
      = genome_run
          { st with total := st.total + pre.countP (fun l => !isHeader l) * L } t := by
  induction pre generalizing st with
  | nil => simp [joinLines_nil]
  | cons l ls ih =>
    have hrest := fun m hm => hpre m (List.mem_cons_of_mem l hm)
    rw [joinLines_cons, List.append_assoc, genome_run_append _ _ _ (Or.inr ⟨l, rfl⟩)]
    rcases hpre l (List.mem_cons_self _ _) with ⟨hh, hl, hn⟩ | ⟨hlen, ha⟩
    · obtain ⟨h, rfl⟩ := (isHeader_iff l).mp hh
      rw [genome_run_line st _ hl (by simp only [MAX_LINE] at hn; omega),
        List.cons_append, genome_body_fasta_header st _ hd hg, ih st hd hg hrest]
      simp [List.countP_cons, hh]
    · have hplain : ∀ c ∈ l ++ [10], isalpha c = true ∨ c = 10 := by
        intro c hc
        rcases List.mem_append.mp hc with h | h
        · exact Or.inl (ha c h)
        · exact Or.inr (by simpa using h)
      rw [genome_run_fasta_plain st _ hd hg hplain, count_bases_alpha_line l ha,
        ih { st with total := st.total + l.length } hd hg hrest]
      have hnh := not_isHeader_of_alpha l ha
      simp only [List.countP_cons, hnh, hlen]
      congr 2
      simp only [Bool.not_false, if_true, Nat.add_mul, Nat.one_mul]
      omega

/-- C1 (amended): on a FASTA file whose first line is a `>` header, whose header lines
(with their terminator) are shorter than `MAX_LINE` bytes and whose `N` other lines are
made of exactly `L` letters each, `genome_length` returns `N * L`. The lines of letters
may be of any length, and the last line may be a header without terminator. -/
theorem genome_length_fasta (pre : List (List Nat)) (last : List Nat) (L : Nat)
    (hfirst : isHeader (pre.headD last) = true)
    (hpre : ∀ l ∈ pre, (isHeader l = true ∧ 10 ∉ l ∧ l.length + 1 < MAX_LINE)
      ∨ (l.length = L ∧ ∀ c ∈ l, isalpha c = true))
    (hlast : last = [] ∨ (isHeader last = true ∧ 10 ∉ last ∧ last.length < MAX_LINE)) :
    genome_length (some (joinLines pre ++ last))
      = ((pre.countP (fun l => !isHeader l) * L : Nat) : Int) := by
  have hfin : ∀ st : GState, st.format_detected = true → st.is_genbank = false →
      genome_run st last = st := by
    intro st hd hg
    rcases hlast with h | ⟨hh, hl, hn⟩
    · rw [h, genome_run_nil]
    · obtain ⟨h, rfl⟩ := (isHeader_iff last).mp hh
      rw [genome_run_tail st _ (by simp) hl (by simp only [MAX_LINE] at hn; omega),
        genome_body_fasta_header st _ hd hg]
  rw [genome_length_some]
  cases pre with
  | nil =>
    simp only [List.headD_nil] at hfirst
    rcases hlast with h | ⟨hh, hl, hn⟩
    · rw [h] at hfirst; simp [isHeader] at hfirst
    · obtain ⟨h, rfl⟩ := (isHeader_iff last).mp hh
      rw [joinLines_nil, List.nil_append,
        genome_run_tail _ _ (by simp) hl (by simp only [MAX_LINE] at hn; omega),
        genome_body_detect_fasta _ _ rfl]
      simp [genome_init]
  | cons l0 ls =>
    simp only [List.headD_cons] at hfirst
    have hrest := fun m hm => hpre m (List.mem_cons_of_mem l0 hm)
    rcases hpre l0 (List.mem_cons_self _ _) with ⟨hh, hl, hn⟩ | ⟨_, ha⟩
    · obtain ⟨h, rfl⟩ := (isHeader_iff l0).mp hh
      rw [joinLines_cons, List.append_assoc, genome_run_append _ _ _ (Or.inr ⟨_, rfl⟩),
        genome_run_line _ _ hl (by simp only [MAX_LINE] at hn; omega),
        List.cons_append, genome_body_detect_fasta _ _ rfl,
        genome_run_fasta_lines ls last L _ rfl rfl hrest, hfin _ rfl rfl]
      simp [genome_init, List.countP_cons, hh]
    · rw [not_isHeader_of_alpha l0 ha] at hfirst
      exact absurd hfirst (by simp)

/-- C1, witness: a header, two lines of four letters, a second header, one more line of
four letters and a final header without terminator give 3 * 4. -/
theorem genome_length_fasta_witness :
    genome_length (some (joinLines [bytes ">chr1", bytes "ACGT", bytes "acgt", bytes ">chr2",
        bytes "TTGA"] ++ bytes ">end"))
      = (([bytes ">chr1", bytes "ACGT", bytes "acgt", bytes ">chr2",
          bytes "TTGA"].countP (fun l => !isHeader l) * 4 : Nat) : Int) :=
  genome_length_fasta _ _ 4 (by decide) (by decide) (by decide)

theorem not_mem_replicate_of_ne (n a b : Nat) (h : a ≠ b) : a ∉ List.replicate n b :=
  fun hm => h (List.eq_of_mem_replicate hm)

/-- A `>` header line of 65536 bytes: the line reader delivers it in two pieces and the
letter in the second piece is counted. -/
theorem genome_length_long_header (t : List Nat) (ht : 10 ∉ t) (hlen : t.length = 65534) :
    genome_length (some (joinLines [62 :: (t ++ [65])])) = 1 := by
  have hl : gzlines (joinLines [62 :: (t ++ [65])]) = [62 :: t, [65, 10]] := by
    have hj : joinLines [62 :: (t ++ [65])] = (62 :: t) ++ [65, 10] := by simp [joinLines]
    rw [hj, gzlines_of_ne_nil _ (by simp),
      gzread_full 65535 _ _ (by simpa using ht) (by simp [hlen])]
    simp only
    rw [show ([65, 10] : List Nat) = [65] ++ [10] from rfl,
      gzlines_line [65] (by decide) (by decide)]
  rw [genome_length_some, genome_run, hl]
  simp only [List.foldl_cons, List.foldl_nil]
  rw [genome_body_detect_fasta _ _ rfl]
  decide

/-- C1, counterexample: a file made of one `>` header line of 65536 bytes (and its
terminator) has no other line, yet `genome_length` returns 1 and not 0: the line reader
delivers the header in two pieces and the second piece is counted as sequence. -/
theorem genome_length_fasta_long_header :
    isHeader (62 :: List.replicate 65535 65) = true
      ∧ [62 :: List.replicate 65535 65].countP (fun l => !isHeader l) = 0
      ∧ genome_length (some (joinLines [62 :: List.replicate 65535 65])) = 1 := by
  have e : List.replicate 65535 65 = List.replicate 65534 65 ++ [65] :=
    List.replicate_succ' 65534 65
  refine ⟨rfl, rfl, ?_⟩
  rw [e]
  exact genome_length_long_header _ (not_mem_replicate_of_ne _ _ _ (by decide))
    (List.length_replicate _ _)

/-- C2, evaluation at the failing input: in a GenBank file the letters of a `#` comment
line that precedes the `LOCUS` line are counted (8 = 4 letters of `note` + 4 bases), so
changing them to digits changes the returned length (4). -/
theorem genome_length_genbank_comment_counted :
    genome_length (some (bytes "# note\nLOCUS X\nORIGIN\n 1 acgt\n//\n")) = 8
      ∧ genome_length (some (bytes "# 1234\nLOCUS X\nORIGIN\n 1 acgt\n//\n")) = 4 := by
  decide

/-- C3, evaluation at the failing input: the first meaningful line `ACGT` starts neither
with `>` nor with `LOCUS`, and still `genome_length` returns a count (the 4 letters of
that line and the 4 letters after the later header) instead of -1. -/
theorem genome_length_unknown_first_line :
    genome_length (some (bytes "ACGT\n>chr1\nACGT\n")) = 8 := by
  decide

/-! ## Format detection -/

theorem genome_count_format_detected (st : GState) (p : List Nat) :
    (genome_count st p).format_detected = st.format_detected := by
  unfold genome_count
  split_ifs <;> rfl

/-- The loop body sets `format_detected` exactly on a delivered line whose C string,
after its leading spaces and tabs, starts with `>` or `LOCUS`; it never clears it. -/
theorem genome_body_format_detected (st : GState) (line : List Nat) :
    (genome_body st line).format_detected
      = (st.format_detected || starts_with_marker (cstr line)) := by
  unfold genome_body starts_with_marker
  generalize skip_ws (cstr line) = p
  cases hfd : st.format_detected with
  | true => simp [hfd, genome_count_format_detected]
  | false =>
    cases p with
    | nil => simp [deref, genome_count_format_detected, hfd, LOCUS]
    | cons c cs =>
      simp only [deref, List.headD_cons, strncmp_eq, List.head?_cons]
      split_ifs with h1 h2 h3 <;>
        simp_all [genome_count_format_detected, LOCUS]
      refine ⟨fun h => ?_, fun h => ?_⟩ <;>
        · have := h1 (by omega) (by omega)
          omega

theorem genome_foldl_format_detected (cs : List (List Nat)) (st : GState) :
    (cs.foldl genome_body st).format_detected
      = (st.format_detected || cs.any (fun c => starts_with_marker (cstr c))) := by
  induction cs generalizing st with
  | nil => simp
  | cons c cs ih => simp [ih, genome_body_format_detected, Bool.or_assoc]

theorem take_cstr_eq_iff (lit x : List Nat) (h0 : 0 ∉ lit) :
    (cstr x).take lit.length = lit ↔ x.take lit.length = lit := by
  induction lit generalizing x with
  | nil => simp
  | cons a as ih =>
    have ha : a ≠ 0 := fun h => h0 (by simp [h])
    have has : 0 ∉ as := fun h => h0 (by simp [h])
    cases x with
    | nil => simp [cstr]
    | cons c cs =>
      by_cases hc : c = 0
      · subst hc
        simp [cstr, List.takeWhile_cons]
        intro h; exact absurd h.symm ha
      · have := ih cs has
        simp only [cstr] at this
        simp [cstr, List.takeWhile_cons, hc, this]

theorem take_append_nl_eq_iff (lit p : List Nat) (h10 : 10 ∉ lit) :
    (p ++ [10]).take lit.length = lit ↔ p.take lit.length = lit := by
  induction lit generalizing p with
  | nil => simp
  | cons a as ih =>
    have ha : a ≠ 10 := fun h => h10 (by simp [h])
    have has : 10 ∉ as := fun h => h10 (by simp [h])
    cases p with
    | nil =>
      simp
      intro h; exact absurd h.symm ha
    | cons c cs => simp [ih cs has]

theorem skip_ws_append_nl (l : List Nat) : skip_ws (l ++ [10]) = skip_ws l ++ [10] := by
  induction l with
  | nil => simp [skip_ws, List.dropWhile_cons]
  | cons c cs ih =>
    simp only [skip_ws] at ih
    by_cases hc : c = 32 ∨ c = 9
    · simp [skip_ws, List.dropWhile_cons, hc, ih]
    · simp [skip_ws, List.dropWhile_cons, hc]

/-- The NUL truncation of the buffer does not change whether a line starts with a
marker. -/
theorem starts_with_marker_cstr (l : List Nat) :
    starts_with_marker (cstr l) = starts_with_marker l := by
  induction l with
  | nil => rfl
  | cons c cs ih =>
    by_cases hc : c = 0
    · subst hc
      simp [starts_with_marker, cstr, skip_ws, List.takeWhile_cons, List.dropWhile_cons, LOCUS]
    · by_cases hw : c = 32 ∨ c = 9
      · simp only [starts_with_marker, cstr, skip_ws] at ih
        simp [starts_with_marker, cstr, skip_ws, List.takeWhile_cons, List.dropWhile_cons,
          hc, hw, ih]
      · have h5 := take_cstr_eq_iff LOCUS (c :: cs) (by decide)
        simp only [cstr, List.takeWhile_cons, hc, bne_iff_ne, ne_eq, not_false_eq_true,
          decide_True, if_true, LOCUS] at h5
        simp only [starts_with_marker, cstr, skip_ws, List.takeWhile_cons,
          List.dropWhile_cons, hc, hw, bne_iff_ne, ne_eq, not_false_eq_true, decide_True,
          if_true, Bool.or_eq_true, beq_iff_eq, decide_False, if_false, List.head?_cons,
          LOCUS]
        rw [Bool.eq_iff_iff]
        simp only [Bool.or_eq_true, beq_iff_eq]
        exact or_congr Iff.rfl h5

/-- The terminator of a line does not change whether the line starts with a marker. -/
theorem starts_with_marker_append_nl (l : List Nat) :
    starts_with_marker (l ++ [10]) = starts_with_marker l := by
  have h5 := take_append_nl_eq_iff LOCUS (skip_ws l) (by decide)
  simp only [starts_with_marker, skip_ws_append_nl]
  rw [Bool.eq_iff_iff]
  simp only [Bool.or_eq_true, beq_iff_eq]
  refine or_congr ?_ (by simpa [LOCUS] using h5)
  cases skip_ws l <;> simp

theorem genome_length_eq_neg_one_iff (s : List Nat) :
    genome_length (some s) = -1
      ↔ (gzlines s).any (fun c => starts_with_marker (cstr c)) = false := by
  have hfd := genome_foldl_format_detected (gzlines s) genome_init
  rw [genome_length_some, genome_run]
  generalize List.foldl genome_body genome_init (gzlines s) = st at hfd ⊢
  have h0 : genome_init.format_detected = false := rfl
  rw [h0, Bool.false_or] at hfd
  rw [← hfd]
  by_cases h : st.format_detected = false
  · simp [h]
  · rw [if_neg h]
    constructor
    · intro h1
      have h2 : (0 : Int) ≤ (st.total : Int) := Int.ofNat_nonneg _
      rw [h1] at h2
      exact absurd h2 (by decide)
    · intro h1
      exact absurd h1 h

theorem genome_length_nonneg (s : List Nat) (h : genome_length (some s) ≠ -1) :
    0 ≤ genome_length (some s) := by
  rw [genome_length_some] at h ⊢
  split_ifs with h1
  · rw [if_pos h1] at h; exact absurd rfl h
  · exact Int.ofNat_nonneg _

theorem not_marker_of_blank_or_comment (l : List Nat) (h : blank_or_comment l = true) :
    starts_with_marker l = false := by
  unfold blank_or_comment at h
  unfold starts_with_marker
  cases hp : skip_ws l with
  | nil => simp [LOCUS]
  | cons c cs =>
    rw [hp] at h
    simp only [List.head?_cons, Bool.or_eq_true, beq_iff_eq, Option.some.injEq] at h
    have hc : c = 59 ∨ c = 35 := by
      rcases h with (h | h) | h
      · exact absurd h (by simp)
      · exact Or.inl h
      · exact Or.inr h
    simp only [List.head?_cons, LOCUS, Bool.or_eq_false_iff, beq_eq_false_iff_ne, ne_eq,
      Option.some.injEq, List.take_succ_cons, List.cons.injEq, not_and]
    constructor
    · omega
    · intro h76; omega

theorem gzlines_any_marker (ls : List (List Nat)) (tail : List Nat)
    (hls : ∀ l ∈ ls, 10 ∉ l ∧ l.length + 1 < MAX_LINE)
    (htail : 10 ∉ tail ∧ tail.length < MAX_LINE) :
    (gzlines (joinLines ls ++ tail)).any (fun c => starts_with_marker (cstr c))
      = (ls ++ [tail]).any starts_with_marker := by
  have hb : ∀ l ∈ ls, 10 ∉ l ∧ l.length < 65535 := by
    intro l hl
    have := hls l hl
    simp only [MAX_LINE] at this
    exact ⟨this.1, by omega⟩
  rw [gzlines_joinLines ls hb, List.any_append, List.any_append, List.any_map]
  congr 1
  · apply congrArg (fun f => List.any ls f)
    funext l
    simp [starts_with_marker_cstr, starts_with_marker_append_nl]
  · by_cases ht : tail = []
    · subst ht
      simp [gzlines_nil, starts_with_marker, skip_ws, LOCUS]
    · rw [gzlines_tail tail ht htail.1 (by have := htail.2; simp only [MAX_LINE] at this; omega)]
      simp [starts_with_marker_cstr]

/-- C4 (amended): for a genome file whose lines, with their terminator, are shorter than
`MAX_LINE` bytes (`ls` the terminated lines, `tail` the unterminated last line, empty
when there is none), `genome_length` returns -1 exactly when no line starts, after its
leading spaces and tabs, with `>` or `LOCUS`; so it returns -1 on a file of blank and
comment lines only (the empty file among them), and whenever it does not return -1 it
returns a non-negative count. -/
theorem genome_length_unknown_format_iff (ls : List (List Nat)) (tail : List Nat)
    (hls : ∀ l ∈ ls, 10 ∉ l ∧ l.length + 1 < MAX_LINE)
    (htail : 10 ∉ tail ∧ tail.length < MAX_LINE) :
    (genome_length (some (joinLines ls ++ tail)) = -1
        ↔ ∀ l ∈ ls ++ [tail], starts_with_marker l = false)
      ∧ ((∀ l ∈ ls ++ [tail], blank_or_comment l = true)
        → genome_length (some (joinLines ls ++ tail)) = -1)
      ∧ (genome_length (some (joinLines ls ++ tail)) ≠ -1
        → 0 ≤ genome_length (some (joinLines ls ++ tail))) := by
  have key : genome_length (some (joinLines ls ++ tail)) = -1
      ↔ ∀ l ∈ ls ++ [tail], starts_with_marker l = false := by
    rw [genome_length_eq_neg_one_iff, gzlines_any_marker ls tail hls htail,
      List.any_eq_false]
    simp
  refine ⟨key, fun hb => key.mpr fun l hl => ?_, genome_length_nonneg _⟩
  exact not_marker_of_blank_or_comment l (hb l hl)

/-- C4, witness: a file of a blank line, a `;` comment, a `#` comment and an unterminated
indented comment. -/
theorem genome_length_unknown_format_iff_witness :
    (genome_length (some (joinLines [bytes "", bytes "; c", bytes "# LOCUS"] ++ bytes " \t;")) = -1
        ↔ ∀ l ∈ [bytes "", bytes "; c", bytes "# LOCUS"] ++ [bytes " \t;"],
          starts_with_marker l = false)
      ∧ ((∀ l ∈ [bytes "", bytes "; c", bytes "# LOCUS"] ++ [bytes " \t;"],
          blank_or_comment l = true)
        → genome_length (some (joinLines [bytes "", bytes "; c", bytes "# LOCUS"]
            ++ bytes " \t;")) = -1)
      ∧ (genome_length (some (joinLines [bytes "", bytes "; c", bytes "# LOCUS"]
            ++ bytes " \t;")) ≠ -1
        → 0 ≤ genome_length (some (joinLines [bytes "", bytes "; c", bytes "# LOCUS"]
            ++ bytes " \t;"))) :=
  genome_length_unknown_format_iff _ _ (by decide) (by decide)

/-- A line of 65535 letters `A` followed by `>`: the line reader delivers the letters,
then `>` and the terminator as a second piece, which sets the format. -/
theorem genome_length_long_line (t : List Nat) (ht : ∀ c ∈ t, c = 65)
    (hlen : t.length = 65534) :
    genome_length (some (joinLines [65 :: t ++ [62]])) = 65535 := by
  have h10 : 10 ∉ 65 :: t := by
    intro h
    rcases List.mem_cons.mp h with h | h
    · omega
    · have := ht 10 h; omega
  have hl : gzlines (joinLines [65 :: t ++ [62]]) = [65 :: t, [62, 10]] := by
    have hj : joinLines [65 :: t ++ [62]] = (65 :: t) ++ [62, 10] := by simp [joinLines]
    rw [hj, gzlines_of_ne_nil _ (by simp), gzread_full 65535 _ _ h10 (by simp [hlen])]
    simp only
    rw [show ([62, 10] : List Nat) = [62] ++ [10] from rfl,
      gzlines_line [62] (by decide) (by decide)]
  have hc : count_bases (65 :: t) = 65535 := by
    have : List.countP isalpha (65 :: t) = (65 :: t).length := by
      rw [List.countP_eq_length]
      intro a ha
      rcases List.mem_cons.mp ha with h | h
      · subst h; rfl
      · rw [ht a h]; rfl
    rw [count_bases, this, List.length_cons, hlen]
  have hb : genome_body genome_init (65 :: t)
      = { genome_init with total := count_bases (65 :: t) } := by
    have hz : cstr (65 :: t) = 65 :: t := by
      rw [cstr, List.takeWhile_eq_self_iff]
      intro x hx
      rcases List.mem_cons.mp hx with h | h
      · subst h; rfl
      · rw [ht x h]; rfl
    have hs : skip_ws (65 :: t) = 65 :: t := by simp [skip_ws, List.dropWhile_cons]
    simp only [genome_body, hz, hs, genome_count, deref, strncmp_eq, LOCUS, genome_init]
    simp
  rw [genome_length_some, genome_run, hl]
  simp only [List.foldl_cons, List.foldl_nil]
  rw [hb, genome_body_detect_fasta _ _ rfl, hc]
  rfl

/-- C4, counterexample: the only line of the file, 65535 letters `A` followed by `>`,
does not start with `>` or `LOCUS`, and `genome_length` returns 65535 and not -1. -/
theorem genome_length_long_line_detected :
    (∀ l ∈ [List.replicate 65535 65 ++ [62]] ++ [[]], starts_with_marker l = false)
      ∧ genome_length (some (joinLines [List.replicate 65535 65 ++ [62]] ++ [])) = 65535 := by
  constructor
  · intro l hl
    simp only [List.mem_append, List.mem_singleton] at hl
    rcases hl with rfl | rfl
    · rfl
    · rfl
  · rw [List.append_nil]
    exact genome_length_long_line (List.replicate 65534 65)
      (fun c hc => List.eq_of_mem_replicate hc) (List.length_replicate _ _)

/-! ## The read counter -/

theorem gzgets_eq_none {fp : List Nat} (h : gzgets fp MAX_LINE = none) : fp = [] := by
  cases fp with
  | nil => rfl
  | cons c cs => simp [gzgets] at h

theorem gzgets_eq_some {fp line fp1 : List Nat} (h : gzgets fp MAX_LINE = some (line, fp1)) :
    gzlines fp = line :: gzlines fp1 ∧ fp1.length < fp.length := by
  cases fp with
  | nil => simp [gzgets] at h
  | cons c cs =>
    rw [gzgets_cons] at h
    have h1 : (gzread 65535 (c :: cs)).1 = line := by rw [Option.some.inj h]
    have h2 : (gzread 65535 (c :: cs)).2 = fp1 := by rw [Option.some.inj h]
    have hlt := gzread_snd_length c cs
    rw [gzlines_cons, h1, h2]
    rw [h2] at hlt
    exact ⟨rfl, by simp only [List.length_cons]; omega⟩

/-- With enough fuel the loop of `fastq_bases` is `fastq_groups` over the delivered
lines. -/
theorem fastq_loop_eq (fuel : Nat) (tb nr : Nat) (fp : List Nat) (h : fp.length ≤ fuel) :
    fastq_loop fuel tb nr fp = fastq_groups tb nr (gzlines fp) := by
  induction fuel generalizing tb nr fp with
  | zero =>
    have : fp = [] := List.length_eq_zero.mp (Nat.le_zero.mp h)
    subst this
    simp [fastq_loop, gzlines_nil, fastq_groups]
  | succ fuel ih =>
    unfold fastq_loop
    split
    · next h1 => rw [gzgets_eq_none h1, gzlines_nil]; simp [fastq_groups]
    · next l1 fp1 h1 =>
      obtain ⟨e1, n1⟩ := gzgets_eq_some h1
      rw [e1]
      split
      · next h2 => rw [gzgets_eq_none h2, gzlines_nil]; simp [fastq_groups]
      · next l2 fp2 h2 =>
        obtain ⟨e2, n2⟩ := gzgets_eq_some h2
        rw [e2]
        split
        · next h3 => rw [gzgets_eq_none h3, gzlines_nil]; simp [fastq_groups]
        · next l3 fp3 h3 =>
          obtain ⟨e3, n3⟩ := gzgets_eq_some h3
          rw [e3]
          split
          · next h4 => rw [gzgets_eq_none h4, gzlines_nil]; simp [fastq_groups]
          · next l4 fp4 h4 =>
            obtain ⟨e4, n4⟩ := gzgets_eq_some h4
            rw [e4, ih _ _ fp4 (by omega)]
            simp [fastq_groups]

theorem fastq_bases_some (fp : List Nat) :
    fastq_bases (some fp)
      = { bases := ((fastq_groups 0 0 (gzlines fp)).1 : Int),
          reads := ((fastq_groups 0 0 (gzlines fp)).2 : Int) } := by
  simp only [fastq_bases, fastq_loop_eq fp.length 0 0 fp (Nat.le_refl _)]

/-- The lines delivered from a file whose lines fit the buffer. -/
theorem gzlines_file (ls : List (List Nat)) (tail : List Nat)
    (hls : ∀ l ∈ ls, 10 ∉ l ∧ l.length + 1 < MAX_LINE)
    (htail : 10 ∉ tail ∧ tail.length < MAX_LINE) :
    gzlines (joinLines ls ++ tail)
      = ls.map (fun l => l ++ [10]) ++ (if tail = [] then [] else [tail]) := by
  have hb : ∀ l ∈ ls, 10 ∉ l ∧ l.length < 65535 := by
    intro l hl
    have := hls l hl
    simp only [MAX_LINE] at this
    exact ⟨this.1, by omega⟩
  rw [gzlines_joinLines ls hb]
  congr 1
  by_cases ht : tail = []
  · simp [ht, gzlines_nil]
  · rw [gzlines_tail tail ht htail.1 (by have := htail.2; simp only [MAX_LINE] at this; omega)]
    simp [ht]

theorem fastq_groups_reads (cs : List (List Nat)) (tb nr : Nat) :
    (fastq_groups tb nr cs).2 = nr + cs.length / 4 := by
  induction tb, nr, cs using fastq_groups.induct with
  | case1 tb nr a line b c rest ih =>
    rw [fastq_groups, ih]
    simp only [List.length_cons]
    omega
  | case2 tb nr a line b => simp [fastq_groups]
  | case3 tb nr a line => simp [fastq_groups]
  | case4 tb nr a => simp [fastq_groups]
  | case5 tb nr => simp [fastq_groups]

theorem file_lines_length (ls : List (List Nat)) (tail : List Nat) :
    (ls.map (fun l => l ++ [10]) ++ (if tail = [] then [] else [tail])).length
      = (file_lines ls tail).length := by
  unfold file_lines
  split_ifs <;> simp

/-- C5: for a read file whose lines, with their terminator, are shorter than `MAX_LINE`
bytes (`ls` the terminated lines, `tail` the unterminated last line, empty when there is
none), a file of `4 * k + r` lines with `r < 4` gives `record_count = k`: `k` for exactly
`4 * k` lines (`r = 0`), and `k` again when a partial group of `r` lines follows. -/
theorem fastq_bases_record_count (ls : List (List Nat)) (tail : List Nat) (k r : Nat)
    (hls : ∀ l ∈ ls, 10 ∉ l ∧ l.length + 1 < MAX_LINE)
    (htail : 10 ∉ tail ∧ tail.length < MAX_LINE)
    (hn : (file_lines ls tail).length = 4 * k + r) (hr : r < 4) :
    (fastq_bases (some (joinLines ls ++ tail))).reads = (k : Int) := by
  rw [fastq_bases_some, gzlines_file ls tail hls htail]
  simp only [fastq_groups_reads, file_lines_length, hn]
  congr 1
  omega

/-- C5, witness: six lines, the last one without terminator: one record. -/
theorem fastq_bases_record_count_witness :
    (fastq_bases (some (joinLines [bytes "@r1", bytes "ACGT", bytes "+", bytes "IIII",
        bytes "@r2"] ++ bytes "AC"))).reads = ((1 : Nat) : Int) :=
  fastq_bases_record_count _ _ 1 2 (by decide) (by decide) (by decide) (by decide)

theorem not_mem_cstr (l : List Nat) (a : Nat) (h : a ∉ l) : a ∉ cstr l :=
  fun hm => h ((List.takeWhile_sublist _).subset hm)

/-- The length `fastq_bases` takes of a line without its terminator: the number of bytes
before the first NUL byte. -/
theorem seq_len_tail (l : List Nat) (h10 : 10 ∉ l) : seq_len l = (cstr l).length := by
  unfold seq_len
  have : (cstr l).getLast? ≠ some 10 :=
    fun h => not_mem_cstr l 10 h10 (List.mem_of_getLast?_eq_some h)
  simp [this]

/-- The length `fastq_bases` takes of a terminated line: the number of bytes before the
first NUL byte, the terminator left out. -/
theorem seq_len_line (l : List Nat) (h10 : 10 ∉ l) :
    seq_len (l ++ [10]) = (cstr l).length := by
  by_cases hfull : (cstr l).length = l.length
  · have h1 : cstr (l ++ [10]) = l ++ [10] := by
      simp only [cstr] at hfull
      simp [cstr, List.takeWhile_append, hfull, List.takeWhile_cons]
    unfold seq_len
    rw [h1, hfull]
    simp
  · have h1 : cstr (l ++ [10]) = cstr l := by
      simp only [cstr] at hfull
      simp [cstr, List.takeWhile_append, hfull]
    have h2 := seq_len_tail l h10
    unfold seq_len at h2 ⊢
    rw [h1]
    exact h2

theorem cstr_eq_self (l : List Nat) (h0 : 0 ∉ l) : cstr l = l := by
  rw [cstr, List.takeWhile_eq_self_iff]
  intro x hx
  have : x ≠ 0 := fun h => h0 (h ▸ hx)
  simpa using this

theorem seq_lines_map_rel (f g : List Nat → Nat) (n : Nat) :
    ∀ A B : List (List Nat), A.length ≤ n → List.Forall₂ (fun c l => f c = g l) A B →
      (seq_lines A).map f = (seq_lines B).map g := by
  induction n with
  | zero =>
    intro A B hA hF
    have : A = [] := List.length_eq_zero.mp (Nat.le_zero.mp hA)
    subst this
    cases hF
    rfl
  | succ n ih =>
    intro A B hA hF
    cases hF with
    | nil => rfl
    | cons h1 hF =>
      cases hF with
      | nil => rfl
      | cons h2 hF =>
        cases hF with
        | nil => rfl
        | cons h3 hF =>
          cases hF with
          | nil => rfl
          | cons h4 hF =>
            simp only [seq_lines, List.map_cons, h2]
            congr 1
            apply ih _ _ _ hF
            simp only [List.length_cons] at hA
            omega

theorem seq_lines_subset (A : List (List Nat)) : ∀ l ∈ seq_lines A, l ∈ A := by
  induction A using seq_lines.induct with
  | case1 a line b c rest ih =>
    intro l hl
    simp only [seq_lines, List.mem_cons] at hl
    rcases hl with rfl | hl
    · simp
    · have := ih l hl
      simp [this]
  | case2 A hA =>
    intro l hl
    rw [seq_lines] at hl
    · simp at hl
    · exact hA

theorem fastq_groups_bases (cs : List (List Nat)) (tb nr : Nat) (h4 : cs.length % 4 = 0) :
    (fastq_groups tb nr cs).1 = tb + ((seq_lines cs).map seq_len).sum := by
  induction tb, nr, cs using fastq_groups.induct with
  | case1 tb nr a line b c rest ih =>
    rw [fastq_groups, ih (by simp only [List.length_cons] at h4; omega)]
    simp [seq_lines, Nat.add_assoc]
  | case2 tb nr a line b => simp at h4
  | case3 tb nr a line => simp at h4
  | case4 tb nr a => simp at h4
  | case5 tb nr => simp [fastq_groups, seq_lines]

theorem seq_lines_length (A : List (List Nat)) : (seq_lines A).length = A.length / 4 := by
  induction A using seq_lines.induct with
  | case1 a line b c rest ih =>
    simp only [seq_lines, List.length_cons, ih]
    omega
  | case2 A hA =>
    rw [seq_lines]
    · match A, hA with
      | [], _ => rfl
      | [_], _ => simp
      | [_, _], _ => simp
      | [_, _, _], _ => simp
      | a :: line :: b :: c :: rest, hA => exact absurd rfl (hA a line b c rest)
    · exact hA

theorem seq_len_sum_file (ls : List (List Nat)) (tail : List Nat)
    (hls : ∀ l ∈ ls, 10 ∉ l ∧ l.length + 1 < MAX_LINE) (htail : 10 ∉ tail) :
    ((seq_lines (ls.map (fun l => l ++ [10]) ++ (if tail = [] then [] else [tail]))).map
        seq_len).sum
      = ((seq_lines (file_lines ls tail)).map (fun l => (cstr l).length)).sum := by
  congr 1
  apply seq_lines_map_rel seq_len (fun l => (cstr l).length) _ _ _ (Nat.le_refl _)
  have h1 : List.Forall₂ (fun c l => seq_len c = (cstr l).length)
      (ls.map (fun l => l ++ [10])) ls := by
    rw [List.forall₂_map_left_iff, List.forall₂_same]
    intro l hl
    exact seq_len_line l (hls l hl).1
  unfold file_lines
  split_ifs with ht
  · simpa using h1
  · exact List.rel_append h1 (List.Forall₂.cons (seq_len_tail tail htail) List.Forall₂.nil)

/-- C6: for a read file of exactly `4 * k` lines which, with their terminator, are shorter
than `MAX_LINE` bytes, there are `k` sequence lines (the second line of each group of
four) and `base_count` is the sum over them of the character length of the line, its
terminator removed: the length of the C string, which is the number of bytes of the line
when it holds no NUL byte. No other line contributes, whatever it contains. -/
theorem fastq_bases_base_count (ls : List (List Nat)) (tail : List Nat) (k : Nat)
    (hls : ∀ l ∈ ls, 10 ∉ l ∧ l.length + 1 < MAX_LINE)
    (htail : 10 ∉ tail ∧ tail.length < MAX_LINE)
    (hn : (file_lines ls tail).length = 4 * k) :
    (seq_lines (file_lines ls tail)).length = k
      ∧ (fastq_bases (some (joinLines ls ++ tail))).bases
        = ((((seq_lines (file_lines ls tail)).map (fun l => (cstr l).length)).sum : Nat) : Int)
      ∧ ((∀ l ∈ seq_lines (file_lines ls tail), 0 ∉ l) →
        (fastq_bases (some (joinLines ls ++ tail))).bases
          = ((((seq_lines (file_lines ls tail)).map List.length).sum : Nat) : Int)) := by
  have hb : (fastq_bases (some (joinLines ls ++ tail))).bases
      = ((((seq_lines (file_lines ls tail)).map (fun l => (cstr l).length)).sum : Nat)
          : Int) := by
    rw [fastq_bases_some, gzlines_file ls tail hls htail]
    simp only
    rw [fastq_groups_bases _ 0 0 (by rw [file_lines_length, hn]; omega),
      seq_len_sum_file ls tail hls htail.1, Nat.zero_add]
  refine ⟨by rw [seq_lines_length, hn]; omega, hb, fun h0 => ?_⟩
  rw [hb]
  congr 2
  apply List.map_congr_left
  intro l hl
  rw [cstr_eq_self l (h0 l hl)]

/-- C6, witness: two records, the last line without terminator. -/
theorem fastq_bases_base_count_witness :
    (seq_lines (file_lines [bytes "@r1", bytes "ACGT", bytes "+", bytes "IIII", bytes "@r2",
        bytes "AC", bytes "+"] (bytes "II"))).length = 2
      ∧ (fastq_bases (some (joinLines [bytes "@r1", bytes "ACGT", bytes "+", bytes "IIII",
          bytes "@r2", bytes "AC", bytes "+"] ++ bytes "II"))).bases
        = ((((seq_lines (file_lines [bytes "@r1", bytes "ACGT", bytes "+", bytes "IIII",
            bytes "@r2", bytes "AC", bytes "+"] (bytes "II"))).map
              (fun l => (cstr l).length)).sum : Nat) : Int)
      ∧ ((∀ l ∈ seq_lines (file_lines [bytes "@r1", bytes "ACGT", bytes "+", bytes "IIII",
            bytes "@r2", bytes "AC", bytes "+"] (bytes "II")), 0 ∉ l) →
        (fastq_bases (some (joinLines [bytes "@r1", bytes "ACGT", bytes "+", bytes "IIII",
            bytes "@r2", bytes "AC", bytes "+"] ++ bytes "II"))).bases
          = ((((seq_lines (file_lines [bytes "@r1", bytes "ACGT", bytes "+", bytes "IIII",
              bytes "@r2", bytes "AC", bytes "+"] (bytes "II"))).map List.length).sum : Nat)
              : Int)) :=
  fastq_bases_base_count _ _ 2 (by decide) (by decide) (by decide)

/-- A NUL byte in a sequence line: in the four-line file whose sequence line is `A`, NUL,
`C`, the line has three bytes and `base_count` is 1, the length of the C string. -/
theorem fastq_bases_nul_in_sequence :
    (file_lines [[64], [65, 0, 67], [43], [73]] []).length = 4 * 1
      ∧ ((seq_lines (file_lines [[64], [65, 0, 67], [43], [73]] [])).map List.length).sum = 3
      ∧ (fastq_bases (some (joinLines [[64], [65, 0, 67], [43], [73]] ++ []))).bases = 1 := by
  decide

/-- C7, evaluation at the failing input: a complete record followed by a header and a
sequence line gives `base_count = 6`, the two bases of the incomplete record included,
where the first four lines alone give 4; `record_count` is 1 in both. -/
theorem fastq_bases_partial_group_counted :
    fastq_bases (some (bytes "@r1\nACGT\n+\nIIII\n@r2\nAC\n")) = { bases := 6, reads := 1 }
      ∧ fastq_bases (some (bytes "@r1\nACGT\n+\nIIII\n")) = { bases := 4, reads := 1 } := by
  decide

theorem fastq_groups_shift_aux (n : Nat) :
    ∀ (cs : List (List Nat)) (tb nr : Nat), cs.length ≤ n →
      fastq_groups tb nr cs
        = (tb + (fastq_groups 0 0 cs).1, nr + (fastq_groups 0 0 cs).2) := by
  induction n with
  | zero =>
    intro cs tb nr h
    have : cs = [] := List.length_eq_zero.mp (Nat.le_zero.mp h)
    subst this
    simp [fastq_groups]
  | succ n ih =>
    intro cs tb nr h
    match cs, h with
    | [], _ => simp [fastq_groups]
    | [_], _ => simp [fastq_groups]
    | [_, _], _ => simp [fastq_groups]
    | [_, _, _], _ => simp [fastq_groups]
    | a :: line :: b :: c :: rest, h =>
      have hr : rest.length ≤ n := by simp only [List.length_cons] at h; omega
      rw [fastq_groups, fastq_groups, ih rest (tb + seq_len line) (nr + 1) hr,
        ih rest (0 + seq_len line) (0 + 1) hr]
      simp only [Prod.mk.injEq]
      constructor <;> omega

theorem fastq_groups_shift (cs : List (List Nat)) (tb nr : Nat) :
    fastq_groups tb nr cs
      = (tb + (fastq_groups 0 0 cs).1, nr + (fastq_groups 0 0 cs).2) :=
  fastq_groups_shift_aux cs.length cs tb nr (Nat.le_refl _)

theorem fastq_groups_append (cs ds : List (List Nat)) (tb nr : Nat)
    (h4 : cs.length % 4 = 0) :
    fastq_groups tb nr (cs ++ ds)
      = fastq_groups (fastq_groups tb nr cs).1 (fastq_groups tb nr cs).2 ds := by
  induction tb, nr, cs using fastq_groups.induct with
  | case1 tb nr a line b c rest ih =>
    simp only [List.cons_append, fastq_groups]
    exact ih (by simp only [List.length_cons] at h4; omega)
  | case2 tb nr a line b => simp at h4
  | case3 tb nr a line => simp at h4
  | case4 tb nr a => simp at h4
  | case5 tb nr => simp [fastq_groups]

theorem fastq_bases_nonneg (fp : List Nat) : ¬ (fastq_bases (some fp)).bases < 0 := by
  rw [fastq_bases_some]
  exact Int.not_lt.mpr (Int.ofNat_nonneg _)

theorem main_read_loop_some_cons (fp : List Nat) (rest : List (Option (List Nat)))
    (tb tr : Int) :
    main_read_loop (some fp :: rest) tb tr
      = main_read_loop rest (tb + (fastq_bases (some fp)).bases)
          (tr + (fastq_bases (some fp)).reads) := by
  rw [main_read_loop, if_neg (fastq_bases_nonneg fp)]

/-- C8 (amended): for a read input `A` made of `4 * k` newline-terminated lines which, with
their terminator, are shorter than `MAX_LINE` bytes, and every read input `B`,
`fastq_bases` on `A` followed by `B` returns the sums of the `base_count`s and of the
`record_count`s it returns on `A` and on `B`; so the totals of `main` are the same for the
two files `A`, `B` as for the one file `A ++ B`. -/
theorem fastq_bases_additive (ls : List (List Nat)) (k : Nat) (B : List Nat)
    (hls : ∀ l ∈ ls, 10 ∉ l ∧ l.length + 1 < MAX_LINE) (hk : ls.length = 4 * k) :
    (fastq_bases (some (joinLines ls ++ B))).bases
        = (fastq_bases (some (joinLines ls))).bases + (fastq_bases (some B)).bases
      ∧ (fastq_bases (some (joinLines ls ++ B))).reads
        = (fastq_bases (some (joinLines ls))).reads + (fastq_bases (some B)).reads
      ∧ main_read_loop [some (joinLines ls), some B] 0 0
        = main_read_loop [some (joinLines ls ++ B)] 0 0 := by
  have hb : ∀ l ∈ ls, 10 ∉ l ∧ l.length < 65535 := by
    intro l hl
    have := hls l hl
    simp only [MAX_LINE] at this
    exact ⟨this.1, by omega⟩
  have hA : gzlines (joinLines ls) = ls.map (fun l => l ++ [10]) := by
    have := gzlines_joinLines ls hb []
    simpa [gzlines_nil] using this
  have h4 : (ls.map (fun l => l ++ [10])).length % 4 = 0 := by
    rw [List.length_map, hk]; omega
  have e1 : (fastq_bases (some (joinLines ls ++ B))).bases
      = (fastq_bases (some (joinLines ls))).bases + (fastq_bases (some B)).bases := by
    simp only [fastq_bases_some, gzlines_joinLines ls hb B, hA]
    rw [fastq_groups_append _ _ 0 0 h4, fastq_groups_shift (gzlines B)]
    push_cast
    rfl
  have e2 : (fastq_bases (some (joinLines ls ++ B))).reads
      = (fastq_bases (some (joinLines ls))).reads + (fastq_bases (some B)).reads := by
    simp only [fastq_bases_some, gzlines_joinLines ls hb B, hA]
    rw [fastq_groups_append _ _ 0 0 h4, fastq_groups_shift (gzlines B)]
    push_cast
    rfl
  refine ⟨e1, e2, ?_⟩
  rw [main_read_loop_some_cons, main_read_loop_some_cons, main_read_loop_some_cons, e1, e2]
  simp only [main_read_loop, Int.zero_add]

/-- C8, witness: one record followed by a second input that starts in the middle of a
record. -/
theorem fastq_bases_additive_witness :
    (fastq_bases (some (joinLines [bytes "@r1", bytes "ACGT", bytes "+", bytes "IIII"]
          ++ bytes "@r2\nAC\n+\nII\n@r3\nA"))).bases
        = (fastq_bases (some (joinLines [bytes "@r1", bytes "ACGT", bytes "+",
            bytes "IIII"]))).bases + (fastq_bases (some (bytes "@r2\nAC\n+\nII\n@r3\nA"))).bases
      ∧ (fastq_bases (some (joinLines [bytes "@r1", bytes "ACGT", bytes "+", bytes "IIII"]
          ++ bytes "@r2\nAC\n+\nII\n@r3\nA"))).reads
        = (fastq_bases (some (joinLines [bytes "@r1", bytes "ACGT", bytes "+",
            bytes "IIII"]))).reads + (fastq_bases (some (bytes "@r2\nAC\n+\nII\n@r3\nA"))).reads
      ∧ main_read_loop [some (joinLines [bytes "@r1", bytes "ACGT", bytes "+", bytes "IIII"]),
          some (bytes "@r2\nAC\n+\nII\n@r3\nA")] 0 0
        = main_read_loop [some (joinLines [bytes "@r1", bytes "ACGT", bytes "+", bytes "IIII"]
          ++ bytes "@r2\nAC\n+\nII\n@r3\nA")] 0 0 :=
  fastq_bases_additive _ 1 _ (by decide) (by decide)

theorem gzlines_long_first (t rest : List Nat) (ht : 10 ∉ t) (hlen : t.length = 65535) :
    gzlines (t ++ rest) = t :: gzlines rest := by
  have hne : t ++ rest ≠ [] := by
    intro h
    have := congrArg List.length h
    simp only [List.length_append, hlen, List.length_nil] at this
    omega
  rw [gzlines_of_ne_nil _ hne, gzread_full 65535 t rest ht hlen]

/-- A first line of 65535 bytes is delivered in two pieces, so the four lines of `A` are
five lines for `fastq_bases` and the records of `B` are read out of step. -/
theorem fastq_bases_long_line (t : List Nat) (ht : 10 ∉ t) (hlen : t.length = 65535) :
    fastq_bases (some (joinLines [t, [], [], []] ++ bytes "@\nAC\n+\nII\n"))
        = { bases := 1, reads := 2 }
      ∧ fastq_bases (some (joinLines [t, [], [], []])) = { bases := 0, reads := 1 } := by
  have hj : joinLines [t, [], [], []] = t ++ joinLines [[], [], [], []] := by
    simp [joinLines]
  have hs : ∀ l ∈ ([[], [], [], []] : List (List Nat)), 10 ∉ l ∧ l.length < 65535 := by
    decide
  constructor
  · rw [fastq_bases_some, hj, List.append_assoc, gzlines_long_first t _ ht hlen,
      gzlines_joinLines _ hs]
    have hB : gzlines (bytes "@\nAC\n+\nII\n")
        = [[64, 10], [65, 67, 10], [43, 10], [73, 73, 10]] := by decide
    rw [hB]
    simp only [List.map_cons, List.map_nil, List.nil_append, List.cons_append, fastq_groups]
    decide
  · rw [fastq_bases_some, hj, gzlines_long_first t _ ht hlen]
    have hB : gzlines (joinLines [[], [], [], []]) = [[10], [10], [10], [10]] := by decide
    rw [hB]
    simp only [fastq_groups]
    decide

/-- C8, counterexample: `A` is made of four newline-terminated lines, the first of 65535
letters and three empty ones, `B` is one record of two bases. Separately they give
`(0, 1)` and `(2, 1)`; `A` followed by `B` gives `(1, 2)`, not `(2, 2)`. -/
theorem fastq_bases_not_additive_long_line :
    [List.replicate 65535 65, [], [], []].length = 4 * 1
      ∧ fastq_bases (some (joinLines [List.replicate 65535 65, [], [], []]
          ++ bytes "@\nAC\n+\nII\n")) = { bases := 1, reads := 2 }
      ∧ fastq_bases (some (joinLines [List.replicate 65535 65, [], [], []]))
          = { bases := 0, reads := 1 }
      ∧ fastq_bases (some (bytes "@\nAC\n+\nII\n")) = { bases := 2, reads := 1 } := by
  have h := fastq_bases_long_line (List.replicate 65535 65)
    (not_mem_replicate_of_ne _ _ _ (by decide)) (List.length_replicate _ _)
  exact ⟨rfl, h.1, h.2, by decide⟩

/-! ## The run -/

theorem main_read_loop_eq_none_iff (reads : List (Option (List Nat))) (tb tr : Int) :
    main_read_loop reads tb tr = none ↔ ∃ f ∈ reads, (fastq_bases f).bases < 0 := by
  induction reads generalizing tb tr with
  | nil => simp [main_read_loop]
  | cons f fs ih =>
    rw [main_read_loop]
    by_cases hf : (fastq_bases f).bases < 0
    · simp [hf]
    · rw [if_neg hf, ih]
      simp [hf]

theorem main_read_loop_sums (reads : List (Option (List Nat))) (tb tr : Int)
    (h : ∀ f ∈ reads, 0 ≤ (fastq_bases f).bases) :
    main_read_loop reads tb tr
      = some (tb + (reads.map (fun f => (fastq_bases f).bases)).sum,
          tr + (reads.map (fun f => (fastq_bases f).reads)).sum) := by
  induction reads generalizing tb tr with
  | nil => simp [main_read_loop]
  | cons f fs ih =>
    have hf : ¬ (fastq_bases f).bases < 0 := Int.not_lt.mpr (h f (List.mem_cons_self _ _))
    rw [main_read_loop, if_neg hf, ih _ _ (fun g hg => h g (List.mem_cons_of_mem _ hg))]
    simp [Int.add_assoc]

/-- C10: the run exits with code 1 and prints no coverage whenever `genome_length` fails
(-1) or returns 0, and whenever `fastq_bases` fails for one of the read files, whatever
the other files give; a run either exits with 1 and prints nothing, or exits with 0 and
prints a coverage, and then the genome length is positive and every read file was
counted; and with a positive genome length and one to `MAX_FILES` read files, all
counted, it does exit with 0. -/
theorem main_fails_or_counts_all (genome : Option (List Nat))
    (reads : List (Option (List Nat))) :
    (genome_length genome ≤ 0 → main genome reads = (1, none))
      ∧ ((∃ f ∈ reads, (fastq_bases f).bases < 0) → main genome reads = (1, none))
      ∧ (main genome reads = (1, none)
        ∨ ((main genome reads).1 = 0 ∧ (main genome reads).2.isSome = true
          ∧ 0 < genome_length genome ∧ ∀ f ∈ reads, 0 ≤ (fastq_bases f).bases))
      ∧ (reads ≠ [] → reads.length ≤ MAX_FILES → 0 < genome_length genome
        → (∀ f ∈ reads, 0 ≤ (fastq_bases f).bases)
        → (main genome reads).1 = 0 ∧ (main genome reads).2.isSome = true) := by
  refine ⟨fun hg => ?_, fun hf => ?_, ?_, fun hne hmax hg hall => ?_⟩
  · unfold main
    split_ifs with h1 h2 h3 h4
    · rfl
    · rfl
    · rfl
    · rfl
    · omega
  · have hn := (main_read_loop_eq_none_iff reads 0 0).mpr hf
    unfold main
    split_ifs with h1 h2 h3 h4
    · rfl
    · rfl
    · rfl
    · rfl
    · rw [hn]
  · unfold main
    split_ifs with h1 h2 h3 h4
    · exact Or.inl rfl
    · exact Or.inl rfl
    · exact Or.inl rfl
    · exact Or.inl rfl
    · cases hl : main_read_loop reads 0 0 with
      | none => exact Or.inl rfl
      | some p =>
        refine Or.inr ⟨rfl, rfl, by omega, fun f hf => ?_⟩
        by_contra hneg
        have : main_read_loop reads 0 0 = none :=
          (main_read_loop_eq_none_iff reads 0 0).mpr ⟨f, hf, by omega⟩
        rw [this] at hl
        exact absurd hl (by simp)
  · have hs := main_read_loop_sums reads 0 0 hall
    have hlen : reads.length ≠ 0 := fun h => hne (List.length_eq_zero.mp h)
    unfold main
    rw [if_neg hlen, if_neg (Nat.not_lt.mpr hmax), if_neg (by omega), if_neg (by omega), hs]
    exact ⟨rfl, rfl⟩

/-! ## Rounding to `double` -/

theorem ilog2_spec (fuel n : Nat) (h0 : 0 < n) (hf : n ≤ fuel) :
    2 ^ ilog2 fuel n ≤ n ∧ n < 2 ^ (ilog2 fuel n + 1) := by
  induction fuel generalizing n with
  | zero => omega
  | succ fuel ih =>
    unfold ilog2
    by_cases h2 : n < 2
    · rw [if_pos h2]
      simp only [Nat.pow_zero, Nat.zero_add, Nat.pow_one]
      omega
    · rw [if_neg h2]
      have hd := ih (n / 2) (by omega) (by omega)
      rw [Nat.pow_succ, Nat.pow_succ]
      constructor <;> omega

theorem scale_snd_pos (a b : Nat) (k : Int) (hb : 0 < b) : 0 < (scale a b k).2 := by
  unfold scale
  split_ifs
  · exact Nat.mul_pos hb (Nat.pow_pos (by decide))
  · exact hb

theorem scale_val (a b : Nat) (k : Int) (hb : 0 < b) :
    ((scale a b k).1 : ℚ) / ((scale a b k).2 : ℚ) = (a : ℚ) / (b : ℚ) * (2 : ℚ) ^ (-k) := by
  have hbq : (b : ℚ) ≠ 0 := by exact_mod_cast hb.ne'
  have h2 : ∀ j : Int, ((2 : ℚ) ^ j) ≠ 0 := fun j => zpow_ne_zero j (by norm_num)
  unfold scale
  split_ifs with hk
  · have e : ((2 : ℚ) ^ k.toNat) = (2 : ℚ) ^ k := by
      rw [← zpow_natCast, Int.toNat_of_nonneg hk]
    simp only [Nat.cast_mul, Nat.cast_pow, Nat.cast_ofNat]
    rw [e, zpow_neg, div_mul_eq_div_div, div_eq_mul_inv ((a : ℚ) / b)]
  · have hk' : 0 ≤ -k := by omega
    have e : ((2 : ℚ) ^ (-k).toNat) = (2 : ℚ) ^ (-k) := by
      rw [← zpow_natCast, Int.toNat_of_nonneg hk']
    simp only [Nat.cast_mul, Nat.cast_pow, Nat.cast_ofNat]
    rw [e, mul_div_right_comm]

theorem rne_of_dvd (n d t : Nat) (hd : 0 < d) (h : n = d * t) : rne n d = t := by
  subst h
  unfold rne
  rw [Nat.mul_mod_right, Nat.mul_div_cancel_left _ hd]
  simp [hd]

theorem two_zpow_pos (j : Int) : (0 : ℚ) < (2 : ℚ) ^ j := zpow_pos (by norm_num) j

/-- The exponent chosen by `rn_div` leaves at least 53 bits before the binary point. -/
theorem exponent_lower (a b : Nat) (ha : 0 < a) (hb : 0 < b) :
    (2 : ℚ) ^ (52 : Nat) ≤ (a : ℚ) / (b : ℚ) * (2 : ℚ) ^ (-(exponent a b)) := by
  have hbq : (0 : ℚ) < (b : ℚ) := by exact_mod_cast hb
  unfold exponent
  split_ifs with h
  · rw [← scale_val a b _ hb]
    have hd : (0 : ℚ) < ((scale a b ((ilog2 a a : Int) - (ilog2 b b : Int) - 52)).2 : ℚ) := by
      exact_mod_cast scale_snd_pos a b _ hb
    rw [le_div_iff₀ hd]
    exact_mod_cast h
  · have hla := (ilog2_spec a a ha (Nat.le_refl _)).1
    have hlb := (ilog2_spec b b hb (Nat.le_refl _)).2
    have hla' : (2 : ℚ) ^ (ilog2 a a : Int) ≤ (a : ℚ) := by
      rw [zpow_natCast]; exact_mod_cast hla
    have hlb' : (b : ℚ) ≤ (2 : ℚ) ^ ((ilog2 b b : Int) + 1) := by
      have : (b : ℚ) ≤ (2 : ℚ) ^ (ilog2 b b + 1) := by exact_mod_cast hlb.le
      rw [← zpow_natCast] at this
      simpa using this
    have hq : (2 : ℚ) ^ (ilog2 a a : Int) / (2 : ℚ) ^ ((ilog2 b b : Int) + 1)
        ≤ (a : ℚ) / (b : ℚ) :=
      div_le_div₀ (by exact_mod_cast Nat.zero_le a) hla' hbq hlb'
    have he : (2 : ℚ) ^ (52 : Nat)
        = (2 : ℚ) ^ (ilog2 a a : Int) / (2 : ℚ) ^ ((ilog2 b b : Int) + 1)
          * (2 : ℚ) ^ (-((ilog2 a a : Int) - (ilog2 b b : Int) - 52 - 1)) := by
      rw [← zpow_sub₀ (by norm_num : (2 : ℚ) ≠ 0), ← zpow_add₀ (by norm_num : (2 : ℚ) ≠ 0),
        ← zpow_natCast]
      congr 1
      push_cast
      ring
    rw [he]
    exact mul_le_mul_of_nonneg_right hq (two_zpow_pos _).le

/-- Rounding is exact on a quotient that is a `double`: when `a / b = m * 2^k` with
`m < 2^53`, `rn_div a b` has that value. -/
theorem rn_div_exact (a b m : Nat) (k : Int) (hb : 0 < b) (hm : m < 2 ^ 53)
    (h : (a : ℚ) / (b : ℚ) = (m : ℚ) * (2 : ℚ) ^ k) :
    (rn_div a b).val = (a : ℚ) / (b : ℚ) := by
  by_cases ha : a = 0
  · subst ha
    simp [rn_div, binary64.val]
  · have ha' : 0 < a := Nat.pos_of_ne_zero ha
    have hlow := exponent_lower a b ha' hb
    have hsv := scale_val a b (exponent a b) hb
    have hd := scale_snd_pos a b (exponent a b) hb
    have hdq : (0 : ℚ) < ((scale a b (exponent a b)).2 : ℚ) := by exact_mod_cast hd
    have h2 : (2 : ℚ) ≠ 0 := by norm_num
    -- the exponent of the representation is not below the chosen one
    have hke : exponent a b ≤ k := by
      by_contra hlt
      have hlt' : k - exponent a b ≤ -1 := by omega
      have hp : (2 : ℚ) ^ (k - exponent a b) ≤ (2 : ℚ) ^ (-1 : Int) :=
        zpow_le_zpow_right₀ (by norm_num) hlt'
      have hm' : m < 9007199254740992 := by norm_num at hm; exact hm
      have hmq : (m : ℚ) < 9007199254740992 := by exact_mod_cast hm'
      have hv : (a : ℚ) / (b : ℚ) * (2 : ℚ) ^ (-(exponent a b))
          = (m : ℚ) * (2 : ℚ) ^ (k - exponent a b) := by
        rw [h, mul_assoc, ← zpow_add₀ h2, sub_eq_add_neg]
      rw [hv] at hlow
      have hm0 : (0 : ℚ) ≤ (m : ℚ) := by exact_mod_cast Nat.zero_le m
      have : (m : ℚ) * (2 : ℚ) ^ (k - exponent a b) ≤ (m : ℚ) * (2 : ℚ) ^ (-1 : Int) :=
        mul_le_mul_of_nonneg_left hp hm0
      norm_num at this hlow
      linarith
    obtain ⟨j, hj⟩ : ∃ j : Nat, k - exponent a b = (j : Int) :=
      ⟨(k - exponent a b).toNat, (Int.toNat_of_nonneg (by omega)).symm⟩
    have hquot : ((scale a b (exponent a b)).1 : ℚ) / ((scale a b (exponent a b)).2 : ℚ)
        = ((m * 2 ^ j : Nat) : ℚ) := by
      rw [hsv, h, mul_assoc, ← zpow_add₀ h2, ← sub_eq_add_neg, hj, zpow_natCast]
      push_cast
      rfl
    have hn : (scale a b (exponent a b)).1 = (scale a b (exponent a b)).2 * (m * 2 ^ j) := by
      rw [div_eq_iff hdq.ne'] at hquot
      have : ((scale a b (exponent a b)).1 : ℚ)
          = (((scale a b (exponent a b)).2 * (m * 2 ^ j) : Nat) : ℚ) := by
        rw [hquot]; push_cast; ring
      exact_mod_cast this
    have hr := rne_of_dvd _ _ _ hd hn
    unfold rn_div
    rw [if_neg ha]
    simp only [binary64.val, hr]
    rw [h]
    have hk : k = (j : Int) + exponent a b := by omega
    rw [hk, zpow_add₀ h2, zpow_natCast]
    push_cast
    ring

theorem to_double_exact (n : Int) (h0 : 0 ≤ n) (hn : n < 2 ^ 53) :
    (to_double n).val = (n : ℚ) := by
  have hcast : ((n.toNat : Nat) : ℚ) = (n : ℚ) := by
    have : ((n.toNat : Nat) : Int) = n := Int.toNat_of_nonneg h0
    exact_mod_cast this
  have hlt : n.toNat < 2 ^ 53 := by
    have : ((n.toNat : Nat) : Int) < 2 ^ 53 := by rw [Int.toNat_of_nonneg h0]; exact hn
    exact_mod_cast this
  have h := rn_div_exact n.toNat 1 n.toNat 0 (by decide) hlt (by simp)
  rw [to_double, h, hcast]
  simp

theorem double_div_exact (x y : binary64) (m : Nat) (k : Int) (hy : 0 < y.m)
    (hm : m < 2 ^ 53) (h : x.val / y.val = (m : ℚ) * (2 : ℚ) ^ k) :
    (double_div x y).val = x.val / y.val := by
  have h2 : (2 : ℚ) ≠ 0 := by norm_num
  have hym : (y.m : ℚ) ≠ 0 := by exact_mod_cast hy.ne'
  have hsplit : x.val / y.val = (x.m : ℚ) / (y.m : ℚ) * (2 : ℚ) ^ (x.k - y.k) := by
    simp only [binary64.val]
    rw [zpow_sub₀ h2]
    field_simp
  have hz := two_zpow_pos (x.k - y.k)
  have e : (x.m : ℚ) / (y.m : ℚ) * (2 : ℚ) ^ (x.k - y.k) = (m : ℚ) * (2 : ℚ) ^ k := by
    rw [← hsplit, h]
  have hq : (x.m : ℚ) / (y.m : ℚ) = (m : ℚ) * (2 : ℚ) ^ (k - (x.k - y.k)) := by
    rw [zpow_sub₀ h2, ← mul_div_assoc, ← e, mul_div_assoc, div_self hz.ne', mul_one]
  have hr := rn_div_exact x.m y.m m _ hy hm hq
  rw [hsplit, ← hr]
  simp only [double_div, binary64.val]
  rw [show (rn_div x.m y.m).k + x.k - y.k = (rn_div x.m y.m).k + (x.k - y.k) by ring,
    zpow_add₀ h2]
  ring

/-- The coverage is the exact quotient when the two counts are below `2^53` and their
quotient is a `double`. -/
theorem coverage_exact (tb g : Int) (m : Nat) (k : Int) (h0 : 0 ≤ tb) (htb : tb < 2 ^ 53)
    (hg0 : 0 < g) (hg : g < 2 ^ 53) (hm : m < 2 ^ 53)
    (h : (tb : ℚ) / (g : ℚ) = (m : ℚ) * (2 : ℚ) ^ k) :
    (coverage tb g).val = (tb : ℚ) / (g : ℚ) := by
  have e1 := to_double_exact tb h0 htb
  have e2 := to_double_exact g hg0.le hg
  have hy : 0 < (to_double g).m := by
    rcases Nat.eq_zero_or_pos (to_double g).m with hz | hp
    · have hgq : (0 : ℚ) < (g : ℚ) := by exact_mod_cast hg0
      rw [← e2, binary64.val, hz] at hgq
      simp at hgq
    · exact hp
  have := double_div_exact (to_double tb) (to_double g) m k hy hm (by rw [e1, e2]; exact h)
  rw [coverage, this, e1, e2]

/-! ## Rounding to nearest, ties to even -/

/-- The integer `rne num den` is nearest to `num / den`, and even on a tie. -/
theorem rne_nearest (num den : Nat) (hd : 0 < den) :
    |(num : ℚ) / (den : ℚ) - (rne num den : ℚ)| ≤ 1 / 2
      ∧ (|(num : ℚ) / (den : ℚ) - (rne num den : ℚ)| = 1 / 2 → rne num den % 2 = 0) := by
  have hdq : (0 : ℚ) < (den : ℚ) := by exact_mod_cast hd
  have hsplit : (num : ℚ) / (den : ℚ) = ((num / den : Nat) : ℚ) + ((num % den : Nat) : ℚ) / den := by
    have h := Nat.div_add_mod num den
    have hq : (num : ℚ) = (den : ℚ) * ((num / den : Nat) : ℚ) + ((num % den : Nat) : ℚ) := by
      exact_mod_cast h.symm
    rw [eq_comm, ← sub_eq_zero]
    field_simp
    rw [hq]
    ring
  have hr : num % den < den := Nat.mod_lt _ hd
  have hrq : ((num % den : Nat) : ℚ) < (den : ℚ) := by exact_mod_cast hr
  have hr0 : (0 : ℚ) ≤ ((num % den : Nat) : ℚ) := by exact_mod_cast Nat.zero_le _
  have hfrac0 : (0 : ℚ) ≤ ((num % den : Nat) : ℚ) / den := div_nonneg hr0 hdq.le
  unfold rne
  by_cases h1 : 2 * (num % den) < den
  · rw [if_pos h1]
    have h1q : 2 * ((num % den : Nat) : ℚ) < (den : ℚ) := by exact_mod_cast h1
    have hlt : ((num % den : Nat) : ℚ) / den < 1 / 2 := by
      rw [div_lt_iff₀ hdq]; linarith
    have e : (num : ℚ) / (den : ℚ) - ((num / den : Nat) : ℚ) = ((num % den : Nat) : ℚ) / den := by
      rw [hsplit]; ring
    rw [e, abs_of_nonneg hfrac0]
    exact ⟨hlt.le, fun h => absurd h hlt.ne⟩
  · rw [if_neg h1]
    by_cases h2 : den < 2 * (num % den)
    · rw [if_pos h2]
      have h2q : (den : ℚ) < 2 * ((num % den : Nat) : ℚ) := by exact_mod_cast h2
      have hgt : 1 / 2 < ((num % den : Nat) : ℚ) / den := by
        rw [lt_div_iff₀ hdq]; linarith
      have hlt1 : ((num % den : Nat) : ℚ) / den < 1 := by
        rw [div_lt_iff₀ hdq]; linarith
      have e : (num : ℚ) / (den : ℚ) - ((num / den + 1 : Nat) : ℚ)
          = -(1 - ((num % den : Nat) : ℚ) / den) := by
        rw [hsplit]; push_cast; ring
      rw [e, abs_neg, abs_of_nonneg (by linarith)]
      exact ⟨by linarith, fun h => absurd h (by linarith)⟩
    · rw [if_neg h2]
      have heq : 2 * (num % den) = den := by omega
      have heqq : 2 * ((num % den : Nat) : ℚ) = (den : ℚ) := by exact_mod_cast heq
      have hhalf : ((num % den : Nat) : ℚ) / den = 1 / 2 := by
        rw [div_eq_iff hdq.ne']; linarith
      rcases Nat.mod_two_eq_zero_or_one (num / den) with hev | hod
      · rw [hev, Nat.add_zero]
        have e : (num : ℚ) / (den : ℚ) - ((num / den : Nat) : ℚ) = 1 / 2 := by
          rw [hsplit, hhalf]; ring
        rw [e, abs_of_nonneg (by norm_num)]
        exact ⟨le_refl _, fun _ => hev⟩
      · rw [hod]
        have e : (num : ℚ) / (den : ℚ) - ((num / den + 1 : Nat) : ℚ) = -(1 / 2) := by
          rw [hsplit, hhalf]; push_cast; ring
        rw [e, abs_neg, abs_of_nonneg (by norm_num)]
        exact ⟨le_refl _, fun _ => by omega⟩

/-- The exponent chosen by `rn_div` leaves at most 53 bits before the binary point. -/
theorem exponent_upper (a b : Nat) (ha : 0 < a) (hb : 0 < b) :
    (a : ℚ) / (b : ℚ) * (2 : ℚ) ^ (-(exponent a b)) < (2 : ℚ) ^ (53 : Nat) := by
  have hbq : (0 : ℚ) < (b : ℚ) := by exact_mod_cast hb
  have h2 : (2 : ℚ) ≠ 0 := by norm_num
  unfold exponent
  split_ifs with h
  · have hla := (ilog2_spec a a ha (Nat.le_refl _)).2
    have hlb := (ilog2_spec b b hb (Nat.le_refl _)).1
    have hla' : (a : ℚ) < (2 : ℚ) ^ ((ilog2 a a : Int) + 1) := by
      have : (a : ℚ) < (2 : ℚ) ^ (ilog2 a a + 1) := by exact_mod_cast hla
      rw [← zpow_natCast] at this
      simpa using this
    have hlb' : (2 : ℚ) ^ (ilog2 b b : Int) ≤ (b : ℚ) := by
      rw [zpow_natCast]; exact_mod_cast hlb
    have hq : (a : ℚ) / (b : ℚ)
        < (2 : ℚ) ^ ((ilog2 a a : Int) + 1) / (2 : ℚ) ^ (ilog2 b b : Int) := by
      rw [div_lt_div_iff₀ hbq (two_zpow_pos _)]
      calc (a : ℚ) * (2 : ℚ) ^ (ilog2 b b : Int)
          ≤ (a : ℚ) * (b : ℚ) :=
            mul_le_mul_of_nonneg_left hlb' (by exact_mod_cast Nat.zero_le a)
        _ < (2 : ℚ) ^ ((ilog2 a a : Int) + 1) * (b : ℚ) :=
            mul_lt_mul_of_pos_right hla' hbq
    have he : (2 : ℚ) ^ (53 : Nat)
        = (2 : ℚ) ^ ((ilog2 a a : Int) + 1) / (2 : ℚ) ^ (ilog2 b b : Int)
          * (2 : ℚ) ^ (-((ilog2 a a : Int) - (ilog2 b b : Int) - 52)) := by
      rw [← zpow_sub₀ h2, ← zpow_add₀ h2, ← zpow_natCast]
      congr 1
      push_cast
      ring
    rw [he]
    exact mul_lt_mul_of_pos_right hq (two_zpow_pos _)
  · have hsv := scale_val a b ((ilog2 a a : Int) - (ilog2 b b : Int) - 52) hb
    have hd : (0 : ℚ) < ((scale a b ((ilog2 a a : Int) - (ilog2 b b : Int) - 52)).2 : ℚ) := by
      exact_mod_cast scale_snd_pos a b _ hb
    have hlt : ((scale a b ((ilog2 a a : Int) - (ilog2 b b : Int) - 52)).1 : ℚ)
        < (2 : ℚ) ^ (52 : Nat)
          * ((scale a b ((ilog2 a a : Int) - (ilog2 b b : Int) - 52)).2 : ℚ) := by
      exact_mod_cast Nat.lt_of_not_le h
    have hx : (a : ℚ) / (b : ℚ) * (2 : ℚ) ^ (-((ilog2 a a : Int) - (ilog2 b b : Int) - 52))
        < (2 : ℚ) ^ (52 : Nat) := by
      rw [← hsv, div_lt_iff₀ hd]
      exact hlt
    have he : (2 : ℚ) ^ (-((ilog2 a a : Int) - (ilog2 b b : Int) - 52 - 1))
        = (2 : ℚ) ^ (-((ilog2 a a : Int) - (ilog2 b b : Int) - 52)) * 2 := by
      rw [show -((ilog2 a a : Int) - (ilog2 b b : Int) - 52 - 1)
          = -((ilog2 a a : Int) - (ilog2 b b : Int) - 52) + 1 by ring,
        zpow_add₀ h2, zpow_one]
    rw [he, ← mul_assoc]
    have : (2 : ℚ) ^ (53 : Nat) = (2 : ℚ) ^ (52 : Nat) * 2 := by norm_num
    rw [this]
    exact mul_lt_mul_of_pos_right hx (by norm_num)

/-- The result of `rn_div` is the `double` nearest to `a / b`, ties to even. -/
theorem rn_div_nearest (a b : Nat) (ha : 0 < a) (hb : 0 < b) :
    nearest_double ((a : ℚ) / (b : ℚ)) (rn_div a b) := by
  have h2 : (2 : ℚ) ≠ 0 := by norm_num
  have hlow := exponent_lower a b ha hb
  have hup := exponent_upper a b ha hb
  have hsv := scale_val a b (exponent a b) hb
  have hd := scale_snd_pos a b (exponent a b) hb
  have hr := rne_nearest (scale a b (exponent a b)).1 (scale a b (exponent a b)).2 hd
  rw [hsv] at hr
  have hpk := two_zpow_pos (exponent a b)
  have hinv : (2 : ℚ) ^ (-(exponent a b)) * (2 : ℚ) ^ (exponent a b) = 1 := by
    rw [← zpow_add₀ h2]; simp
  have hval : (rn_div a b).val
      = ((rne (scale a b (exponent a b)).1 (scale a b (exponent a b)).2 : Nat) : ℚ)
        * (2 : ℚ) ^ (exponent a b) := by
    rw [rn_div, if_neg (by omega)]
    rfl
  have hk : (rn_div a b).k = exponent a b := by
    rw [rn_div, if_neg (by omega)]
  have hm : (rn_div a b).m = rne (scale a b (exponent a b)).1 (scale a b (exponent a b)).2 := by
    rw [rn_div, if_neg (by omega)]
  generalize rne (scale a b (exponent a b)).1 (scale a b (exponent a b)).2 = m at hr hval hm
  generalize (a : ℚ) / (b : ℚ) = q at hlow hup hr ⊢
  have hq : q = q * (2 : ℚ) ^ (-(exponent a b)) * (2 : ℚ) ^ (exponent a b) := by
    rw [mul_assoc, hinv, mul_one]
  have habs : |q - (rn_div a b).val|
      = |q * (2 : ℚ) ^ (-(exponent a b)) - (m : ℚ)| * (2 : ℚ) ^ (exponent a b) := by
    rw [hval, ← abs_of_pos hpk, ← abs_mul, abs_of_pos hpk, sub_mul, ← hq]
  obtain ⟨hr1, hr2⟩ := hr
  have habs' := abs_le.mp hr1
  unfold nearest_double
  rw [hk, hm, habs]
  refine ⟨?_, ?_, ?_, ?_, ?_, ?_⟩
  · calc (2 : ℚ) ^ (52 : Nat) * (2 : ℚ) ^ (exponent a b)
        ≤ q * (2 : ℚ) ^ (-(exponent a b)) * (2 : ℚ) ^ (exponent a b) :=
          mul_le_mul_of_nonneg_right hlow hpk.le
      _ = q := hq.symm
  · calc q = q * (2 : ℚ) ^ (-(exponent a b)) * (2 : ℚ) ^ (exponent a b) := hq
      _ < (2 : ℚ) ^ (53 : Nat) * (2 : ℚ) ^ (exponent a b) :=
          mul_lt_mul_of_pos_right hup hpk
  · by_contra hlt
    have hlt' : m + 1 ≤ 2 ^ 52 := by omega
    have : ((m + 1 : Nat) : ℚ) ≤ ((2 ^ 52 : Nat) : ℚ) := by exact_mod_cast hlt'
    push_cast at this
    have e52 : (2 : ℚ) ^ (52 : Nat) = 4503599627370496 := by norm_num
    rw [e52] at hlow
    linarith [habs'.1, habs'.2]
  · by_contra hgt
    have hgt' : 2 ^ 53 + 1 ≤ m := by omega
    have : ((2 ^ 53 + 1 : Nat) : ℚ) ≤ (m : ℚ) := by exact_mod_cast hgt'
    push_cast at this
    have e53 : (2 : ℚ) ^ (53 : Nat) = 9007199254740992 := by norm_num
    rw [e53] at hup
    linarith [habs'.1, habs'.2]
  · calc |q * (2 : ℚ) ^ (-(exponent a b)) - (m : ℚ)| * (2 : ℚ) ^ (exponent a b)
        ≤ 1 / 2 * (2 : ℚ) ^ (exponent a b) := mul_le_mul_of_nonneg_right hr1 hpk.le
      _ = (2 : ℚ) ^ (exponent a b) / 2 := by ring
  · intro htie
    apply hr2
    have : |q * (2 : ℚ) ^ (-(exponent a b)) - (m : ℚ)| * (2 : ℚ) ^ (exponent a b)
        = 1 / 2 * (2 : ℚ) ^ (exponent a b) := by rw [htie]; ring
    exact mul_right_cancel₀ hpk.ne' this

/-- Scaling by a power of two commutes with rounding. -/
theorem nearest_double_scale (q : ℚ) (d : binary64) (j : Int) (h : nearest_double q d) :
    nearest_double (q * (2 : ℚ) ^ j) { m := d.m, k := d.k + j } := by
  have h2 : (2 : ℚ) ≠ 0 := by norm_num
  have hj := two_zpow_pos j
  obtain ⟨h1, h2', h3, h4, h5, h6⟩ := h
  have hv : (binary64.val { m := d.m, k := d.k + j }) = d.val * (2 : ℚ) ^ j := by
    simp only [binary64.val]
    rw [zpow_add₀ h2, mul_assoc]
  have habs : |q * (2 : ℚ) ^ j - d.val * (2 : ℚ) ^ j| = |q - d.val| * (2 : ℚ) ^ j := by
    rw [← sub_mul, abs_mul, abs_of_pos hj]
  unfold nearest_double
  rw [hv, habs]
  simp only
  rw [zpow_add₀ h2]
  refine ⟨?_, ?_, h3, h4, ?_, ?_⟩
  · rw [← mul_assoc]; exact mul_le_mul_of_nonneg_right h1 hj.le
  · rw [← mul_assoc]; exact mul_lt_mul_of_pos_right h2' hj
  · calc |q - d.val| * (2 : ℚ) ^ j ≤ (2 : ℚ) ^ d.k / 2 * (2 : ℚ) ^ j :=
          mul_le_mul_of_nonneg_right h5 hj.le
      _ = (2 : ℚ) ^ d.k * (2 : ℚ) ^ j / 2 := by ring
  · intro htie
    apply h6
    have : |q - d.val| * (2 : ℚ) ^ j = (2 : ℚ) ^ d.k / 2 * (2 : ℚ) ^ j := by
      rw [htie]; ring
    exact mul_right_cancel₀ hj.ne' this

/-- `double` division rounds the quotient of its operands to nearest, ties to even. -/
theorem double_div_nearest (x y : binary64) (hx : 0 < x.m) (hy : 0 < y.m) :
    nearest_double (x.val / y.val) (double_div x y) := by
  have h2 : (2 : ℚ) ≠ 0 := by norm_num
  have hym : (y.m : ℚ) ≠ 0 := by exact_mod_cast hy.ne'
  have hsplit : x.val / y.val = (x.m : ℚ) / (y.m : ℚ) * (2 : ℚ) ^ (x.k - y.k) := by
    simp only [binary64.val]
    rw [zpow_sub₀ h2]
    field_simp
  have h := nearest_double_scale _ _ (x.k - y.k) (rn_div_nearest x.m y.m hx hy)
  rw [hsplit]
  have e : double_div x y
      = { m := (rn_div x.m y.m).m, k := (rn_div x.m y.m).k + (x.k - y.k) } := by
    simp only [double_div]
    congr 1
    ring
  rw [e]
  exact h

/-- `(double)n` rounds a positive count to nearest, ties to even. -/
theorem to_double_nearest (n : Int) (h0 : 0 < n) : nearest_double (n : ℚ) (to_double n) := by
  have hcast : ((n.toNat : Nat) : ℚ) = (n : ℚ) := by
    have : ((n.toNat : Nat) : Int) = n := Int.toNat_of_nonneg h0.le
    exact_mod_cast this
  have h := rn_div_nearest n.toNat 1 (by omega) (by decide)
  rw [Nat.cast_one, div_one, hcast] at h
  exact h

/-- The coverage is the quotient of the two converted counts rounded to nearest, ties to
even. -/
theorem coverage_nearest (tb g : Int) (htb : 0 < tb) (hg : 0 < g) :
    nearest_double ((to_double tb).val / (to_double g).val) (coverage tb g) := by
  have h1 := to_double_nearest tb htb
  have h2 := to_double_nearest g hg
  have hx : 0 < (to_double tb).m := Nat.lt_of_lt_of_le (by decide) h1.2.2.1
  have hy : 0 < (to_double g).m := Nat.lt_of_lt_of_le (by decide) h2.2.2.1
  exact double_div_nearest _ _ hx hy

theorem coverage_zero (g : Int) : (coverage 0 g).val = 0 := by
  simp [coverage, double_div, to_double, rn_div, binary64.val]

/-- Rounding to nearest, ties to even, determines the `double`. -/
theorem nearest_double_unique (q : ℚ) (d e : binary64) (hd : nearest_double q d)
    (he : nearest_double q e) : d = e := by
  obtain ⟨d1, d2, _, _, d5, d6⟩ := hd
  obtain ⟨e1, e2, _, _, e5, e6⟩ := he
  have hk : d.k = e.k := by
    rcases lt_trichotomy d.k e.k with h | h | h
    · have hp : (2 : ℚ) ^ (d.k + 1) ≤ (2 : ℚ) ^ e.k :=
        zpow_le_zpow_right₀ (by norm_num) (by omega)
      rw [zpow_add₀ (by norm_num : (2 : ℚ) ≠ 0), zpow_one] at hp
      have e52 : (2 : ℚ) ^ (52 : Nat) = 4503599627370496 := by norm_num
      have e53 : (2 : ℚ) ^ (53 : Nat) = 9007199254740992 := by norm_num
      rw [e53] at d2
      rw [e52] at e1
      have := two_zpow_pos d.k
      nlinarith
    · exact h
    · have hp : (2 : ℚ) ^ (e.k + 1) ≤ (2 : ℚ) ^ d.k :=
        zpow_le_zpow_right₀ (by norm_num) (by omega)
      rw [zpow_add₀ (by norm_num : (2 : ℚ) ≠ 0), zpow_one] at hp
      have e52 : (2 : ℚ) ^ (52 : Nat) = 4503599627370496 := by norm_num
      have e53 : (2 : ℚ) ^ (53 : Nat) = 9007199254740992 := by norm_num
      rw [e53] at e2
      rw [e52] at d1
      have := two_zpow_pos e.k
      nlinarith
  have hu := two_zpow_pos d.k
  simp only [binary64.val] at d5 d6 e5 e6
  rw [← hk] at e5 e6
  have key : ∀ (m n : Nat), m < n →
      |q - (m : ℚ) * (2 : ℚ) ^ d.k| ≤ (2 : ℚ) ^ d.k / 2 →
      |q - (n : ℚ) * (2 : ℚ) ^ d.k| ≤ (2 : ℚ) ^ d.k / 2 →
      (|q - (m : ℚ) * (2 : ℚ) ^ d.k| = (2 : ℚ) ^ d.k / 2 → m % 2 = 0) →
      (|q - (n : ℚ) * (2 : ℚ) ^ d.k| = (2 : ℚ) ^ d.k / 2 → n % 2 = 0) → False := by
    intro m n hmn a5 b5 a6 b6
    have ha := abs_le.mp a5
    have hb := abs_le.mp b5
    have h1 : ((m : ℚ) + 1) * (2 : ℚ) ^ d.k ≤ (n : ℚ) * (2 : ℚ) ^ d.k := by
      apply mul_le_mul_of_nonneg_right _ hu.le
      exact_mod_cast hmn
    have hn : n = m + 1 := by
      by_contra hne
      have h2 : ((m : ℚ) + 2) * (2 : ℚ) ^ d.k ≤ (n : ℚ) * (2 : ℚ) ^ d.k := by
        apply mul_le_mul_of_nonneg_right _ hu.le
        have : m + 2 ≤ n := by omega
        exact_mod_cast this
      linarith [ha.1, ha.2, hb.1, hb.2]
    have ta : q - (m : ℚ) * (2 : ℚ) ^ d.k = (2 : ℚ) ^ d.k / 2 := by
      linarith [ha.1, ha.2, hb.1, hb.2]
    have tb : q - (n : ℚ) * (2 : ℚ) ^ d.k = -((2 : ℚ) ^ d.k / 2) := by
      linarith [ha.1, ha.2, hb.1, hb.2]
    have ea := a6 (by rw [ta, abs_of_pos (by linarith)])
    have eb := b6 (by rw [tb, abs_neg, abs_of_pos (by linarith)])
    omega
  have hm : d.m = e.m := by
    rcases Nat.lt_trichotomy d.m e.m with h | h | h
    · exact absurd (key d.m e.m h d5 e5 d6 e6) id
    · exact h
    · exact absurd (key e.m d.m h e5 d5 e6 d6) id
  cases d
  cases e
  simp only at hk hm
  rw [hk, hm]

/-- Above `2^53` the conversion of a count rounds before the division: for
`total_bases = 2^54 + 2` and `g = 3` the quotient 6004799503160662 is a `double`, and the
coverage is 6004799503160661. -/
theorem coverage_double_rounding :
    coverage (2 ^ 54 + 2) 3 = { m := 6004799503160661, k := 0 }
      ∧ ((2 ^ 54 + 2 : Int) : ℚ) / ((3 : Int) : ℚ) = 6004799503160662 := by
  refine ⟨by decide, by norm_num⟩

/-- C9 (amended): for a genome length `g > 0` and the read files of the command line, all
of them openable, the loop of `main` gives `total_bases` = the sum of the `base_count`s
and `total_reads` = the sum of the `record_count`s, each entry of the list counted once
per occurrence, and `main` prints from these totals and from
`coverage = (double)total_bases / g`. With `total_bases = 0` the coverage is 0. Otherwise
each of the two counts is first converted to the `double` nearest to it (ties to even),
and the coverage is the one `double` nearest (ties to even) to the quotient of the two
converted counts. When the two counts are below `2^53` they convert exactly, so the
coverage is the `double` nearest to `total_bases / g`, and equals that quotient when the
quotient is a `double`; for `g = 100` and `total_bases = 450` it is 4.5, printed as
`4.50`. -/
theorem main_aggregation (g : Int) (files : List (List Nat)) (hg : 0 < g) :
    main_read_loop (files.map some) 0 0
        = some ((files.map (fun f => (fastq_bases (some f)).bases)).sum,
            (files.map (fun f => (fastq_bases (some f)).reads)).sum)
      ∧ (∀ genome, genome_length genome = g → files ≠ [] → files.length ≤ MAX_FILES →
          main genome (files.map some)
            = (0, some
                { total_bases := (files.map (fun f => (fastq_bases (some f)).bases)).sum,
                  total_reads := (files.map (fun f => (fastq_bases (some f)).reads)).sum,
                  genome_len := g,
                  coverage :=
                    coverage (files.map (fun f => (fastq_bases (some f)).bases)).sum g }))
      ∧ ((files.map (fun f => (fastq_bases (some f)).bases)).sum = 0 →
          (coverage (files.map (fun f => (fastq_bases (some f)).bases)).sum g).val = 0)
      ∧ (0 < (files.map (fun f => (fastq_bases (some f)).bases)).sum →
          nearest_double (((files.map (fun f => (fastq_bases (some f)).bases)).sum : Int) : ℚ)
              (to_double (files.map (fun f => (fastq_bases (some f)).bases)).sum)
            ∧ nearest_double (g : ℚ) (to_double g)
            ∧ nearest_double
                ((to_double (files.map (fun f => (fastq_bases (some f)).bases)).sum).val
                  / (to_double g).val)
                (coverage (files.map (fun f => (fastq_bases (some f)).bases)).sum g)
            ∧ ∀ d : binary64,
                nearest_double
                  ((to_double (files.map (fun f => (fastq_bases (some f)).bases)).sum).val
                    / (to_double g).val) d →
                d = coverage (files.map (fun f => (fastq_bases (some f)).bases)).sum g)
      ∧ (0 < (files.map (fun f => (fastq_bases (some f)).bases)).sum →
          (files.map (fun f => (fastq_bases (some f)).bases)).sum < 2 ^ 53 → g < 2 ^ 53 →
          nearest_double
              ((((files.map (fun f => (fastq_bases (some f)).bases)).sum : Int) : ℚ) / (g : ℚ))
              (coverage (files.map (fun f => (fastq_bases (some f)).bases)).sum g)
            ∧ ∀ d : binary64,
                nearest_double
                  ((((files.map (fun f => (fastq_bases (some f)).bases)).sum : Int) : ℚ) / (g : ℚ)) d →
                d = coverage (files.map (fun f => (fastq_bases (some f)).bases)).sum g)
      ∧ ((files.map (fun f => (fastq_bases (some f)).bases)).sum < 2 ^ 53 → g < 2 ^ 53 →
          (∃ (m : Nat) (k : Int), m < 2 ^ 53
            ∧ (((files.map (fun f => (fastq_bases (some f)).bases)).sum : Int) : ℚ) / (g : ℚ)
              = (m : ℚ) * (2 : ℚ) ^ k) →
          (coverage (files.map (fun f => (fastq_bases (some f)).bases)).sum g).val
            = (((files.map (fun f => (fastq_bases (some f)).bases)).sum : Int) : ℚ) / (g : ℚ))
      ∧ (g = 100 → (files.map (fun f => (fastq_bases (some f)).bases)).sum = 450 →
          (coverage (files.map (fun f => (fastq_bases (some f)).bases)).sum g).val = 9 / 2
            ∧ printf_2f (coverage (files.map (fun f => (fastq_bases (some f)).bases)).sum g)
              = "4.50") := by
  have hall : ∀ f ∈ files.map some, 0 ≤ (fastq_bases f).bases := by
    intro f hf
    obtain ⟨c, _, rfl⟩ := List.mem_map.mp hf
    exact Int.not_lt.mp (fastq_bases_nonneg c)
  have hs : main_read_loop (files.map some) 0 0
      = some ((files.map (fun f => (fastq_bases (some f)).bases)).sum,
          (files.map (fun f => (fastq_bases (some f)).reads)).sum) := by
    rw [main_read_loop_sums _ 0 0 hall]
    simp [List.map_map, Function.comp_def]
  have hnn : 0 ≤ (files.map (fun f => (fastq_bases (some f)).bases)).sum := by
    apply List.sum_nonneg
    intro x hx
    obtain ⟨c, _, rfl⟩ := List.mem_map.mp hx
    exact Int.not_lt.mp (fastq_bases_nonneg c)
  refine ⟨hs, fun genome hgen hne hmax => ?_, fun hz => ?_, fun hpos => ?_,
    fun hpos htb hg53 => ?_, fun htb hg53 hrep => ?_, fun h100 h450 => ?_⟩
  · have hlen : (files.map some).length ≠ 0 := by
      rw [List.length_map]
      exact fun h => hne (List.length_eq_zero.mp h)
    have hmax' : ¬ (files.map some).length > MAX_FILES := by
      rw [List.length_map]; exact Nat.not_lt.mpr hmax
    unfold main
    rw [if_neg hlen, if_neg hmax', if_neg (by omega), if_neg (by omega), hs, hgen]
  · rw [hz]
    exact coverage_zero g
  · exact ⟨to_double_nearest _ hpos, to_double_nearest g hg, coverage_nearest _ g hpos hg,
      fun d hd => nearest_double_unique _ d _ hd (coverage_nearest _ g hpos hg)⟩
  · have hc := coverage_nearest _ g hpos hg
    rw [to_double_exact _ hnn htb, to_double_exact g hg.le hg53] at hc
    exact ⟨hc, fun d hd => nearest_double_unique _ d _ hd hc⟩
  · obtain ⟨m, k, hm, h⟩ := hrep
    exact coverage_exact _ g m k hnn htb hg hg53 hm h
  · rw [h100, h450]
    have hc : coverage 450 100 = { m := 5066549580791808, k := -50 } := by decide
    refine ⟨?_, by decide⟩
    rw [hc]
    norm_num [binary64.val]

/-- C9, witness: a genome length of 4 and three read files, the first given twice. -/
theorem main_aggregation_witness :
    main_read_loop ([bytes "@a\nACGT\n+\nIIII\n", bytes "@a\nACGT\n+\nIIII\n",
        bytes "@b\nAC\n+\nII\n@c\nA\n+\nI\n"].map some) 0 0 = some (11, 4) :=
  (main_aggregation 4 [bytes "@a\nACGT\n+\nIIII\n", bytes "@a\nACGT\n+\nIIII\n",
    bytes "@b\nAC\n+\nII\n@c\nA\n+\nI\n"] (by decide)).1.trans (by decide)

/-- C9, counterexample: one read file with a single base and a genome length of 3 give
`total_bases = 1`, and the coverage is the `double` 6004799503160661 / 2^54, not the
exact quotient 1/3. -/
theorem coverage_not_exact :
    main_read_loop [some (bytes "@r\nA\n+\nI\n")] 0 0 = some (1, 1)
      ∧ coverage 1 3 = { m := 6004799503160661, k := -54 }
      ∧ (coverage 1 3).val ≠ (1 : ℚ) / 3 := by
  have hc : coverage 1 3 = { m := 6004799503160661, k := -54 } := by decide
  refine ⟨by decide, hc, ?_⟩
  rw [hc]
  norm_num [binary64.val]

/-! ## End-to-end example -/

/-- C11: on the genome `>chr1`, `ACGTACGTAC` `genome_length` returns 10; on the read file
`@r1`, `ACGTACGTAC`, `+`, `IIIIIIIIII` `fastq_bases` returns 10 bases and 1 read; the run
exits with 0 and its coverage, the `double` 10 / 10 = 1, prints as `1.00`. -/
theorem end_to_end_example :
    genome_length (some (bytes ">chr1\nACGTACGTAC\n")) = 10
      ∧ fastq_bases (some (bytes "@r1\nACGTACGTAC\n+\nIIIIIIIIII\n"))
        = { bases := 10, reads := 1 }
      ∧ main (some (bytes ">chr1\nACGTACGTAC\n"))
          [some (bytes "@r1\nACGTACGTAC\n+\nIIIIIIIIII\n")]
        = (0, some { total_bases := 10, total_reads := 1, genome_len := 10,
                     coverage := coverage 10 10 })
      ∧ (coverage 10 10).val = 1
      ∧ printf_2f (coverage 10 10) = "1.00" := by
  have hc : coverage 10 10 = { m := 4503599627370496, k := -52 } := by decide
  refine ⟨by decide, by decide, by decide, ?_, by decide⟩
  rw [hc]
  norm_num [binary64.val]

/-! ## The format tag -/

theorem genome_count_is_genbank (st : GState) (p : List Nat) :
    (genome_count st p).is_genbank = st.is_genbank := by
  unfold genome_count
  split_ifs <;> rfl

/-- Once the format is detected, the loop body leaves `format_detected` and `is_genbank`
as they are, whatever the line. -/
theorem genome_body_tag_fixed (st : GState) (line : List Nat)
    (hd : st.format_detected = true) :
    (genome_body st line).format_detected = true
      ∧ (genome_body st line).is_genbank = st.is_genbank := by
  unfold genome_body
  simp only [hd, Bool.true_eq_false, false_and, if_false]
  exact ⟨by rw [genome_count_format_detected, hd], genome_count_is_genbank _ _⟩

theorem genome_foldl_tag_fixed (lines : List (List Nat)) (st : GState)
    (hd : st.format_detected = true) :
    (lines.foldl genome_body st).format_detected = true
      ∧ (lines.foldl genome_body st).is_genbank = st.is_genbank := by
  induction lines generalizing st with
  | nil => exact ⟨hd, rfl⟩
  | cons l ls ih =>
    have h1 := genome_body_tag_fixed st l hd
    have h2 := ih (genome_body st l) h1.1
    exact ⟨h2.1, h2.2.trans h1.2⟩

/-- C13, evaluation at the failing input: the first meaningful line `ACGT` leaves the
format undetected and is counted by the FASTA branch; the tag is set by the second line,
`LOCUS X`, and the scan goes on in GenBank mode: the file gives 4 + 4. -/
theorem format_tag_decided_late :
    genome_body genome_init (bytes "ACGT\n")
        = { total := 4, in_sequence := false, is_genbank := false, format_detected := false }
      ∧ genome_body (genome_body genome_init (bytes "ACGT\n")) (bytes "LOCUS X\n")
        = { total := 4, in_sequence := false, is_genbank := true, format_detected := true }
      ∧ genome_length (some (bytes "ACGT\nLOCUS X\nORIGIN\nacgt\n//\n")) = 8 := by
  decide

/-! ## FASTA mode, line by line -/

/-- In FASTA mode the loop body adds `fasta_contrib` of the delivered line. -/
theorem genome_body_fasta (st : GState) (line : List Nat)
    (hd : st.format_detected = true) (hg : st.is_genbank = false) :
    genome_body st line = { st with total := st.total + fasta_contrib line } := by
  unfold genome_body genome_count fasta_contrib
  rw [if_neg (by simp [hd]), if_neg (by simp [hg])]
  split_ifs <;> simp

theorem genome_foldl_fasta (lines : List (List Nat)) (st : GState)
    (hd : st.format_detected = true) (hg : st.is_genbank = false) :
    lines.foldl genome_body st
      = { st with total := st.total + (lines.map fasta_contrib).sum } := by
  induction lines generalizing st with
  | nil => simp
  | cons l ls ih =>
    rw [List.foldl_cons, genome_body_fasta st l hd hg,
      ih { st with total := st.total + fasta_contrib l } hd hg]
    simp [Nat.add_assoc]

theorem gzlines_head_cons (c : Nat) (t : List Nat) :
    ∃ u rest, gzlines (c :: t) = (c :: u) :: rest := by
  rw [gzlines_cons]
  by_cases hc : c = 10
  · exact ⟨[], gzlines (gzread 65535 (c :: t)).2, by simp [gzread, hc]⟩
  · exact ⟨(gzread 65534 t).1, gzlines (gzread 65535 (c :: t)).2, by simp [gzread, hc]⟩

theorem fasta_contrib_header (u : List Nat) : fasta_contrib (62 :: u) = 0 := by
  simp [fasta_contrib, cstr, skip_ws, deref, List.takeWhile_cons, List.dropWhile_cons]

/-- The scan of an input that starts with `>`: the format is FASTA and the total is the
sum of `fasta_contrib` over the delivered lines. -/
theorem genome_length_fasta_sum (t : List Nat) :
    genome_length (some (62 :: t)) = (((gzlines (62 :: t)).map fasta_contrib).sum : Nat) := by
  obtain ⟨u, rest, h⟩ := gzlines_head_cons 62 t
  rw [genome_length_some, genome_run, h, List.foldl_cons, genome_body_detect_fasta _ _ rfl,
    genome_foldl_fasta _ _ rfl rfl]
  simp [genome_init, fasta_contrib_header]

/-- C17: for two FASTA inputs `A` and `B` that both begin with `>`, `A` ending with a line
terminator, `genome_length` of `A` followed by `B` is the sum of the two lengths. -/
theorem genome_length_concat (a b : List Nat) (hA : EndsNL (62 :: a)) :
    genome_length (some ((62 :: a) ++ (62 :: b)))
      = genome_length (some (62 :: a)) + genome_length (some (62 :: b)) := by
  have h := gzlines_append (62 :: a) (62 :: b) hA
  rw [List.cons_append] at h
  rw [List.cons_append, genome_length_fasta_sum, genome_length_fasta_sum,
    genome_length_fasta_sum, h]
  simp

/-- C17, witness: two records followed by one record. -/
theorem genome_length_concat_witness :
    genome_length (some ((62 :: bytes "a\nACGT\n>b\nAC\n") ++ (62 :: bytes "c\nGGG")))
      = genome_length (some (62 :: bytes "a\nACGT\n>b\nAC\n"))
        + genome_length (some (62 :: bytes "c\nGGG")) :=
  genome_length_concat _ _ (Or.inr ⟨62 :: bytes "a\nACGT\n>b\nAC", by decide⟩)

/-! ## Sequence lines longer than the buffer -/

theorem count_bases_joinLines (ls : List (List Nat))
    (h : ∀ l ∈ ls, ∀ c ∈ l, isalpha c = true) :
    count_bases (joinLines ls) = (ls.map List.length).sum := by
  induction ls with
  | nil => rfl
  | cons l ls ih =>
    have h1 := count_bases_alpha_line l (h l (List.mem_cons_self _ _))
    have h2 := ih (fun m hm => h m (List.mem_cons_of_mem _ hm))
    simp only [count_bases] at h1 h2 ⊢
    rw [joinLines_cons, List.countP_append, h1, h2]
    simp

theorem plain_joinLines (ls : List (List Nat)) (tail : List Nat)
    (h : ∀ l ∈ ls, ∀ c ∈ l, isalpha c = true) (ht : ∀ c ∈ tail, isalpha c = true) :
    ∀ c ∈ joinLines ls ++ tail, isalpha c = true ∨ c = 10 := by
  intro c hc
  rcases List.mem_append.mp hc with hc | hc
  · simp only [joinLines, List.mem_flatten, List.mem_map] at hc
    obtain ⟨x, ⟨l, hl, rfl⟩, hcx⟩ := hc
    rcases List.mem_append.mp hcx with h1 | h1
    · exact Or.inl (h l hl c h1)
    · exact Or.inr (by simpa using h1)
  · exact Or.inl (ht c hc)

/-- C18: for a FASTA input made of a `>` header line shorter than `MAX_LINE - 1` bytes and
of sequence lines that hold only letters (`ls` the terminated ones, `tail` a last line
without terminator, empty when there is none), `genome_length` returns the total number
of letters, whatever the length of the sequence lines: a line longer than the buffer is
delivered in several pieces and every letter is counted once. -/
theorem genome_length_any_line_length (h : List Nat) (ls : List (List Nat)) (tail : List Nat)
    (hh : 10 ∉ h) (hlen : (62 :: h).length < MAX_LINE - 1)
    (hls : ∀ l ∈ ls, ∀ c ∈ l, isalpha c = true) (ht : ∀ c ∈ tail, isalpha c = true) :
    genome_length (some (joinLines ((62 :: h) :: ls) ++ tail))
      = (((ls.map List.length).sum + tail.length : Nat) : Int) := by
  have h10 : 10 ∉ 62 :: h := by
    intro hm
    rcases List.mem_cons.mp hm with h1 | h1
    · omega
    · exact hh h1
  have hb : (62 :: h).length < 65535 := by simp only [MAX_LINE] at hlen; omega
  have hc : count_bases (joinLines ls ++ tail) = (ls.map List.length).sum + tail.length := by
    have h1 := count_bases_joinLines ls hls
    have h2 : List.countP isalpha tail = tail.length := List.countP_eq_length.mpr ht
    simp only [count_bases] at h1 ⊢
    rw [List.countP_append, h1, h2]
  rw [genome_length_some, joinLines_cons, List.append_assoc,
    genome_run_append _ _ _ (Or.inr ⟨_, rfl⟩), genome_run_line _ _ h10 hb, List.cons_append,
    genome_body_detect_fasta _ _ rfl,
    genome_run_fasta_plain _ _ rfl rfl (plain_joinLines ls tail hls ht), hc]
  simp [genome_init]

/-- C18, witness: a sequence line of 70000 letters, then a short one, then two letters
without terminator. -/
theorem genome_length_any_line_length_witness :
    genome_length (some (joinLines ((62 :: bytes "chr1")
        :: [List.replicate 70000 65, bytes "ACGT"]) ++ bytes "GG"))
      = ((([List.replicate 70000 65, bytes "ACGT"].map List.length).sum
          + (bytes "GG").length : Nat) : Int) :=
  genome_length_any_line_length (bytes "chr1") [List.replicate 70000 65, bytes "ACGT"]
    (bytes "GG") (by decide) (by decide)
    (by
      intro l hl c hc
      rcases List.mem_cons.mp hl with rfl | hl
      · rw [List.eq_of_mem_replicate hc]; rfl
      · rcases List.mem_cons.mp hl with rfl | hl
        · revert c; decide
        · exact absurd hl (List.not_mem_nil _))
    (by decide)

/-! ## A partial trailing record -/

theorem fastq_groups_counted (cs : List (List Nat)) (tb nr : Nat) :
    (fastq_groups tb nr cs).1 = tb + ((counted_lines cs).map seq_len).sum := by
  induction tb, nr, cs using fastq_groups.induct with
  | case1 tb nr a line b c rest ih =>
    rw [fastq_groups, ih]
    simp [counted_lines, Nat.add_assoc]
  | case2 tb nr a line b => simp [fastq_groups, counted_lines]
  | case3 tb nr a line => simp [fastq_groups, counted_lines]
  | case4 tb nr a => simp [fastq_groups, counted_lines]
  | case5 tb nr => simp [fastq_groups, counted_lines]

theorem counted_lines_map_rel (f g : List Nat → Nat) (n : Nat) :
    ∀ A B : List (List Nat), A.length ≤ n → List.Forall₂ (fun c l => f c = g l) A B →
      (counted_lines A).map f = (counted_lines B).map g := by
  induction n with
  | zero =>
    intro A B hA hF
    have : A = [] := List.length_eq_zero.mp (Nat.le_zero.mp hA)
    subst this
    cases hF
    rfl
  | succ n ih =>
    intro A B hA hF
    cases hF with
    | nil => rfl
    | cons h1 hF =>
      cases hF with
      | nil => rfl
      | cons h2 hF =>
        cases hF with
        | nil => simp [counted_lines, h2]
        | cons h3 hF =>
          cases hF with
          | nil => simp [counted_lines, h2]
          | cons h4 hF =>
            simp only [counted_lines, List.map_cons, h2]
            congr 1
            apply ih _ _ _ hF
            simp only [List.length_cons] at hA
            omega

/-- With `4 * k + 2` or `4 * k + 3` lines, the counted lines are the sequence lines of the
`k` complete groups and line `4 * k + 2`. -/
theorem counted_lines_partial (k : Nat) :
    ∀ (cs : List (List Nat)) (r : Nat), cs.length = 4 * k + r → (r = 2 ∨ r = 3) →
      ∃ line, cs[4 * k + 1]? = some line ∧ counted_lines cs = seq_lines cs ++ [line] := by
  induction k with
  | zero =>
    intro cs r hlen hr
    match cs, hlen with
    | [], hlen => simp at hlen; omega
    | [_], hlen => simp at hlen; omega
    | [a, line], _ => exact ⟨line, by simp, by simp [counted_lines, seq_lines]⟩
    | [a, line, b], _ => exact ⟨line, by simp, by simp [counted_lines, seq_lines]⟩
    | a :: line :: b :: c :: rest, hlen => simp only [List.length_cons] at hlen; omega
  | succ k ih =>
    intro cs r hlen hr
    match cs, hlen with
    | [], hlen => simp at hlen; omega
    | [_], hlen => simp at hlen; omega
    | [_, _], hlen => simp at hlen; omega
    | [_, _, _], hlen => simp at hlen; omega
    | a :: line :: b :: c :: rest, hlen =>
      have hr' : rest.length = 4 * k + r := by simp only [List.length_cons] at hlen; omega
      obtain ⟨l, hl1, hl2⟩ := ih rest r hr' hr
      refine ⟨l, ?_, by simp [counted_lines, seq_lines, hl2]⟩
      have e : 4 * (k + 1) + 1 = (4 * k + 1) + 4 := by omega
      rw [e]
      simpa using hl1

theorem counted_len_sum_file (ls : List (List Nat)) (tail : List Nat)
    (hls : ∀ l ∈ ls, 10 ∉ l ∧ l.length + 1 < MAX_LINE) (htail : 10 ∉ tail) :
    ((counted_lines (ls.map (fun l => l ++ [10]) ++ (if tail = [] then [] else [tail]))).map
        seq_len).sum
      = ((counted_lines (file_lines ls tail)).map (fun l => (cstr l).length)).sum := by
  congr 1
  apply counted_lines_map_rel seq_len (fun l => (cstr l).length) _ _ _ (Nat.le_refl _)
  have h1 : List.Forall₂ (fun c l => seq_len c = (cstr l).length)
      (ls.map (fun l => l ++ [10])) ls := by
    rw [List.forall₂_map_left_iff, List.forall₂_same]
    intro l hl
    exact seq_len_line l (hls l hl).1
  unfold file_lines
  split_ifs with ht
  · simpa using h1
  · exact List.rel_append h1 (List.Forall₂.cons (seq_len_tail tail htail) List.Forall₂.nil)

/-- C16 (amended): for a read file of `4 * k + 2` or `4 * k + 3` lines which, with their
terminator, are shorter than `MAX_LINE` bytes, `record_count` is `k` and `base_count` is
the sum of the lengths of the sequence lines of the `k` complete groups plus the length of
line `4 * k + 2`, the orphan sequence line, without its newline; lengths are C string
lengths, the number of bytes of the line when it holds no NUL byte. -/
theorem fastq_bases_orphan_sequence (ls : List (List Nat)) (tail : List Nat) (k r : Nat)
    (hls : ∀ l ∈ ls, 10 ∉ l ∧ l.length + 1 < MAX_LINE)
    (htail : 10 ∉ tail ∧ tail.length < MAX_LINE)
    (hn : (file_lines ls tail).length = 4 * k + r) (hr : r = 2 ∨ r = 3) :
    (fastq_bases (some (joinLines ls ++ tail))).reads = (k : Int)
      ∧ ∃ line, (file_lines ls tail)[4 * k + 1]? = some line
        ∧ (fastq_bases (some (joinLines ls ++ tail))).bases
          = ((((seq_lines (file_lines ls tail)).map (fun l => (cstr l).length)).sum
              + (cstr line).length : Nat) : Int)
        ∧ ((0 ∉ line ∧ ∀ l ∈ seq_lines (file_lines ls tail), 0 ∉ l) →
          (fastq_bases (some (joinLines ls ++ tail))).bases
            = ((((seq_lines (file_lines ls tail)).map List.length).sum + line.length : Nat)
                : Int)) := by
  refine ⟨fastq_bases_record_count ls tail k r hls htail hn (by omega), ?_⟩
  obtain ⟨line, hline, hc⟩ := counted_lines_partial k (file_lines ls tail) r hn hr
  have hb : (fastq_bases (some (joinLines ls ++ tail))).bases
      = ((((seq_lines (file_lines ls tail)).map (fun l => (cstr l).length)).sum
          + (cstr line).length : Nat) : Int) := by
    rw [fastq_bases_some, gzlines_file ls tail hls htail]
    simp only
    rw [fastq_groups_counted, counted_len_sum_file ls tail hls htail.1, hc]
    simp
  refine ⟨line, hline, hb, fun h0 => ?_⟩
  rw [hb, cstr_eq_self line h0.1]
  congr 3
  apply List.map_congr_left
  intro l hl
  rw [cstr_eq_self l (h0.2 l hl)]

/-- C16, witness: one record, then a header and a sequence line of two bases. -/
theorem fastq_bases_orphan_sequence_witness :
    (fastq_bases (some (joinLines [bytes "@r1", bytes "ACGT", bytes "+", bytes "IIII",
        bytes "@r2", bytes "AC"] ++ []))).reads = ((1 : Nat) : Int)
      ∧ ∃ line, (file_lines [bytes "@r1", bytes "ACGT", bytes "+", bytes "IIII",
          bytes "@r2", bytes "AC"] [])[4 * 1 + 1]? = some line
        ∧ (fastq_bases (some (joinLines [bytes "@r1", bytes "ACGT", bytes "+", bytes "IIII",
            bytes "@r2", bytes "AC"] ++ []))).bases
          = ((((seq_lines (file_lines [bytes "@r1", bytes "ACGT", bytes "+", bytes "IIII",
              bytes "@r2", bytes "AC"] [])).map (fun l => (cstr l).length)).sum
              + (cstr line).length : Nat) : Int)
        ∧ ((0 ∉ line ∧ ∀ l ∈ seq_lines (file_lines [bytes "@r1", bytes "ACGT", bytes "+",
              bytes "IIII", bytes "@r2", bytes "AC"] []), 0 ∉ l) →
          (fastq_bases (some (joinLines [bytes "@r1", bytes "ACGT", bytes "+", bytes "IIII",
              bytes "@r2", bytes "AC"] ++ []))).bases
            = ((((seq_lines (file_lines [bytes "@r1", bytes "ACGT", bytes "+", bytes "IIII",
                bytes "@r2", bytes "AC"] [])).map List.length).sum + line.length : Nat)
                : Int)) :=
  fastq_bases_orphan_sequence _ _ 1 2 (by decide) (by decide) (by decide) (by decide)

/-- A header line and a sequence line of 65536 bytes: the reader delivers 65535 bytes of
the sequence line as the second line and the rest as a third line. -/
theorem fastq_bases_long_orphan (t : List Nat) (ht : 10 ∉ t) (h0 : 0 ∉ t)
    (hlen : t.length = 65535) :
    fastq_bases (some (joinLines [[64, 114], t ++ [65]] ++ []))
      = { bases := 65535, reads := 0 } := by
  have hj : joinLines [[64, 114], t ++ [65]] ++ [] = ([64, 114] ++ [10]) ++ (t ++ [65, 10]) := by
    simp [joinLines]
  have hs : seq_len t = 65535 := by
    rw [seq_len_tail t ht, cstr_eq_self t h0, hlen]
  rw [fastq_bases_some, hj, gzlines_append _ _ (Or.inr ⟨_, rfl⟩),
    gzlines_line [64, 114] (by decide) (by decide), gzlines_long_first t _ ht hlen,
    show ([65, 10] : List Nat) = [65] ++ [10] from rfl,
    gzlines_line [65] (by decide) (by decide)]
  simp only [List.singleton_append, fastq_groups, hs]
  rfl

/-- C16, counterexample: a file of two lines, the header `@r` and a sequence line of 65536
letters: `base_count` is 65535, not the length 65536 of the second line. -/
theorem fastq_bases_orphan_truncated :
    (file_lines [[64, 114], List.replicate 65535 65 ++ [65]] []).length = 4 * 0 + 2
      ∧ (List.replicate 65535 65 ++ [65]).length = 65536
      ∧ fastq_bases (some (joinLines [[64, 114], List.replicate 65535 65 ++ [65]] ++ []))
        = { bases := 65535, reads := 0 } :=
  ⟨rfl, by rw [List.length_append, List.length_replicate]; rfl,
    fastq_bases_long_orphan _ (not_mem_replicate_of_ne _ _ _ (by decide))
      (not_mem_replicate_of_ne _ _ _ (by decide)) (List.length_replicate _ _)⟩

/-! ## Sequence-record mode in the words of the specification -/

theorem deref_skip_ws_cstr (x : List Nat) (c : Nat) (hc : c ≠ 0) :
    deref (skip_ws (cstr x)) = c ↔ (skip_ws x).head? = some c := by
  induction x with
  | nil => simp [deref, skip_ws, cstr, hc.symm]
  | cons a as ih =>
    by_cases ha : a = 0
    · subst ha
      simp [deref, skip_ws, cstr, List.takeWhile_cons, List.dropWhile_cons, hc.symm]
    · by_cases hw : a = 32 ∨ a = 9
      · simp [deref, skip_ws, cstr, List.takeWhile_cons, List.dropWhile_cons, ha, hw] at ih ⊢
        exact ih
      · simp [deref, skip_ws, cstr, List.takeWhile_cons, List.dropWhile_cons, ha, hw]

theorem count_bases_skip_ws (x : List Nat) : count_bases (skip_ws x) = count_bases x := by
  induction x with
  | nil => rfl
  | cons a as ih =>
    simp only [skip_ws, count_bases] at ih ⊢
    by_cases hw : a = 32 ∨ a = 9
    · have hna : isalpha a = false := by rcases hw with h | h <;> subst h <;> rfl
      simp [List.dropWhile_cons, hw, ih, List.countP_cons, hna]
    · simp [List.dropWhile_cons, hw]

/-- For a delivered line, the code's contribution is the contribution in the words of
the specification. -/
theorem fasta_contrib_eq (x : List Nat) : fasta_contrib x = fasta_line_count x := by
  have h1 := deref_skip_ws_cstr x 62 (by decide)
  have h2 := deref_skip_ws_cstr x 59 (by decide)
  unfold fasta_contrib fasta_line_count starts_with_gt_or_semi
  rw [count_bases_skip_ws]
  by_cases h : (skip_ws x).head? = some 62 ∨ (skip_ws x).head? = some 59
  · have h' : deref (skip_ws (cstr x)) = 62 ∨ deref (skip_ws (cstr x)) = 59 :=
      h.imp h1.mpr h2.mpr
    simp [h, h']
  · have h' : ¬ (deref (skip_ws (cstr x)) = 62 ∨ deref (skip_ws (cstr x)) = 59) :=
      fun hh => h (hh.imp h1.mp h2.mp)
    simp only [Bool.or_eq_true, beq_iff_eq, h, h', if_false]

theorem cstr_append_nl (l : List Nat) :
    cstr (l ++ [10]) = cstr l ∨ cstr (l ++ [10]) = cstr l ++ [10] := by
  by_cases hfull : (cstr l).length = l.length
  · right
    have h1 : cstr l = l := by
      have := List.takeWhile_sublist (fun c => c != 0) (l := l)
      exact this.eq_of_length hfull
    simp only [cstr] at hfull h1
    simp [cstr, List.takeWhile_append, hfull, List.takeWhile_cons, h1]
  · left
    simp only [cstr] at hfull
    simp [cstr, List.takeWhile_append, hfull]

theorem count_bases_cstr_append_nl (l : List Nat) :
    count_bases (cstr (l ++ [10])) = count_bases (cstr l) := by
  rcases cstr_append_nl l with h | h
  · rw [h]
  · rw [h]
    simp [count_bases, List.countP_append, isalpha]

theorem head_skip_ws_append_nl (l : List Nat) (c : Nat) (hc : c ≠ 10) :
    (skip_ws (l ++ [10])).head? = some c ↔ (skip_ws l).head? = some c := by
  rw [skip_ws_append_nl]
  cases skip_ws l with
  | nil => simp [hc.symm]
  | cons a as => simp

/-- The terminator of a line does not change its contribution. -/
theorem fasta_line_count_append_nl (l : List Nat) :
    fasta_line_count (l ++ [10]) = fasta_line_count l := by
  unfold fasta_line_count starts_with_gt_or_semi
  have h1 := head_skip_ws_append_nl l 62 (by decide)
  have h2 := head_skip_ws_append_nl l 59 (by decide)
  rw [count_bases_cstr_append_nl]
  by_cases h : (skip_ws l).head? = some 62 ∨ (skip_ws l).head? = some 59
  · have h' : (skip_ws (l ++ [10])).head? = some 62 ∨ (skip_ws (l ++ [10])).head? = some 59 :=
      h.imp h1.mpr h2.mpr
    simp [h, h']
  · have h' : ¬ ((skip_ws (l ++ [10])).head? = some 62
        ∨ (skip_ws (l ++ [10])).head? = some 59) := fun hh => h (hh.imp h1.mp h2.mp)
    simp only [Bool.or_eq_true, beq_iff_eq, h, h', if_false]

theorem genome_body_detect_fasta_ws (st : GState) (line : List Nat)
    (hd : st.format_detected = false) (h62 : deref (skip_ws (cstr line)) = 62) :
    genome_body st line = { st with format_detected := true, is_genbank := false } := by
  unfold genome_body
  simp [hd, h62]

theorem fasta_contrib_sum_file (ls : List (List Nat)) (tail : List Nat) :
    ((ls.map (fun l => l ++ [10]) ++ (if tail = [] then [] else [tail])).map
        fasta_contrib).sum
      = ((ls ++ [tail]).map fasta_line_count).sum := by
  have h1 : (ls.map (fun l => l ++ [10])).map fasta_contrib = ls.map fasta_line_count := by
    rw [List.map_map]
    apply List.map_congr_left
    intro l _
    simp [fasta_contrib_eq, fasta_line_count_append_nl]
  rw [List.map_append, List.map_append, List.sum_append, List.sum_append, h1]
  congr 1
  by_cases ht : tail = []
  · subst ht
    simp [fasta_line_count, starts_with_gt_or_semi, skip_ws, cstr, count_bases]
  · simp [ht, fasta_contrib_eq]

theorem genome_run_fasta_file (st : GState) (ls : List (List Nat)) (tail : List Nat)
    (hd : st.format_detected = true) (hg : st.is_genbank = false)
    (hls : ∀ l ∈ ls, 10 ∉ l ∧ l.length + 1 < MAX_LINE)
    (htail : 10 ∉ tail ∧ tail.length < MAX_LINE) :
    genome_run st (joinLines ls ++ tail)
      = { st with total := st.total + ((ls ++ [tail]).map fasta_line_count).sum } := by
  rw [genome_run, gzlines_file ls tail hls htail, genome_foldl_fasta _ st hd hg,
    fasta_contrib_sum_file]

/-- C14 (amended): in a file whose lines, with their terminator, are shorter than
`MAX_LINE` bytes and whose first line starts, after its leading spaces and tabs, with `>`,
every later line that starts, after its leading spaces and tabs, with `>` or `;`
contributes 0 and every other line contributes the number of its alphabetic characters
(those of its C string: of the whole line when it holds no NUL byte); digits, spaces,
tabs, `-`, `*`, carriage return and newline are not alphabetic; the returned total is the
sum of the contributions of the lines. -/
theorem genome_length_fasta_contributions (hdr : List Nat) (ls : List (List Nat))
    (tail : List Nat)
    (hh : (skip_ws hdr).head? = some 62)
    (hhb : 10 ∉ hdr ∧ hdr.length + 1 < MAX_LINE)
    (hls : ∀ l ∈ ls, 10 ∉ l ∧ l.length + 1 < MAX_LINE)
    (htail : 10 ∉ tail ∧ tail.length < MAX_LINE) :
    genome_length (some (joinLines (hdr :: ls) ++ tail))
        = ((((ls ++ [tail]).map fasta_line_count).sum : Nat) : Int)
      ∧ (∀ l ∈ ls ++ [tail], starts_with_gt_or_semi l = true → fasta_line_count l = 0)
      ∧ (∀ l ∈ ls ++ [tail], starts_with_gt_or_semi l = false →
          fasta_line_count l = (cstr l).countP isalpha
            ∧ (0 ∉ l → fasta_line_count l = l.countP isalpha))
      ∧ (∀ c, isdigit c = true ∨ c = 32 ∨ c = 9 ∨ c = 45 ∨ c = 42 ∨ c = 13 ∨ c = 10 →
          isalpha c = false)
      ∧ (∀ c, isalpha c = true ↔ (65 ≤ c ∧ c ≤ 90) ∨ (97 ≤ c ∧ c ≤ 122)) := by
  refine ⟨?_, fun l _ h => ?_, fun l _ h => ⟨?_, fun h0 => ?_⟩, fun c hc => ?_, fun c => ?_⟩
  · have h62 : deref (skip_ws (cstr (hdr ++ [10]))) = 62 := by
      rw [deref_skip_ws_cstr _ 62 (by decide), head_skip_ws_append_nl _ 62 (by decide)]
      exact hh
    have hb : hdr.length < 65535 := by have := hhb.2; simp only [MAX_LINE] at this; omega
    rw [genome_length_some, joinLines_cons, List.append_assoc,
      genome_run_append _ _ _ (Or.inr ⟨_, rfl⟩), genome_run_line _ _ hhb.1 hb,
      genome_body_detect_fasta_ws _ _ rfl h62,
      genome_run_fasta_file _ ls tail rfl rfl hls htail]
    simp [genome_init]
  · simp [fasta_line_count, h]
  · simp [fasta_line_count, h, count_bases]
  · simp [fasta_line_count, h, count_bases, cstr_eq_self l h0]
  · simp only [isdigit, isalpha, Bool.and_eq_true, decide_eq_true_eq, Bool.or_eq_false_iff,
      Bool.and_eq_false_iff, decide_eq_false_iff_not] at hc ⊢
    omega
  · simp only [isalpha, Bool.or_eq_true, Bool.and_eq_true, decide_eq_true_eq]

/-- C14, witness: an indented header, sequence lines with digits, blanks, `-` and `*`, a
`;` comment, a second header and a last line without terminator. -/
theorem genome_length_fasta_contributions_witness :
    genome_length (some (joinLines (bytes " >chr1" :: [bytes "AC-GT 12*", bytes "; note",
        bytes "\tacgt", bytes ">chr2"]) ++ bytes "NN")) = 10 :=
  (genome_length_fasta_contributions (bytes " >chr1") [bytes "AC-GT 12*", bytes "; note",
    bytes "\tacgt", bytes ">chr2"] (bytes "NN") (by decide) (by decide) (by decide)
    (by decide)).1.trans (by decide)

/-- A sequence line of 65535 letters followed by `;A`: the reader delivers `;A` as a line
of its own, which the FASTA branch skips. -/
theorem genome_length_long_sequence_line (t : List Nat) (ht : ∀ c ∈ t, c = 65)
    (hlen : t.length = 65534) :
    fasta_line_count (65 :: t ++ [59, 65]) = 65536
      ∧ genome_length (some (joinLines ([62] :: [65 :: t ++ [59, 65]]) ++ [])) = 65535 := by
  have h10 : 10 ∉ 65 :: t := by
    intro h
    rcases List.mem_cons.mp h with h | h
    · omega
    · have := ht 10 h; omega
  have halpha : ∀ c ∈ 65 :: t, isalpha c = true := by
    intro c hc
    rcases List.mem_cons.mp hc with h | h
    · subst h; rfl
    · rw [ht c h]; rfl
  have hcnt : List.countP isalpha (65 :: t) = 65535 := by
    rw [List.countP_eq_length.mpr halpha, List.length_cons, hlen]
  constructor
  · have h0 : 0 ∉ 65 :: t ++ [59, 65] := by
      intro h
      rcases List.mem_append.mp h with h | h
      · have := isalpha_bounds (halpha 0 h); omega
      · simp at h
    have hs : starts_with_gt_or_semi (65 :: t ++ [59, 65]) = false := by
      simp [starts_with_gt_or_semi, skip_ws, List.dropWhile_cons]
    rw [fasta_line_count, hs, cstr_eq_self _ h0]
    simp only [Bool.false_eq_true, if_false, count_bases]
    rw [List.countP_append, hcnt]
    rfl
  · have hl : gzlines (joinLines ([62] :: [65 :: t ++ [59, 65]]) ++ [])
        = [[62, 10], 65 :: t, [59, 65, 10]] := by
      have hj : joinLines ([62] :: [65 :: t ++ [59, 65]]) ++ []
          = ([62] ++ [10]) ++ ((65 :: t) ++ [59, 65, 10]) := by simp [joinLines]
      rw [hj, gzlines_append _ _ (Or.inr ⟨_, rfl⟩), gzlines_line [62] (by decide) (by decide),
        gzlines_long_first _ _ h10 (by simp [hlen]),
        show ([59, 65, 10] : List Nat) = [59, 65] ++ [10] from rfl,
        gzlines_line [59, 65] (by decide) (by decide)]
      rfl
    rw [genome_length_some, genome_run, hl]
    simp only [List.foldl_cons, List.foldl_nil]
    rw [genome_body_detect_fasta _ _ rfl,
      genome_body_fasta_plain _ (65 :: t) rfl rfl (by simp) (fun c hc => Or.inl (halpha c hc)),
      genome_body_fasta _ _ rfl rfl]
    simp only [count_bases, hcnt]
    rfl

/-- C14, counterexample: after the header `>`, the line of 65535 letters `A` followed by
`;A` does not start with `>` or `;` and has 65536 alphabetic characters, and
`genome_length` returns 65535. -/
theorem genome_length_fasta_line_cut :
    starts_with_gt_or_semi (List.replicate 65535 65 ++ [59, 65]) = false
      ∧ fasta_line_count (List.replicate 65535 65 ++ [59, 65]) = 65536
      ∧ genome_length (some (joinLines ([62] :: [List.replicate 65535 65 ++ [59, 65]]) ++ []))
        = 65535 := by
  have h := genome_length_long_sequence_line (List.replicate 65534 65)
    (fun c hc => List.eq_of_mem_replicate hc) (List.length_replicate _ _)
  exact ⟨rfl, h.1, h.2⟩

/-! ## Annotated-flat mode -/

theorem take_skip_ws_cstr (lit x : List Nat) (h0 : 0 ∉ lit) (hne : lit ≠ []) :
    (skip_ws (cstr x)).take lit.length = lit ↔ (skip_ws x).take lit.length = lit := by
  obtain ⟨a0, as0, rfl⟩ : ∃ a0 as0, lit = a0 :: as0 := by
    cases lit with
    | nil => exact absurd rfl hne
    | cons a0 as0 => exact ⟨a0, as0, rfl⟩
  have ha0 : a0 ≠ 0 := fun h => h0 (by simp [h])
  induction x with
  | nil => simp [skip_ws, cstr]
  | cons c cs ih =>
    by_cases hc : c = 0
    · subst hc
      simp only [skip_ws, cstr, List.takeWhile_cons, List.dropWhile_cons]
      simp
      intro h; exact absurd h.symm ha0
    · by_cases hw : c = 32 ∨ c = 9
      · simp only [skip_ws, cstr] at ih
        simp [skip_ws, cstr, List.takeWhile_cons, List.dropWhile_cons, hc, hw] at ih ⊢
        exact ih
      · have h5 := take_cstr_eq_iff (a0 :: as0) (c :: cs) h0
        simp only [cstr, List.takeWhile_cons, hc, bne_iff_ne, ne_eq, not_false_eq_true,
          decide_True, if_true] at h5
        simp only [skip_ws, cstr, List.takeWhile_cons, List.dropWhile_cons, hc, hw,
          bne_iff_ne, ne_eq, not_false_eq_true, decide_True, if_true, Bool.or_eq_true,
          beq_iff_eq, decide_False, if_false]
        exact h5

theorem take_skip_ws_append_nl (lit l : List Nat) (h10 : 10 ∉ lit) :
    (skip_ws (l ++ [10])).take lit.length = lit ↔ (skip_ws l).take lit.length = lit := by
  rw [skip_ws_append_nl]
  exact take_append_nl_eq_iff lit (skip_ws l) h10

theorem slashes_iff (p : List Nat) :
    (deref p = 47 ∧ deref (p.drop 1) = 47) ↔ p.take 2 = [47, 47] := by
  match p with
  | [] => simp [deref]
  | [a] => simp [deref]
  | a :: b :: rest => simp [deref]

theorem count_bases_skip_number (p : List Nat) :
    count_bases ((p.dropWhile isdigit).dropWhile (fun c => c == 32)) = count_bases p := by
  have h1 : ∀ q : List Nat, count_bases (q.dropWhile (fun c => c == 32)) = count_bases q := by
    intro q
    induction q with
    | nil => rfl
    | cons a as ih =>
      simp only [count_bases] at ih ⊢
      by_cases ha : a = 32
      · subst ha
        simp [List.dropWhile_cons, ih, List.countP_cons, isalpha]
      · simp [List.dropWhile_cons, ha]
  have h2 : ∀ q : List Nat, count_bases (q.dropWhile isdigit) = count_bases q := by
    intro q
    induction q with
    | nil => rfl
    | cons a as ih =>
      simp only [count_bases] at ih ⊢
      by_cases ha : isdigit a = true
      · have hna : isalpha a = false := by
          simp only [isdigit, isalpha, Bool.and_eq_true, decide_eq_true_eq,
            Bool.or_eq_false_iff, Bool.and_eq_false_iff, decide_eq_false_iff_not] at ha ⊢
          omega
        simp [List.dropWhile_cons, ha, ih, List.countP_cons, hna]
      · simp [List.dropWhile_cons, ha]
  rw [h1, h2]

/-- In annotated-flat mode the loop body, on a delivered line: `ORIGIN` turns the state
on, `//` turns it off, any other line adds its letters while the state is on. -/
theorem genome_body_genbank (st : GState) (line : List Nat)
    (hd : st.format_detected = true) (hg : st.is_genbank = true) :
    genome_body st line
      = if starts_with_origin line then { st with in_sequence := true }
        else if starts_with_slashes line then { st with in_sequence := false }
        else if st.in_sequence then { st with total := st.total + count_bases (cstr line) }
        else st := by
  have ho := take_skip_ws_cstr ORIGIN line (by decide) (by decide)
  have hs := take_skip_ws_cstr [47, 47] line (by decide) (by decide)
  have hsl := slashes_iff (skip_ws (cstr line))
  simp only [ORIGIN, List.length_cons, List.length_nil] at ho hs
  unfold genome_body genome_count starts_with_origin starts_with_slashes strncmp_eq
  rw [if_neg (by simp [hd]), if_pos hg]
  simp only [ORIGIN, beq_iff_eq]
  by_cases h1 : List.take 6 (skip_ws line) = [79, 82, 73, 71, 73, 78]
  · rw [if_pos (ho.mpr h1), if_pos h1]
  · rw [if_neg (fun h => h1 (ho.mp h)), if_neg h1]
    by_cases h2 : List.take 2 (skip_ws line) = [47, 47]
    · rw [if_pos (hsl.mpr (hs.mpr h2)), if_pos h2]
    · rw [if_neg (fun h => h2 (hs.mp (hsl.mp h))), if_neg h2]
      by_cases h3 : st.in_sequence = true
      · rw [if_pos h3, if_pos h3]
        simp only [count_bases_skip_number, count_bases_skip_ws]
      · rw [if_neg h3, if_neg h3]

theorem genome_foldl_genbank (lines : List (List Nat)) (st : GState)
    (hd : st.format_detected = true) (hg : st.is_genbank = true) :
    (lines.foldl genome_body st).total
      = st.total + genbank_count st.in_sequence lines := by
  induction lines generalizing st with
  | nil => simp [genbank_count]
  | cons l ls ih =>
    rw [List.foldl_cons, genome_body_genbank st l hd hg, genbank_count]
    by_cases h1 : starts_with_origin l = true
    · rw [if_pos h1, if_pos h1, ih { st with in_sequence := true } hd hg]
    · rw [if_neg h1, if_neg h1]
      by_cases h2 : starts_with_slashes l = true
      · rw [if_pos h2, if_pos h2, ih { st with in_sequence := false } hd hg]
      · rw [if_neg h2, if_neg h2]
        by_cases h3 : st.in_sequence = true
        · rw [if_pos h3, if_pos h3,
            ih { st with total := st.total + count_bases (cstr l) } hd hg]
          simp only [h3, Nat.add_assoc]
        · rw [if_neg h3, if_neg h3, ih st hd hg]
          simp

theorem genbank_count_rel (A B : List (List Nat)) (b : Bool)
    (h : List.Forall₂ (fun c l => starts_with_origin c = starts_with_origin l
      ∧ starts_with_slashes c = starts_with_slashes l
      ∧ count_bases (cstr c) = count_bases (cstr l)) A B) :
    genbank_count b A = genbank_count b B := by
  induction h generalizing b with
  | nil => rfl
  | cons hab _ ih =>
    obtain ⟨h1, h2, h3⟩ := hab
    simp only [genbank_count, h1, h2, h3, ih]

theorem starts_with_origin_append_nl (l : List Nat) :
    starts_with_origin (l ++ [10]) = starts_with_origin l := by
  have h := take_skip_ws_append_nl ORIGIN l (by decide)
  simp only [ORIGIN, List.length_cons, List.length_nil] at h
  unfold starts_with_origin
  rw [Bool.eq_iff_iff]
  simpa [ORIGIN] using h

theorem starts_with_slashes_append_nl (l : List Nat) :
    starts_with_slashes (l ++ [10]) = starts_with_slashes l := by
  have h := take_skip_ws_append_nl [47, 47] l (by decide)
  simp only [List.length_cons, List.length_nil] at h
  unfold starts_with_slashes
  rw [Bool.eq_iff_iff]
  simpa using h

theorem genbank_count_file (ls : List (List Nat)) (tail : List Nat) (b : Bool) :
    genbank_count b (ls.map (fun l => l ++ [10]) ++ (if tail = [] then [] else [tail]))
      = genbank_count b (file_lines ls tail) := by
  apply genbank_count_rel
  have h1 : List.Forall₂ (fun c l => starts_with_origin c = starts_with_origin l
      ∧ starts_with_slashes c = starts_with_slashes l
      ∧ count_bases (cstr c) = count_bases (cstr l)) (ls.map (fun l => l ++ [10])) ls := by
    rw [List.forall₂_map_left_iff, List.forall₂_same]
    intro l _
    exact ⟨starts_with_origin_append_nl l, starts_with_slashes_append_nl l,
      count_bases_cstr_append_nl l⟩
  unfold file_lines
  split_ifs with ht
  · simpa using h1
  · exact List.rel_append h1 (List.Forall₂.cons ⟨rfl, rfl, rfl⟩ List.Forall₂.nil)

/-- The first line that starts with `LOCUS` sets the format to GenBank and is not
counted. -/
theorem genome_body_detect_genbank (st : GState) (line : List Nat)
    (hd : st.format_detected = false) (hl : (skip_ws line).take 5 = LOCUS) :
    genome_body st line = { st with format_detected := true, is_genbank := true } := by
  have h := (take_skip_ws_cstr LOCUS line (by decide) (by decide)).mpr hl
  simp only [LOCUS, List.length_cons, List.length_nil] at h
  unfold genome_body strncmp_eq
  generalize skip_ws (cstr line) = p at h
  match p, h with
  | a :: b :: c :: d :: e :: rest, h =>
    simp only [List.take_succ_cons, List.take_zero, List.cons.injEq, and_true] at h
    obtain ⟨rfl, rfl, rfl, rfl, rfl⟩ := h
    simp [deref, hd, LOCUS]

/-- C15 (amended): in a file whose lines, with their terminator, are shorter than
`MAX_LINE` bytes and whose first line starts, after its leading spaces and tabs, with
`LOCUS`, the returned total is `genbank_count` over the later lines: a line starting with
`ORIGIN` turns the in-sequence state on and a line starting with `//` turns it off,
neither being counted, and every other line read while in-sequence adds its alphabetic
characters; skipping the leading digits and the spaces after them does not change that
number, which for a line without NUL byte is the number of alphabetic characters of the
whole line. -/
theorem genome_length_genbank_spans (locus : List Nat) (ls : List (List Nat))
    (tail : List Nat)
    (hl : (skip_ws locus).take 5 = LOCUS)
    (hlb : 10 ∉ locus ∧ locus.length + 1 < MAX_LINE)
    (hls : ∀ l ∈ ls, 10 ∉ l ∧ l.length + 1 < MAX_LINE)
    (htail : 10 ∉ tail ∧ tail.length < MAX_LINE) :
    genome_length (some (joinLines (locus :: ls) ++ tail))
        = ((genbank_count false (file_lines ls tail) : Nat) : Int)
      ∧ (∀ p : List Nat,
          count_bases ((p.dropWhile isdigit).dropWhile (fun c => c == 32)) = count_bases p)
      ∧ (∀ l : List Nat, 0 ∉ l → count_bases (cstr l) = l.countP isalpha) := by
  refine ⟨?_, count_bases_skip_number, fun l h0 => by rw [cstr_eq_self l h0, count_bases]⟩
  have hl' : (skip_ws (locus ++ [10])).take 5 = LOCUS := by
    have h := take_skip_ws_append_nl LOCUS locus (by decide)
    simp only [LOCUS, List.length_cons, List.length_nil] at h
    exact h.mpr hl
  have hb : locus.length < 65535 := by have := hlb.2; simp only [MAX_LINE] at this; omega
  rw [genome_length_some, joinLines_cons, List.append_assoc,
    genome_run_append _ _ _ (Or.inr ⟨_, rfl⟩), genome_run_line _ _ hlb.1 hb,
    genome_body_detect_genbank _ _ rfl hl', genome_run, gzlines_file ls tail hls htail]
  have hfd := (genome_foldl_tag_fixed
    (ls.map (fun l => l ++ [10]) ++ (if tail = [] then [] else [tail]))
    { genome_init with format_detected := true, is_genbank := true } rfl).1
  rw [if_neg (fun h => absurd (hfd.symm.trans h) (by decide)),
    genome_foldl_genbank _ { genome_init with format_detected := true, is_genbank := true }
      rfl rfl, genbank_count_file]
  simp [genome_init]

/-- C15, witness: a `LOCUS` line, a feature line, two spans of numbered sequence lines and
lines outside the spans. -/
theorem genome_length_genbank_spans_witness :
    genome_length (some (joinLines (bytes "LOCUS X" :: [bytes "FEATURES abc", bytes "ORIGIN",
        bytes "  1 acgt ac", bytes " 11 gg", bytes "//", bytes "junk", bytes "ORIGIN seq",
        bytes " 1 tt"]) ++ bytes "//")) = 10 :=
  (genome_length_genbank_spans (bytes "LOCUS X") [bytes "FEATURES abc", bytes "ORIGIN",
    bytes "  1 acgt ac", bytes " 11 gg", bytes "//", bytes "junk", bytes "ORIGIN seq",
    bytes " 1 tt"] (bytes "//") (by decide) (by decide) (by decide) (by decide)).1.trans
    (by decide)

/-- An in-sequence line of 65535 letters `a` followed by `//`: the reader delivers `//`
as a line of its own, which turns the in-sequence state off, so the next line is not
counted. -/
theorem genome_length_long_genbank_line (t : List Nat) (ht : ∀ c ∈ t, c = 97)
    (hlen : t.length = 65534) :
    genbank_count false (file_lines [ORIGIN, 97 :: t ++ [47, 47], [97, 99]] []) = 65537
      ∧ genome_length (some (joinLines (LOCUS :: [ORIGIN, 97 :: t ++ [47, 47], [97, 99]])
          ++ [])) = 65535 := by
  have h10 : 10 ∉ 97 :: t := by
    intro h
    rcases List.mem_cons.mp h with h | h
    · omega
    · have := ht 10 h; omega
  have halpha : ∀ c ∈ 97 :: t, isalpha c = true := by
    intro c hc
    rcases List.mem_cons.mp hc with h | h
    · subst h; rfl
    · rw [ht c h]; rfl
  have h0 : 0 ∉ 97 :: t := fun h => by have := isalpha_bounds (halpha 0 h); omega
  have hcnt : List.countP isalpha (97 :: t) = 65535 := by
    rw [List.countP_eq_length.mpr halpha, List.length_cons, hlen]
  constructor
  · have h0' : 0 ∉ 97 :: t ++ [47, 47] := by
      intro h
      rcases List.mem_append.mp h with h | h
      · exact h0 h
      · simp at h
    have ho : starts_with_origin (97 :: t ++ [47, 47]) = false := by
      simp [starts_with_origin, skip_ws, List.dropWhile_cons, ORIGIN]
    have hs : starts_with_slashes (97 :: t ++ [47, 47]) = false := by
      simp [starts_with_slashes, skip_ws, List.dropWhile_cons]
    have hc : count_bases (cstr (97 :: t ++ [47, 47])) = 65535 := by
      rw [cstr_eq_self _ h0', count_bases, List.countP_append, hcnt]
      rfl
    have hO : starts_with_origin ORIGIN = true := by decide
    have e : file_lines [ORIGIN, 97 :: t ++ [47, 47], [97, 99]] []
        = [ORIGIN, 97 :: t ++ [47, 47], [97, 99]] := rfl
    rw [e, genbank_count, if_pos hO, genbank_count, if_neg (by rw [ho]; decide),
      if_neg (by rw [hs]; decide), if_pos rfl, hc]
    decide
  · have hl : gzlines (joinLines (LOCUS :: [ORIGIN, 97 :: t ++ [47, 47], [97, 99]]) ++ [])
        = [LOCUS ++ [10], ORIGIN ++ [10], 97 :: t, [47, 47, 10], [97, 99, 10]] := by
      have hj : joinLines (LOCUS :: [ORIGIN, 97 :: t ++ [47, 47], [97, 99]]) ++ []
          = joinLines [LOCUS, ORIGIN] ++ ((97 :: t) ++ joinLines [[47, 47], [97, 99]]) := by
        simp [joinLines]
      rw [hj, gzlines_joinLines [LOCUS, ORIGIN] (by decide),
        gzlines_long_first _ _ h10 (by simp [hlen])]
      have h2 : gzlines (joinLines [[47, 47], [97, 99]]) = [[47, 47, 10], [97, 99, 10]] := by
        decide
      rw [h2]
      rfl
    have hb : genome_body (GState.mk 0 true true true) (97 :: t)
        = GState.mk 65535 true true true := by
      have ho : starts_with_origin (97 :: t) = false := by
        simp [starts_with_origin, skip_ws, List.dropWhile_cons, ORIGIN]
      have hs : starts_with_slashes (97 :: t) = false := by
        simp [starts_with_slashes, skip_ws, List.dropWhile_cons]
      rw [genome_body_genbank _ _ rfl rfl, if_neg (by rw [ho]; decide),
        if_neg (by rw [hs]; decide), if_pos rfl, cstr_eq_self _ h0, count_bases, hcnt]
    have s1 : genome_body genome_init (LOCUS ++ [10]) = GState.mk 0 false true true := by
      decide
    have s2 : genome_body (GState.mk 0 false true true) (ORIGIN ++ [10])
        = GState.mk 0 true true true := by decide
    have s4 : genome_body (GState.mk 65535 true true true) [47, 47, 10]
        = GState.mk 65535 false true true := by decide
    have s5 : genome_body (GState.mk 65535 false true true) [97, 99, 10]
        = GState.mk 65535 false true true := by decide
    rw [genome_length_some, genome_run, hl]
    simp only [List.foldl_cons, List.foldl_nil]
    rw [s1, s2, hb, s4, s5]
    rfl

/-- C15, counterexample: after `LOCUS` and `ORIGIN`, the line of 65535 letters `a`
followed by `//` starts neither with `ORIGIN` nor with `//`, so it and the next line `ac`
are in-sequence lines with 65535 + 2 alphabetic characters; `genome_length` returns
65535. -/
theorem genome_length_genbank_line_cut :
    starts_with_slashes (List.replicate 65535 97 ++ [47, 47]) = false
      ∧ genbank_count false
          (file_lines [ORIGIN, List.replicate 65535 97 ++ [47, 47], [97, 99]] []) = 65537
      ∧ genome_length (some (joinLines
          (LOCUS :: [ORIGIN, List.replicate 65535 97 ++ [47, 47], [97, 99]]) ++ [])) = 65535 := by
  have h := genome_length_long_genbank_line (List.replicate 65534 97)
    (fun c hc => List.eq_of_mem_replicate hc) (List.length_replicate _ _)
  exact ⟨rfl, h.1, h.2⟩

/-! ## Thousands separators -/

theorem set_append_cons {α : Type} (A B : List α) (x v : α) :
    (A ++ x :: B).set A.length v = A ++ v :: B := by
  induction A with
  | nil => rfl
  | cons a A ih => simp [ih]

theorem exists_concat_of_length {α : Type} (X : List α) (n : Nat) (h : X.length = n + 1) :
    ∃ X' x, X = X' ++ [x] ∧ X'.length = n := by
  rcases List.eq_nil_or_concat X with h0 | ⟨L, b, hL⟩
  · rw [h0] at h; simp at h
  · rw [List.concat_eq_append] at hL
    refine ⟨L, b, hL, ?_⟩
    rw [hL] at h
    simpa using h

theorem take_succ_getD (temp : List Nat) (i : Nat) (hi : i < temp.length) :
    temp.take (i + 1) = temp.take i ++ [temp.getD i 0] := by
  rw [List.take_succ]
  simp [List.getD, List.getElem?_eq_getElem hi]

/-- The loop of `format_number`, started with `i` digits left to copy, `count` digits
written since the last comma and `dst` at the end of the room `X`, fills `X` with what
`commas_rev` describes and touches nothing else. -/
theorem format_loop_spec (temp : List Nat) :
    ∀ (i fuel count : Nat) (P X W : List (Option Nat)),
      i ≤ temp.length → i ≤ fuel →
      X.length = (commas_rev count (temp.take i).reverse).length →
      format_loop fuel temp (P ++ X ++ W) ((i : Int) - 1) (((P ++ X).length : Int) - 1)
          (count : Int)
        = P ++ (commas_rev count (temp.take i).reverse).reverse.map some ++ W := by
  intro i
  induction i with
  | zero =>
    intro fuel count P X W _ _ hX
    have hX' : X = [] := by
      apply List.length_eq_zero.mp
      simpa [commas_rev] using hX
    subst hX'
    cases fuel with
    | zero => simp [format_loop, commas_rev]
    | succ f => simp [format_loop, commas_rev]
  | succ i ih =>
    intro fuel count P X W hi hf hX
    obtain ⟨f, rfl⟩ : ∃ f, fuel = f + 1 := ⟨fuel - 1, by omega⟩
    have hi' : i < temp.length := by omega
    have htake := take_succ_getD temp i hi'
    have hr : (temp.take i).reverse.length = i := by
      rw [List.length_reverse, List.length_take]; omega
    rw [htake, List.reverse_append, List.reverse_singleton, List.singleton_append] at hX ⊢
    unfold format_loop
    have hsrc : (0 : Int) ≤ ((i + 1 : Nat) : Int) - 1 := by omega
    rw [if_pos hsrc]
    have hsrcN : (((i + 1 : Nat) : Int) - 1).toNat = i := by omega
    have hsrc1 : ((i + 1 : Nat) : Int) - 1 - 1 = (i : Int) - 1 := by omega
    by_cases hc : count + 1 = 3 ∧ (temp.take i).reverse ≠ []
    · have hcI : (count : Int) + 1 = 3 ∧ (0 : Int) ≤ ((i + 1 : Nat) : Int) - 1 - 1 := by
        have : i ≠ 0 := by
          intro h0
          apply hc.2
          apply List.length_eq_zero.mp
          rw [hr, h0]
        omega
      rw [if_pos hcI]
      rw [commas_rev, if_pos hc] at hX ⊢
      simp only [List.length_cons] at hX
      obtain ⟨X1, x, hX1, hl1⟩ := exists_concat_of_length X _ hX
      obtain ⟨X2, y, hX2, hl2⟩ := exists_concat_of_length X1 _ hl1
      subst hX1 hX2
      have e1 : P ++ ((X2 ++ [y]) ++ [x]) ++ W = (P ++ X2 ++ [y]) ++ x :: W := by simp
      have d1 : (((P ++ ((X2 ++ [y]) ++ [x])).length : Int) - 1).toNat
          = (P ++ X2 ++ [y]).length := by
        simp only [List.length_append, List.length_singleton]; omega
      have e2 : (P ++ X2 ++ [y]) ++ some (temp.getD i 0) :: W
          = (P ++ X2) ++ y :: some (temp.getD i 0) :: W := by simp
      have d2 : (((P ++ ((X2 ++ [y]) ++ [x])).length : Int) - 1 - 1).toNat
          = (P ++ X2).length := by
        simp only [List.length_append, List.length_singleton]; omega
      have d3 : ((P ++ ((X2 ++ [y]) ++ [x])).length : Int) - 1 - 1 - 1
          = ((P ++ X2).length : Int) - 1 := by
        simp only [List.length_append, List.length_singleton]; omega
      rw [hsrcN, d1, e1, set_append_cons, d2, e2, set_append_cons, hsrc1, d3]
      have := ih f 0 P X2 (some 44 :: some (temp.getD i 0) :: W) (by omega) (by omega) hl2
      simp only [Nat.cast_zero] at this
      rw [show (P ++ X2) ++ some 44 :: some (temp.getD i 0) :: W
          = P ++ X2 ++ (some 44 :: some (temp.getD i 0) :: W) by simp, this]
      simp
    · have hcI : ¬ ((count : Int) + 1 = 3 ∧ (0 : Int) ≤ ((i + 1 : Nat) : Int) - 1 - 1) := by
        intro h
        apply hc
        refine ⟨by omega, ?_⟩
        intro h0
        have := congrArg List.length h0
        rw [hr] at this
        simp at this
        omega
      rw [if_neg hcI]
      rw [commas_rev, if_neg hc] at hX ⊢
      simp only [List.length_cons] at hX
      obtain ⟨X1, x, hX1, hl1⟩ := exists_concat_of_length X _ hX
      subst hX1
      have e1 : P ++ (X1 ++ [x]) ++ W = (P ++ X1) ++ x :: W := by simp
      have d1 : (((P ++ (X1 ++ [x])).length : Int) - 1).toNat = (P ++ X1).length := by
        simp only [List.length_append, List.length_singleton]; omega
      have d3 : ((P ++ (X1 ++ [x])).length : Int) - 1 - 1 = ((P ++ X1).length : Int) - 1 := by
        simp only [List.length_append, List.length_singleton]; omega
      rw [hsrcN, d1, e1, set_append_cons, hsrc1, d3]
      have := ih f (count + 1) P X1 (some (temp.getD i 0) :: W) (by omega) (by omega) hl1
      simp only [Nat.cast_add, Nat.cast_one] at this
      rw [show (P ++ X1) ++ some (temp.getD i 0) :: W
          = P ++ X1 ++ (some (temp.getD i 0) :: W) by simp, this]
      simp

theorem commas_rev_length (r : List Nat) :
    ∀ c : Nat, c < 3 → (commas_rev c r).length = r.length + (r.length + c - 1) / 3 := by
  induction r with
  | nil => intro c hc; simp only [commas_rev, List.length_nil]; omega
  | cons d ds ih =>
    intro c hc
    rw [commas_rev]
    by_cases h : c + 1 = 3 ∧ ds ≠ []
    · rw [if_pos h]
      have hpos : 0 < ds.length := List.length_pos.mpr h.2
      simp only [List.length_cons, ih 0 (by omega)]
      omega
    · rw [if_neg h]
      by_cases hds : ds = []
      · subst hds
        simp only [commas_rev, List.length_cons, List.length_nil]
        omega
      · have hc1 : c + 1 < 3 := by
          rcases Nat.lt_or_ge (c + 1) 3 with h3 | h3
          · exact h3
          · exact absurd ⟨by omega, hds⟩ h
        simp only [List.length_cons, ih (c + 1) hc1]
        omega

/-- The text with separators is a leading group of one to three digits followed by groups
of three digits, each after a comma. -/
theorem commas_rev_groups (n : Nat) :
    ∀ r : List Nat, r.length ≤ n → r ≠ [] →
      ∃ (g0 : List Nat) (gs : List (List Nat)),
        r.reverse = g0 ++ gs.flatten
          ∧ (commas_rev 0 r).reverse = g0 ++ (gs.map (fun g => 44 :: g)).flatten
          ∧ 1 ≤ g0.length ∧ g0.length ≤ 3 ∧ ∀ g ∈ gs, g.length = 3 := by
  induction n using Nat.strong_induction_on with
  | _ n ih =>
    intro r hn hr
    match r, hn, hr with
    | [a], _, _ => exact ⟨[a], [], by simp, by simp [commas_rev], by simp, by simp, by simp⟩
    | [a, b], _, _ =>
      exact ⟨[b, a], [], by simp, by simp [commas_rev], by simp, by simp, by simp⟩
    | [a, b, c], _, _ =>
      exact ⟨[c, b, a], [], by simp, by simp [commas_rev], by simp, by simp, by simp⟩
    | a :: b :: c :: d :: rest, hn, _ =>
      have hlen : (d :: rest).length ≤ n - 3 := by
        simp only [List.length_cons] at hn ⊢; omega
      obtain ⟨g0, gs, h1, h2, h3, h4, h5⟩ :=
        ih (n - 3) (by simp only [List.length_cons] at hn; omega) (d :: rest) hlen (by simp)
      refine ⟨g0, gs ++ [[c, b, a]], ?_, ?_, h3, h4, ?_⟩
      · have : (a :: b :: c :: d :: rest).reverse = (d :: rest).reverse ++ [c, b, a] := by
          simp
        rw [this, h1]
        simp
      · have : commas_rev 0 (a :: b :: c :: d :: rest)
            = a :: b :: c :: 44 :: commas_rev 0 (d :: rest) := by
          simp [commas_rev]
        rw [this]
        have : (a :: b :: c :: 44 :: commas_rev 0 (d :: rest)).reverse
            = (commas_rev 0 (d :: rest)).reverse ++ [44, c, b, a] := by simp
        rw [this, h2]
        simp
      · intro g hg
        rcases List.mem_append.mp hg with hg | hg
        · exact h5 g hg
        · simp at hg; subst hg; rfl

theorem filter_groups (g0 : List Nat) (gs : List (List Nat))
    (h : ∀ c ∈ g0 ++ gs.flatten, c ≠ 44) :
    (g0 ++ (gs.map (fun g => 44 :: g)).flatten).filter (fun c => c != 44)
      = g0 ++ gs.flatten := by
  have hf : ∀ l : List Nat, (∀ c ∈ l, c ≠ 44) → l.filter (fun c => c != 44) = l := by
    intro l hl
    rw [List.filter_eq_self]
    intro a ha
    simpa using hl a ha
  induction gs with
  | nil => simpa using hf g0 (by simpa using h)
  | cons g gs ih =>
    have h' : ∀ c ∈ g0 ++ gs.flatten, c ≠ 44 := by
      intro c hc
      apply h
      rcases List.mem_append.mp hc with h1 | h1
      · exact List.mem_append_left _ h1
      · exact List.mem_append_right _ (by simp only [List.flatten_cons]; exact List.mem_append_right _ h1)
    have hg : ∀ c ∈ g, c ≠ 44 := by
      intro c hc
      apply h
      exact List.mem_append_right _ (by simp only [List.flatten_cons]; exact List.mem_append_left _ hc)
    have h0 := hf g0 (fun c hc => h c (List.mem_append_left _ hc))
    have ih' := ih h'
    rw [List.filter_append, h0] at ih' ⊢
    have ih'' := List.append_cancel_left ih'
    simp only [List.map_cons, List.flatten_cons, List.filter_append, List.filter_cons,
      bne_self_eq_false, Bool.false_eq_true, if_false, hf g hg, ih'']

theorem dec_rev_digits (fuel n : Nat) : ∀ c ∈ dec_rev fuel n, 48 ≤ c ∧ c ≤ 57 := by
  induction fuel generalizing n with
  | zero => simp [dec_rev]
  | succ f ih =>
    intro c hc
    rw [dec_rev] at hc
    split_ifs at hc with h
    · simp at hc; omega
    · rcases List.mem_cons.mp hc with h1 | h1
      · omega
      · exact ih _ c h1

theorem dec_rev_ne_nil (fuel n : Nat) : dec_rev (fuel + 1) n ≠ [] := by
  rw [dec_rev]
  split_ifs <;> simp

theorem dec_rev_length_le (k : Nat) :
    ∀ fuel n : Nat, n < 10 ^ (k + 1) → (dec_rev fuel n).length ≤ k + 1 := by
  induction k with
  | zero =>
    intro fuel n hn
    cases fuel with
    | zero => simp [dec_rev]
    | succ f =>
      rw [dec_rev, if_pos (by simpa using hn)]
      simp
  | succ k ih =>
    intro fuel n hn
    cases fuel with
    | zero => simp [dec_rev]
    | succ f =>
      rw [dec_rev]
      split_ifs with h
      · simp
      · have : n / 10 < 10 ^ (k + 1) := by
          rw [Nat.div_lt_iff_lt_mul (by decide)]
          rw [Nat.pow_succ] at hn
          exact hn
        have := ih f (n / 10) this
        simp only [List.length_cons]
        omega

/-- The digits written are the decimal digits of the number. -/
theorem dec_rev_value (fuel n : Nat) (h : n < fuel) :
    Nat.ofDigits 10 ((dec_rev fuel n).map (fun c => c - 48)) = n := by
  induction fuel generalizing n with
  | zero => omega
  | succ f ih =>
    rw [dec_rev]
    split_ifs with h10
    · simp [Nat.ofDigits]
    · have hlt : n / 10 < f := by omega
      rw [List.map_cons, Nat.ofDigits_cons, ih _ hlt]
      omega

theorem replicate_split {α : Type} (N M : Nat) (a : α) (h : N < M) :
    List.replicate M a = List.replicate N a ++ a :: List.replicate (M - 1 - N) a := by
  have e : M = N + (1 + (M - 1 - N)) := by omega
  conv => lhs; rw [e]
  rw [List.replicate_add, List.replicate_add]
  rfl

/-- On an unwritten buffer of 64 bytes, for a text whose separated form fits,
`format_digits` writes the separated text, then the NUL, and leaves the rest unwritten. -/
theorem format_digits_spec (temp : List Nat) (hne : temp ≠ [])
    (hlen : temp.length + (temp.length - 1) / 3 < 64) :
    format_digits temp (List.replicate 64 none) 64
      = (commas_rev 0 temp.reverse).reverse.map some
        ++ some 0 :: List.replicate (63 - (temp.length + (temp.length - 1) / 3)) none := by
  have hpos : 0 < temp.length := List.length_pos.mpr hne
  have hN : (temp.length : Int) + ((temp.length : Int) - 1) / 3
      = ((temp.length + (temp.length - 1) / 3 : Nat) : Int) := by omega
  have hX : (List.replicate (temp.length + (temp.length - 1) / 3) (none : Option Nat)).length
      = (commas_rev 0 (temp.take temp.length).reverse).length := by
    rw [List.length_replicate, commas_rev_length _ 0 (by decide), List.length_reverse,
      List.take_length, Nat.add_zero]
  have hs := format_loop_spec temp temp.length temp.length 0 []
    (List.replicate (temp.length + (temp.length - 1) / 3) none)
    (some 0 :: List.replicate (63 - (temp.length + (temp.length - 1) / 3)) none)
    (Nat.le_refl _) (Nat.le_refl _) hX
  simp only [List.nil_append, List.length_replicate, Nat.cast_zero, List.take_length] at hs
  unfold format_digits
  rw [hN, if_neg (by omega), Int.toNat_ofNat,
    replicate_split (temp.length + (temp.length - 1) / 3) 64 none hlen]
  have hset := set_append_cons
    (List.replicate (temp.length + (temp.length - 1) / 3) (none : Option Nat))
    (List.replicate (64 - 1 - (temp.length + (temp.length - 1) / 3)) none) none (some 0)
  rw [List.length_replicate] at hset
  rw [hset, show 64 - 1 - (temp.length + (temp.length - 1) / 3)
      = 63 - (temp.length + (temp.length - 1) / 3) by omega]
  exact hs

theorem commas_rev_head (c d : Nat) (ds : List Nat) :
    (commas_rev c (d :: ds)).head? = some d := by
  rw [commas_rev]
  split_ifs <;> rfl

/-- C19: for every non-negative `long long` `n` and an unwritten buffer of 64 bytes,
`format_number` writes a text made of a leading group of one to three digits and of groups
of exactly three digits, each after a comma, then the NUL; with the commas removed the text
is the decimal representation of `n`; no comma is first or last; its length is
`len + (len - 1) / 3` for `len` digits; and every position of the text holds a byte the
loop wrote, the positions after the NUL staying unwritten. -/
theorem format_number_groups (n : Int) (h0 : 0 ≤ n) (h63 : n < 2 ^ 63) :
    ∃ (g0 : List Nat) (gs : List (List Nat)),
      sprintf_lld n = g0 ++ gs.flatten
        ∧ 1 ≤ g0.length ∧ g0.length ≤ 3 ∧ (∀ g ∈ gs, g.length = 3)
        ∧ format_number n (List.replicate 64 none) 64
          = (g0 ++ (gs.map (fun g => 44 :: g)).flatten).map some
            ++ some 0 :: List.replicate
                (63 - ((sprintf_lld n).length + ((sprintf_lld n).length - 1) / 3)) none
        ∧ (g0 ++ (gs.map (fun g => 44 :: g)).flatten).length
          = (sprintf_lld n).length + ((sprintf_lld n).length - 1) / 3
        ∧ (g0 ++ (gs.map (fun g => 44 :: g)).flatten).filter (fun c => c != 44)
          = sprintf_lld n
        ∧ (g0 ++ (gs.map (fun g => 44 :: g)).flatten).head? ≠ some 44
        ∧ (g0 ++ (gs.map (fun g => 44 :: g)).flatten).getLast? ≠ some 44
        ∧ (∀ c ∈ sprintf_lld n, 48 ≤ c ∧ c ≤ 57)
        ∧ Nat.ofDigits 10 ((sprintf_lld n).reverse.map (fun c => c - 48)) = n.toNat := by
  have hs : sprintf_lld n = (dec_rev (n.toNat + 1) n.toNat).reverse := by
    rw [sprintf_lld, if_neg (by omega), decimal]
  have hm : n.toNat < 10 ^ (18 + 1) := by
    have : n.toNat < 2 ^ 63 := by omega
    exact Nat.lt_trans this (by decide)
  have hrne := dec_rev_ne_nil n.toNat n.toNat
  have hrlen := dec_rev_length_le 18 (n.toNat + 1) n.toNat hm
  have hdig := dec_rev_digits (n.toNat + 1) n.toNat
  have hval := dec_rev_value (n.toNat + 1) n.toNat (Nat.lt_succ_self _)
  generalize dec_rev (n.toNat + 1) n.toNat = r at hs hrne hrlen hdig hval
  have hrpos : 0 < r.length := List.length_pos.mpr hrne
  have hlen : (sprintf_lld n).length = r.length := by rw [hs, List.length_reverse]
  have hd : ∀ c ∈ sprintf_lld n, 48 ≤ c ∧ c ≤ 57 := by
    intro c hc
    rw [hs] at hc
    exact hdig c (List.mem_reverse.mp hc)
  obtain ⟨g0, gs, h1, h2, h3, h4, h5⟩ := commas_rev_groups r.length r (Nat.le_refl _) hrne
  have hfit : (sprintf_lld n).length + ((sprintf_lld n).length - 1) / 3 < 64 := by
    rw [hlen]; omega
  have hne : sprintf_lld n ≠ [] := by
    intro h
    rw [h] at hlen
    simp at hlen
    omega
  have hfmt := format_digits_spec (sprintf_lld n) hne hfit
  have hrev : (sprintf_lld n).reverse = r := by rw [hs, List.reverse_reverse]
  rw [hrev, h2] at hfmt
  refine ⟨g0, gs, by rw [hs, h1], h3, h4, h5, hfmt, ?_, ?_, ?_, ?_, hd, ?_⟩
  · rw [← h2, List.length_reverse, commas_rev_length r 0 (by decide), hlen, Nat.add_zero]
  · rw [filter_groups g0 gs, ← h1, hs]
    intro c hc
    rw [← h1] at hc
    have := hdig c (List.mem_reverse.mp hc)
    omega
  · match g0, h3 with
    | x :: g, _ =>
      have hx : x ∈ sprintf_lld n := by rw [hs, h1]; simp
      have := hd x hx
      simp only [List.cons_append, List.head?_cons, ne_eq, Option.some.injEq]
      omega
  · rw [← h2, List.getLast?_reverse]
    match r, hrne with
    | d :: ds, _ =>
      rw [commas_rev_head]
      have := hdig d (List.mem_cons_self _ _)
      simp only [ne_eq, Option.some.injEq]
      omega
  · rw [hrev]; exact hval

/-- C19, witness: 1234567. -/
theorem format_number_groups_witness :
    ∃ (g0 : List Nat) (gs : List (List Nat)),
      sprintf_lld 1234567 = g0 ++ gs.flatten
        ∧ 1 ≤ g0.length ∧ g0.length ≤ 3 ∧ (∀ g ∈ gs, g.length = 3)
        ∧ format_number 1234567 (List.replicate 64 none) 64
          = (g0 ++ (gs.map (fun g => 44 :: g)).flatten).map some
            ++ some 0 :: List.replicate
                (63 - ((sprintf_lld 1234567).length + ((sprintf_lld 1234567).length - 1) / 3))
                none
        ∧ (g0 ++ (gs.map (fun g => 44 :: g)).flatten).length
          = (sprintf_lld 1234567).length + ((sprintf_lld 1234567).length - 1) / 3
        ∧ (g0 ++ (gs.map (fun g => 44 :: g)).flatten).filter (fun c => c != 44)
          = sprintf_lld 1234567
        ∧ (g0 ++ (gs.map (fun g => 44 :: g)).flatten).head? ≠ some 44
        ∧ (g0 ++ (gs.map (fun g => 44 :: g)).flatten).getLast? ≠ some 44
        ∧ (∀ c ∈ sprintf_lld 1234567, 48 ≤ c ∧ c ≤ 57)
        ∧ Nat.ofDigits 10 ((sprintf_lld 1234567).reverse.map (fun c => c - 48))
          = (1234567 : Int).toNat :=
  format_number_groups 1234567 (by decide) (by decide)

end FastqDepth
